import Mathlib

/-!
# Verification of the family-tree layout & visibility engine

Shallow embedding of `src/frontend/src/lib/tree-layout.ts` and the
visibility/collapse logic of `src/frontend/src/app/(main)/book/page.tsx`.

Machine numbers (JS doubles) are modelled as `ℚ`: every arithmetic
operation performed by the source on coordinates is exact on the
rationals (additions, subtractions, `min`, `max`, and division by 2),
so `ℚ` reproduces the source semantics exactly on all inputs the
claims quantify over.  JS `±Infinity` sentinels are modelled by
explicit case splits on array bounds, which is what the sentinels
implement in the source.
-/

namespace TreeLayout

/-- `Person` record (`TreeNode` in the source). -/
structure TreeNode where
  handle : String
  displayName : String
  gender : Int
  generation : Int
  birthYear : Option Int
  deathYear : Option Int
  isLiving : Bool
  isPrivacyFiltered : Bool
  isPatrilineal : Bool
  families : List String
  parentFamilies : List String
  deriving Repr, DecidableEq

/-- `FamilyUnit` record (`TreeFamily` in the source). -/
structure TreeFamily where
  handle : String
  fatherHandle : Option String
  motherHandle : Option String
  children : List String
  deriving Repr, DecidableEq

/-- A person with final coordinates (`PositionedNode` in the source). -/
structure PositionedNode where
  node : TreeNode
  x : ℚ
  y : ℚ
  generation : ℕ
  deriving Repr, DecidableEq

-- Sizing constants from tree-layout.ts
def CARD_W : ℚ := 180
def CARD_H : ℚ := 80
def H_SPACE : ℚ := 24
def V_SPACE : ℚ := 80
def COUPLE_GAP : ℚ := 8

/-- Per-depth left/right extents from the anchor (`Contour` in the source). -/
structure Contour where
  left : List ℚ
  right : List ℚ
  deriving Repr, DecidableEq

/-! ## JS `Map` semantics

The source builds `Map`s from the input lists.  `Map.set` on an existing
key overwrites the value but keeps the original insertion position;
iteration (`values()`) follows insertion order.  We model a map as an
association list with exactly those semantics. -/

/-- JS `Map.set`: replace in place if the key exists, else append. -/
def jsSet (m : List (String × α)) (k : String) (v : α) : List (String × α) :=
  if m.any (fun e => e.1 = k) then
    m.map (fun e => if e.1 = k then (k, v) else e)
  else
    m ++ [(k, v)]

/-- JS `Map.get`. With `jsSet`, the first matching entry is the only one. -/
def jsGet (m : List (String × α)) (k : String) : Option α :=
  (m.find? (fun e => e.1 = k)).map (·.2)

/-- `new Map(list.map(x => [key x, x]))`: repeated `set` over the list. -/
def jsMapOf (key : α → String) (l : List α) : List (String × α) :=
  l.foldl (fun m x => jsSet m (key x) x) []

/-- Person lookup as the source's `personMap.get`. -/
def pget (people : List TreeNode) (h : String) : Option TreeNode :=
  jsGet (jsMapOf TreeNode.handle people) h

/-- Family lookup as the source's `familyMap.get`. -/
def fget (families : List TreeFamily) (h : String) : Option TreeFamily :=
  jsGet (jsMapOf TreeFamily.handle families) h

/-! ## Contour combinators (`minSeparation`, `mergeContours`) -/

/-- `minSeparation` from tree-layout.ts lines 102-114: the minimum
distance between two anchors so that at every shared depth the right
contour of the left subtree stays `H_SPACE` left of the left contour of
the right subtree; at least `H_SPACE`. -/
def minSeparation (leftContour rightContour : Contour) : ℚ :=
  let maxDepth := min leftContour.right.length rightContour.left.length
  let minSep := (List.range maxDepth).foldl
    (fun acc d =>
      max acc (leftContour.right.getD d 0 - rightContour.left.getD d 0 + H_SPACE))
    0
  max minSep H_SPACE

/-- `mergeContours` from tree-layout.ts lines 117-130: shift the right
contour by `offset` and combine.  The source pads missing depths with
`±Infinity` so that `min`/`max` select the present side; we split on
array bounds instead, which is the same function.  (When a depth is
missing on both sides of the `right` array -- impossible for the
equal-length contours the program builds -- the source would push
`-Infinity`; we return 0 there.) -/
def mergeContours (leftContour rightContour : Contour) (offset : ℚ) : Contour :=
  let maxDepth := max leftContour.left.length rightContour.left.length
  { left := (List.range maxDepth).map (fun d =>
      if d < leftContour.left.length then
        if d < rightContour.left.length then
          min (leftContour.left.getD d 0) (rightContour.left.getD d 0 + offset)
        else leftContour.left.getD d 0
      else if d < rightContour.left.length then rightContour.left.getD d 0 + offset
      else 0),
    right := (List.range maxDepth).map (fun d =>
      if d < leftContour.right.length then
        if d < rightContour.right.length then
          max (leftContour.right.getD d 0) (rightContour.right.getD d 0 + offset)
        else leftContour.right.getD d 0
      else if d < rightContour.right.length then rightContour.right.getD d 0 + offset
      else 0) }

/-- Width/anchor/contour payload of one child slot (`ChildItem`'s
geometry fields; the tree structure itself is added later). -/
structure ChildGeom where
  width : ℚ
  anchorX : ℚ
  contour : Contour
  deriving Repr, DecidableEq

/-- One step of the child-packing loop of `buildSubtree` (tree-layout.ts
lines 249-257): compute the minimum separation of the next child from
the running merged contour, record it, and merge. -/
def pcStep (acc : List ℚ × Contour) (c : Contour) : List ℚ × Contour :=
  let sep := minSeparation acc.2 c
  (acc.1 ++ [sep], mergeContours acc.2 c sep)

/-- The child-packing loop of `buildSubtree` (tree-layout.ts lines
243-257): child 0 at offset 0; each further child at the minimum
separation from the running merged contour, which then absorbs it.
Returns the per-child anchor offsets (from child 0's anchor) and the
final merged contour. -/
def placeChildren (first : Contour) (rest : List Contour) : List ℚ × Contour :=
  rest.foldl pcStep ([0], first)

/-! ### Facts about the contour combinators -/

lemma init_le_foldl_max (f : ℕ → ℚ) (l : List ℕ) (a : ℚ) :
    a ≤ l.foldl (fun acc d => max acc (f d)) a := by
  induction l generalizing a with
  | nil => exact le_refl a
  | cons y ys ih => exact le_trans (le_max_left a (f y)) (ih _)

lemma mem_le_foldl_max (f : ℕ → ℚ) :
    ∀ (l : List ℕ) (a : ℚ) (x : ℕ), x ∈ l →
      f x ≤ l.foldl (fun acc d => max acc (f d)) a := by
  intro l
  induction l with
  | nil => intro a x hx; cases hx
  | cons y ys ih =>
    intro a x hx
    rcases List.mem_cons.mp hx with h | h
    · subst h
      exact le_trans (le_max_right a (f x)) (init_le_foldl_max f ys _)
    · exact ih _ _ h

/-- `minSeparation` dominates the per-depth requirement at every shared
depth. -/
lemma minSeparation_spec (L R : Contour) (d : ℕ)
    (hdL : d < L.right.length) (hdR : d < R.left.length) :
    L.right.getD d 0 - R.left.getD d 0 + H_SPACE ≤ minSeparation L R := by
  unfold minSeparation
  refine le_trans ?_ (le_max_left _ _)
  exact mem_le_foldl_max
    (fun d => L.right.getD d 0 - R.left.getD d 0 + H_SPACE)
    (List.range (min L.right.length R.left.length)) 0 d
    (List.mem_range.mpr (lt_min hdL hdR))

lemma mergeContours_left_len (L R : Contour) (o : ℚ) :
    (mergeContours L R o).left.length = max L.left.length R.left.length := by
  simp [mergeContours]

lemma mergeContours_right_len (L R : Contour) (o : ℚ) :
    (mergeContours L R o).right.length = max L.left.length R.left.length := by
  simp [mergeContours]

lemma range_map_getD (n : ℕ) (f : ℕ → ℚ) (d : ℕ) (hd : d < n) :
    ((List.range n).map f).getD d 0 = f d := by
  rw [List.getD_eq_getElem _ _ (by simpa using hd)]
  simp

/-- The merged right contour dominates the left argument's right contour
(at depths the left argument covers), provided its two arrays have equal
length. -/
lemma mergeContours_right_ge_left (L R : Contour) (o : ℚ)
    (hL : L.left.length = L.right.length) (d : ℕ) (hd : d < L.right.length) :
    L.right.getD d 0 ≤ (mergeContours L R o).right.getD d 0 := by
  have hdm : d < max L.left.length R.left.length :=
    lt_max_of_lt_left (hL ▸ hd)
  unfold mergeContours
  rw [range_map_getD _ _ d hdm]
  simp only [hd, if_pos]
  by_cases hR : d < R.right.length
  · simp [hR, le_max_left]
  · simp [hR]

/-- The merged right contour dominates the (shifted) right argument's
right contour, provided its two arrays have equal length. -/
lemma mergeContours_right_ge_right (L R : Contour) (o : ℚ)
    (hR : R.left.length = R.right.length) (d : ℕ) (hd : d < R.right.length) :
    R.right.getD d 0 + o ≤ (mergeContours L R o).right.getD d 0 := by
  have hdm : d < max L.left.length R.left.length :=
    lt_max_of_lt_right (hR ▸ hd)
  unfold mergeContours
  rw [range_map_getD _ _ d hdm]
  by_cases hLd : d < L.right.length
  · simp [hLd, hd, le_max_right]
  · simp [hLd, hd]

/-- Default contour used for out-of-range list access in statements. -/
def cnil : Contour := ⟨[], []⟩

/-- Invariant of the child-packing fold: `cs` are the children already
placed, `st` the accumulated offsets and merged contour.  The merged
contour covers every placed child, and any two placed children keep
`H_SPACE` between their facing contours at every shared depth. -/
structure PCInv (cs : List Contour) (st : List ℚ × Contour) : Prop where
  len : st.1.length = cs.length
  clen : st.2.left.length = st.2.right.length
  cov : ∀ i, i < cs.length →
    (cs.getD i cnil).right.length ≤ st.2.right.length ∧
    ∀ d, d < (cs.getD i cnil).right.length →
      st.1.getD i 0 + (cs.getD i cnil).right.getD d 0 ≤ st.2.right.getD d 0
  pair : ∀ i j d, i < j → j < cs.length →
    d < (cs.getD i cnil).right.length →
    d < (cs.getD j cnil).left.length →
    st.1.getD i 0 + (cs.getD i cnil).right.getD d 0 + H_SPACE ≤
      st.1.getD j 0 + (cs.getD j cnil).left.getD d 0

lemma pcStep_inv (cs : List Contour) (st : List ℚ × Contour) (c : Contour)
    (hc : c.left.length = c.right.length) (h : PCInv cs st) :
    PCInv (cs ++ [c]) (pcStep st c) := by
  obtain ⟨hlen, hclen, hcov, hpair⟩ := h
  set sep := minSeparation st.2 c with hsep
  have hgetc : (cs ++ [c]).getD cs.length cnil = c := by
    rw [List.getD_append_right _ _ _ _ (le_refl _)]
    simp
  have hgetold : ∀ i, i < cs.length → (cs ++ [c]).getD i cnil = cs.getD i cnil := by
    intro i hi
    exact List.getD_append _ _ _ _ hi
  have hoffold : ∀ i, i < cs.length →
      (st.1 ++ [sep]).getD i 0 = st.1.getD i 0 := by
    intro i hi
    exact List.getD_append _ _ _ _ (hlen ▸ hi)
  have hoffnew : (st.1 ++ [sep]).getD cs.length 0 = sep := by
    rw [List.getD_append_right _ _ _ _ (le_of_eq hlen)]
    simp [hlen]
  -- the new merged contour
  have hmlen : (mergeContours st.2 c sep).right.length =
      max st.2.left.length c.left.length := mergeContours_right_len _ _ _
  refine ⟨?_, ?_, ?_, ?_⟩
  · simp [pcStep, hlen]
  · simp [pcStep, mergeContours_left_len, mergeContours_right_len]
  · -- coverage
    intro i hi
    rcases Nat.lt_or_ge i cs.length with hilt | hige
    · obtain ⟨hl, hv⟩ := hcov i hilt
      rw [hgetold i hilt] at *
      constructor
      · show (cs.getD i cnil).right.length ≤ (mergeContours st.2 c sep).right.length
        rw [hmlen]
        exact le_trans hl (le_trans (le_of_eq (hclen.symm ▸ rfl)) (le_max_left _ _))
      · intro d hd
        show (st.1 ++ [sep]).getD i 0 + (cs.getD i cnil).right.getD d 0 ≤
          (mergeContours st.2 c sep).right.getD d 0
        rw [hoffold i hilt]
        refine le_trans (hv d hd) ?_
        exact mergeContours_right_ge_left _ _ _ hclen d (lt_of_lt_of_le hd hl)
    · -- the new child
      have hieq : i = cs.length := by
        have : i < cs.length + 1 := by simpa using hi
        omega
      subst hieq
      rw [hgetc]
      constructor
      · show c.right.length ≤ (mergeContours st.2 c sep).right.length
        rw [hmlen, ← hc]
        exact le_max_right _ _
      · intro d hd
        show (st.1 ++ [sep]).getD cs.length 0 + c.right.getD d 0 ≤
          (mergeContours st.2 c sep).right.getD d 0
        rw [hoffnew]
        have := mergeContours_right_ge_right st.2 c sep hc d hd
        linarith
  · -- pairwise separation
    intro i j d hij hj hdi hdj
    rcases Nat.lt_or_ge j cs.length with hjlt | hjge
    · have hilt : i < cs.length := lt_trans hij hjlt
      rw [hgetold i hilt] at hdi ⊢
      rw [hgetold j hjlt] at hdj ⊢
      show (st.1 ++ [sep]).getD i 0 + (cs.getD i cnil).right.getD d 0 + H_SPACE ≤
        (st.1 ++ [sep]).getD j 0 + (cs.getD j cnil).left.getD d 0
      rw [hoffold i hilt, hoffold j hjlt]
      exact hpair i j d hij hjlt hdi hdj
    · have hjeq : j = cs.length := by
        have : j < cs.length + 1 := by simpa using hj
        omega
      subst hjeq
      have hilt : i < cs.length := hij
      rw [hgetold i hilt] at hdi ⊢
      rw [hgetc] at hdj ⊢
      show (st.1 ++ [sep]).getD i 0 + (cs.getD i cnil).right.getD d 0 + H_SPACE ≤
        (st.1 ++ [sep]).getD cs.length 0 + c.left.getD d 0
      rw [hoffold i hilt, hoffnew]
      obtain ⟨hl, hv⟩ := hcov i hilt
      have hdm : d < st.2.right.length := lt_of_lt_of_le hdi hl
      have hms := minSeparation_spec st.2 c d hdm hdj
      have hcv := hv d hdi
      rw [← hsep] at hms
      linarith


lemma foldl_pcStep_inv (rest : List Contour) (cs : List Contour)
    (st : List ℚ × Contour)
    (hrest : ∀ c ∈ rest, c.left.length = c.right.length)
    (h : PCInv cs st) :
    PCInv (cs ++ rest) (rest.foldl pcStep st) := by
  induction rest generalizing cs st with
  | nil => simpa using h
  | cons c rest ih =>
    have h1 : PCInv (cs ++ [c]) (pcStep st c) :=
      pcStep_inv cs st c (hrest c (List.mem_cons_self c rest)) h
    have h2 := ih (cs ++ [c]) (pcStep st c)
      (fun c' hc' => hrest c' (List.mem_cons_of_mem _ hc')) h1
    simpa using h2

lemma placeChildren_inv (first : Contour) (rest : List Contour)
    (hfirst : first.left.length = first.right.length)
    (hrest : ∀ c ∈ rest, c.left.length = c.right.length) :
    PCInv (first :: rest) (placeChildren first rest) := by
  have hbase : PCInv [first] ([0], first) := by
    refine ⟨by simp, hfirst, ?_, ?_⟩
    · intro i hi
      have : i = 0 := by simpa using hi
      subst this
      exact ⟨le_refl _, fun d _ => by simp⟩
    · intro i j d hij hj
      have : j = 0 := by simpa using hj
      omega
  have := foldl_pcStep_inv rest [first] ([0], first) hrest hbase
  simpa [placeChildren] using this

/-- C4: for a family unit's packed children (the contour-based packing
loop of `buildSubtree`), any two sibling subtrees are separated at every
relative depth at which both contours have data: the later sibling's
left contour, shifted by its offset, stays at least `H_SPACE` to the
right of the earlier sibling's shifted right contour, so sibling card
bounding boxes never overlap at any shared depth. -/
theorem sibling_contours_separated (first : Contour) (rest : List Contour)
    (hfirst : first.left.length = first.right.length)
    (hrest : ∀ c ∈ rest, c.left.length = c.right.length)
    (i j d : ℕ) (hij : i < j) (hj : j < (first :: rest).length)
    (hdi : d < ((first :: rest).getD i cnil).right.length)
    (hdj : d < ((first :: rest).getD j cnil).left.length) :
    (placeChildren first rest).1.getD i 0 +
      ((first :: rest).getD i cnil).right.getD d 0 + H_SPACE ≤
    (placeChildren first rest).1.getD j 0 +
      ((first :: rest).getD j cnil).left.getD d 0 :=
  (placeChildren_inv first rest hfirst hrest).pair i j d hij hj hdi hdj

/-- Witness for `sibling_contours_separated`: two single-card leaf
contours, packed at offsets 0 and 204. -/
theorem sibling_contours_separated_witness :
    (placeChildren ⟨[-90], [90]⟩ [⟨[-90], [90]⟩]).1.getD 0 0 +
      (([⟨[-90], [90]⟩, ⟨[-90], [90]⟩] : List Contour).getD 0 cnil).right.getD 0 0 + H_SPACE ≤
    (placeChildren ⟨[-90], [90]⟩ [⟨[-90], [90]⟩]).1.getD 1 0 +
      (([⟨[-90], [90]⟩, ⟨[-90], [90]⟩] : List Contour).getD 1 cnil).left.getD 0 0 :=
  sibling_contours_separated ⟨[-90], [90]⟩ [⟨[-90], [90]⟩] rfl
    (by decide) 0 1 0 (by decide) (by decide) (by decide) (by decide)

/-! ### Facts about the JS map model -/

lemma jsGet_cons_pos (e : String × α) (es : List (String × α)) (k : String)
    (he : e.1 = k) : jsGet (e :: es) k = some e.2 := by
  unfold jsGet
  rw [List.find?_cons_of_pos _ (by simpa using he)]
  rfl

lemma jsGet_cons_neg (e : String × α) (es : List (String × α)) (k : String)
    (he : ¬ e.1 = k) : jsGet (e :: es) k = jsGet es k := by
  unfold jsGet
  rw [List.find?_cons_of_neg _ (by simpa using he)]

lemma jsGet_append_single (m : List (String × α)) (k : String) (v : α)
    (h : ¬ (m.any (fun e => e.1 = k) = true)) :
    jsGet (m ++ [(k, v)]) k = some v := by
  induction m with
  | nil => simp [jsGet]
  | cons e es ih =>
    simp only [List.any_cons, Bool.or_eq_true] at h
    push_neg at h
    obtain ⟨h1, h2⟩ := h
    have hne : ¬ (e.1 = k) := by simpa using h1
    rw [List.cons_append, jsGet_cons_neg e _ k hne]
    exact ih (by simpa using h2)

lemma jsGet_jsSet_self (m : List (String × α)) (k : String) (v : α) :
    jsGet (jsSet m k v) k = some v := by
  unfold jsSet
  by_cases h : m.any (fun e => e.1 = k)
  · rw [if_pos h]
    induction m with
    | nil => simp at h
    | cons e es ih =>
      by_cases he : e.1 = k
      · rw [List.map_cons, if_pos he, jsGet_cons_pos _ _ k rfl]
      · simp only [List.any_cons] at h
        rw [show (decide (e.1 = k)) = false by simpa using he] at h
        simp only [Bool.false_or] at h
        rw [List.map_cons, if_neg he, jsGet_cons_neg e _ k he]
        exact ih h
  · rw [if_neg h]
    exact jsGet_append_single m k v h

lemma jsGet_jsSet_ne (m : List (String × α)) (k k' : String) (v : α)
    (h : k' ≠ k) : jsGet (jsSet m k v) k' = jsGet m k' := by
  have hkk : ¬ (k = k') := fun hk => h hk.symm
  unfold jsSet
  by_cases hm : m.any (fun e => e.1 = k)
  · rw [if_pos hm]
    clear hm
    induction m with
    | nil => simp
    | cons e es ih =>
      by_cases he : e.1 = k
      · have hne : ¬ (e.1 = k') := by rw [he]; exact fun hk => h hk.symm
        rw [List.map_cons, if_pos he, jsGet_cons_neg _ _ k' hkk,
          jsGet_cons_neg e es k' hne]
        exact ih
      · rw [List.map_cons, if_neg he]
        by_cases hek : e.1 = k'
        · rw [jsGet_cons_pos e _ k' hek, jsGet_cons_pos e es k' hek]
        · rw [jsGet_cons_neg e _ k' hek, jsGet_cons_neg e es k' hek]
          exact ih
  · rw [if_neg hm]
    unfold jsGet
    rw [List.find?_append]
    cases hfind : (m.find? fun e => e.1 = k') with
    | some e => simp [hfind]
    | none =>
      simp only [Option.none_or]
      have h1 : List.find? (fun e => decide (e.1 = k')) [(k, v)] = none := by
        simp [hkk]
      rw [h1]

lemma jsSet_mem (m : List (String × α)) (k : String) (v : α) (e : String × α)
    (he : e ∈ jsSet m k v) : e ∈ m ∨ e = (k, v) := by
  unfold jsSet at he
  by_cases hm : m.any (fun e => e.1 = k)
  · simp only [hm, if_true] at he
    obtain ⟨e0, he0, heq⟩ := List.mem_map.mp he
    by_cases h0 : e0.1 = k
    · right; rw [← heq]; simp [h0]
    · left; rw [← heq]; simpa [h0] using he0
  · simp only [hm, if_false] at he
    rcases List.mem_append.mp he with h | h
    · exact Or.inl h
    · right; simpa using h

lemma jsMapOf_entries (key : α → String) (l : List α) :
    ∀ e ∈ jsMapOf key l, e.2 ∈ l ∧ key e.2 = e.1 := by
  have aux : ∀ (l' : List α) (acc : List (String × α)),
      (∀ e ∈ acc, e.2 ∈ l ∧ key e.2 = e.1) → l' ⊆ l →
      ∀ e ∈ l'.foldl (fun m x => jsSet m (key x) x) acc, e.2 ∈ l ∧ key e.2 = e.1 := by
    intro l'
    induction l' with
    | nil => intro acc hacc _ e he; exact hacc e he
    | cons x xs ih =>
      intro acc hacc hsub e he
      refine ih (jsSet acc (key x) x) ?_ (fun y hy => hsub (List.mem_cons_of_mem _ hy)) e he
      intro e' he'
      rcases jsSet_mem acc (key x) x e' he' with h | h
      · exact hacc e' h
      · subst h
        exact ⟨hsub (List.mem_cons_self x xs), rfl⟩
  exact aux l [] (fun e he => absurd he (List.not_mem_nil e)) (fun y hy => hy)

lemma jsGet_of_jsMapOf (key : α → String) (l : List α) (k : String) (v : α)
    (h : jsGet (jsMapOf key l) k = some v) : v ∈ l ∧ key v = k := by
  unfold jsGet at h
  cases hfind : (jsMapOf key l).find? (fun e => e.1 = k) with
  | none => rw [hfind] at h; cases h
  | some e =>
    rw [hfind] at h
    simp only [Option.map] at h
    injection h with h
    have hmem := List.mem_of_find?_eq_some hfind
    have hkey : e.1 = k := by simpa using List.find?_some hfind
    obtain ⟨hv, hk⟩ := jsMapOf_entries key l e hmem
    rw [← h] at *
    exact ⟨hv, by rw [hk, hkey]⟩

lemma pget_mem (people : List TreeNode) (h : String) (p : TreeNode)
    (hp : pget people h = some p) : p ∈ people ∧ p.handle = h :=
  jsGet_of_jsMapOf TreeNode.handle people h p hp

lemma fget_mem (families : List TreeFamily) (h : String) (f : TreeFamily)
    (hf : fget families h = some f) : f ∈ families ∧ f.handle = h :=
  jsGet_of_jsMapOf TreeFamily.handle families h f hf

/-! ## Generation assignment (`assignGenerations`, tree-layout.ts 591-620)

The source's `setGen` recurses through marriage and parent/child edges
with a "keep the smaller value" cutoff; its termination on acyclic data
is by descent of the stored values.  We model the recursion with an
explicit fuel bounding the recursion depth; `genFuel` below is more
than enough for any input satisfying the data model's acyclicity
invariant (on cyclic data the source would not terminate at all). -/

/-- Generation map: JS `Map<string, number>` with insertion order. -/
def Gens := List (String × ℕ)

mutual

/-- `setGen(handle, gen)` from tree-layout.ts lines 595-608.  Fuel
decreases on every call (also on list steps), making the recursion
structural; `genFuel` is generous enough that fuel never runs out on
inputs satisfying the acyclicity invariant. -/
def setGenGo (people : List TreeNode) (families : List TreeFamily) :
    ℕ → Gens → String → ℕ → Gens
  | 0, gens, _, _ => gens
  | fuel + 1, gens, handle, gen =>
    if (match jsGet gens handle with
        | some current => decide (current ≤ gen)
        | none => false) then gens
    else
      let gens1 := jsSet gens handle gen
      match people.find? (fun p => p.handle = handle) with
      | none => gens1
      | some person => setGenFams people families fuel person.families handle gen gens1

/-- The `for (const famId of person.families)` loop of `setGen`. -/
def setGenFams (people : List TreeNode) (families : List TreeFamily) :
    ℕ → List String → String → ℕ → Gens → Gens
  | 0, _, _, _, gens => gens
  | _ + 1, [], _, _, gens => gens
  | fuel + 1, famId :: rest, handle, gen, gens =>
    let gens' :=
      match fget families famId with
      | none => gens
      | some fam =>
        let g1 := match fam.fatherHandle with
          | some f => if f ≠ handle then setGenGo people families fuel gens f gen else gens
          | none => gens
        let g2 := match fam.motherHandle with
          | some m => if m ≠ handle then setGenGo people families fuel g1 m gen else g1
          | none => g1
        setGenKids people families fuel fam.children gen g2
    setGenFams people families fuel rest handle gen gens'

/-- The `for (const ch of fam.children)` loop of `setGen`. -/
def setGenKids (people : List TreeNode) (families : List TreeFamily) :
    ℕ → List String → ℕ → Gens → Gens
  | 0, _, _, gens => gens
  | _ + 1, [], _, gens => gens
  | fuel + 1, ch :: rest, gen, gens =>
    setGenKids people families fuel rest gen (setGenGo people families fuel gens ch (gen + 1))

end

/-- Fuel for `assignGenerations`: bounds the `setGen` recursion depth;
ample for any acyclic input. -/
def genFuel (people : List TreeNode) (families : List TreeFamily) : ℕ :=
  (people.length + families.length +
    families.foldl (fun a f => a + f.children.length) 0 + 5) ^ (people.length + 2)

/-- `assignGenerations` from tree-layout.ts lines 591-620: seed every
still-unassigned root (empty `parentFamilies`) at 0, then pin every
remaining person to 0. -/
def assignGenerations (people : List TreeNode) (families : List TreeFamily) : Gens :=
  let fuel := genFuel people families
  let g1 := people.foldl
    (fun gens p =>
      if p.parentFamilies = [] ∧ jsGet gens p.handle = none then
        setGenGo people families fuel gens p.handle 0
      else gens) []
  people.foldl
    (fun gens p =>
      if jsGet gens p.handle = none then
        setGenGo people families fuel gens p.handle 0
      else gens) g1

/-! ### Facts about generation assignment -/

/-- Generic fold-invariant helper. -/
lemma foldl_invariant {σ β : Type _} (Q : σ → Prop) (f : σ → β → σ) :
    ∀ (l : List β) (init : σ), Q init →
      (∀ s b, b ∈ l → Q s → Q (f s b)) → Q (l.foldl f init) := by
  intro l
  induction l with
  | nil => intro init h _; exact h
  | cons x xs ih =>
    intro init h hstep
    exact ih (f init x) (hstep init x (List.mem_cons_self x xs) h)
      (fun s b hb => hstep s b (List.mem_cons_of_mem _ hb))

/-- Once a handle's generation entry is 0 it can never change again:
`setGen` only overwrites with strictly smaller values and all proposed
values are naturals. -/
lemma setGen_keep0 (people : List TreeNode) (families : List TreeFamily)
    (hP : String) :
    ∀ fuel : ℕ,
      (∀ gens handle gen, jsGet gens hP = some 0 →
        jsGet (setGenGo people families fuel gens handle gen) hP = some 0) ∧
      (∀ fams handle gen gens, jsGet gens hP = some 0 →
        jsGet (setGenFams people families fuel fams handle gen gens) hP = some 0) ∧
      (∀ kids gen gens, jsGet gens hP = some 0 →
        jsGet (setGenKids people families fuel kids gen gens) hP = some 0) := by
  intro fuel
  induction fuel with
  | zero =>
    refine ⟨?_, ?_, ?_⟩
    · intro gens handle gen hQ; simpa [setGenGo] using hQ
    · intro fams handle gen gens hQ; simpa [setGenFams] using hQ
    · intro kids gen gens hQ; simpa [setGenKids] using hQ
  | succ fuel ih =>
    obtain ⟨ihGo, ihFams, ihKids⟩ := ih
    refine ⟨?_, ?_, ?_⟩
    · intro gens handle gen hQ
      simp only [setGenGo]
      by_cases hh : handle = hP
      · have hb : (match jsGet gens handle with
            | some current => decide (current ≤ gen)
            | none => false) = true := by
          rw [hh, hQ]; simp
        rw [if_pos hb]
        exact hQ
      · cases hb : (match jsGet gens handle with
            | some current => decide (current ≤ gen)
            | none => false) with
        | true => simpa using hQ
        | false =>
          rw [if_neg (by simp)]
          have hset : jsGet (jsSet gens handle gen) hP = some 0 := by
            rw [jsGet_jsSet_ne gens handle hP gen (fun heq => hh heq.symm)]
            exact hQ
          cases hfind : people.find? (fun p => p.handle = handle) with
          | none => simpa [hfind] using hset
          | some person =>
            simp only [hfind]
            exact ihFams person.families handle gen _ hset
    · intro fams handle gen gens hQ
      cases fams with
      | nil => simpa [setGenFams] using hQ
      | cons famId rest =>
        simp only [setGenFams]
        cases hf : fget families famId with
        | none =>
          simp only [hf]
          exact ihFams rest handle gen gens hQ
        | some fam =>
          simp only [hf]
          have h1 : jsGet (match fam.fatherHandle with
              | some f => if f ≠ handle then setGenGo people families fuel gens f gen else gens
              | none => gens) hP = some 0 := by
            cases fam.fatherHandle with
            | none => exact hQ
            | some f =>
              by_cases hfh : f ≠ handle
              · simpa [hfh] using ihGo gens f gen hQ
              · simpa [hfh] using hQ
          have h2 : jsGet (match fam.motherHandle with
              | some m => if m ≠ handle then
                  setGenGo people families fuel (match fam.fatherHandle with
                    | some f => if f ≠ handle then setGenGo people families fuel gens f gen else gens
                    | none => gens) m gen
                else (match fam.fatherHandle with
                    | some f => if f ≠ handle then setGenGo people families fuel gens f gen else gens
                    | none => gens)
              | none => (match fam.fatherHandle with
                    | some f => if f ≠ handle then setGenGo people families fuel gens f gen else gens
                    | none => gens)) hP = some 0 := by
            cases fam.motherHandle with
            | none => exact h1
            | some m =>
              by_cases hmh : m ≠ handle
              · simpa [hmh] using ihGo _ m gen h1
              · simpa [hmh] using h1
          exact ihFams rest handle gen _ (ihKids fam.children gen _ h2)
    · intro kids gen gens hQ
      cases kids with
      | nil => simpa [setGenKids] using hQ
      | cons ch rest =>
        simp only [setGenKids]
        exact ihKids rest gen _ (ihGo gens ch (gen + 1) hQ)

/-- A handle is unreferenced when no family unit names it as father,
mother, or child. -/
def UnrefBy (families : List TreeFamily) (hP : String) : Prop :=
  ∀ f ∈ families, f.fatherHandle ≠ some hP ∧ f.motherHandle ≠ some hP ∧
    hP ∉ f.children

/-- If a handle is unreferenced by every family, the propagation can
only ever write 0 into its entry (via a direct top-level call): the
entry stays `none` or `some 0`. -/
lemma setGen_unref (people : List TreeNode) (families : List TreeFamily)
    (hP : String) (href : UnrefBy families hP) :
    ∀ fuel : ℕ,
      (∀ gens handle gen, (handle = hP → gen = 0) →
        (jsGet gens hP = none ∨ jsGet gens hP = some 0) →
        (jsGet (setGenGo people families fuel gens handle gen) hP = none ∨
         jsGet (setGenGo people families fuel gens handle gen) hP = some 0)) ∧
      (∀ fams handle gen gens,
        (jsGet gens hP = none ∨ jsGet gens hP = some 0) →
        (jsGet (setGenFams people families fuel fams handle gen gens) hP = none ∨
         jsGet (setGenFams people families fuel fams handle gen gens) hP = some 0)) ∧
      (∀ kids gen gens, hP ∉ kids →
        (jsGet gens hP = none ∨ jsGet gens hP = some 0) →
        (jsGet (setGenKids people families fuel kids gen gens) hP = none ∨
         jsGet (setGenKids people families fuel kids gen gens) hP = some 0)) := by
  intro fuel
  induction fuel with
  | zero =>
    refine ⟨?_, ?_, ?_⟩
    · intro gens handle gen _ hp; simpa [setGenGo] using hp
    · intro fams handle gen gens hp; simpa [setGenFams] using hp
    · intro kids gen gens _ hp; simpa [setGenKids] using hp
  | succ fuel ih =>
    obtain ⟨ihGo, ihFams, ihKids⟩ := ih
    refine ⟨?_, ?_, ?_⟩
    · intro gens handle gen hcnd hp
      simp only [setGenGo]
      cases hb : (match jsGet gens handle with
          | some current => decide (current ≤ gen)
          | none => false) with
      | true => simpa using hp
      | false =>
        rw [if_neg (by simp)]
        have hset : jsGet (jsSet gens handle gen) hP = none ∨
            jsGet (jsSet gens handle gen) hP = some 0 := by
          by_cases hh : handle = hP
          · subst hh
            right
            rw [hcnd rfl]
            exact jsGet_jsSet_self gens handle 0
          · rw [jsGet_jsSet_ne gens handle hP gen (fun heq => hh heq.symm)]
            exact hp
        cases hfind : people.find? (fun p => p.handle = handle) with
        | none => simpa [hfind] using hset
        | some person =>
          simp only [hfind]
          exact ihFams person.families handle gen _ hset
    · intro fams handle gen gens hp
      cases fams with
      | nil => simpa [setGenFams] using hp
      | cons famId rest =>
        simp only [setGenFams]
        cases hf : fget families famId with
        | none =>
          simp only [hf]
          exact ihFams rest handle gen gens hp
        | some fam =>
          simp only [hf]
          obtain ⟨hfa, hmo, hch⟩ := href fam (fget_mem families famId fam hf).1
          have h1 : jsGet (match fam.fatherHandle with
              | some f => if f ≠ handle then setGenGo people families fuel gens f gen else gens
              | none => gens) hP = none ∨
              jsGet (match fam.fatherHandle with
              | some f => if f ≠ handle then setGenGo people families fuel gens f gen else gens
              | none => gens) hP = some 0 := by
            cases hfh : fam.fatherHandle with
            | none => exact hp
            | some f =>
              have hfne : f ≠ hP := fun heq => hfa (by rw [hfh, heq])
              by_cases hfh2 : f ≠ handle
              · simpa [hfh2] using
                  ihGo gens f gen (fun heq => absurd heq hfne) hp
              · simpa [hfh2] using hp
          have h2 : jsGet (match fam.motherHandle with
              | some m => if m ≠ handle then
                  setGenGo people families fuel (match fam.fatherHandle with
                    | some f => if f ≠ handle then setGenGo people families fuel gens f gen else gens
                    | none => gens) m gen
                else (match fam.fatherHandle with
                    | some f => if f ≠ handle then setGenGo people families fuel gens f gen else gens
                    | none => gens)
              | none => (match fam.fatherHandle with
                    | some f => if f ≠ handle then setGenGo people families fuel gens f gen else gens
                    | none => gens)) hP = none ∨
              jsGet (match fam.motherHandle with
              | some m => if m ≠ handle then
                  setGenGo people families fuel (match fam.fatherHandle with
                    | some f => if f ≠ handle then setGenGo people families fuel gens f gen else gens
                    | none => gens) m gen
                else (match fam.fatherHandle with
                    | some f => if f ≠ handle then setGenGo people families fuel gens f gen else gens
                    | none => gens)
              | none => (match fam.fatherHandle with
                    | some f => if f ≠ handle then setGenGo people families fuel gens f gen else gens
                    | none => gens)) hP = some 0 := by
            cases hmh : fam.motherHandle with
            | none => exact h1
            | some m =>
              have hmne : m ≠ hP := fun heq => hmo (by rw [hmh, heq])
              by_cases hmh2 : m ≠ handle
              · simpa [hmh2] using
                  ihGo _ m gen (fun heq => absurd heq hmne) h1
              · simpa [hmh2] using h1
          exact ihFams rest handle gen _ (ihKids fam.children gen _ hch h2)
    · intro kids gen gens hnot hp
      cases kids with
      | nil => simpa [setGenKids] using hp
      | cons ch rest =>
        simp only [setGenKids]
        have hchne : ch ≠ hP := fun heq => hnot (by rw [heq]; exact List.mem_cons_self _ _)
        exact ihKids rest gen _ (fun hm => hnot (List.mem_cons_of_mem _ hm))
          (ihGo gens ch (gen + 1) (fun heq => absurd heq hchne) hp)

lemma genFuel_pos (people : List TreeNode) (families : List TreeFamily) :
    0 < genFuel people families := by
  unfold genFuel
  exact pow_pos (by omega) _

/-- C5 (amended): every person with empty `parentFamilies` that no
family unit references as father, mother, or child is mapped to
generation 0 by `assignGenerations`.  (The unrestricted claim is false:
a married-in spouse with empty `parentFamilies` that the propagation
reaches first keeps the propagated spouse generation, see
`married_in_root_nonzero_generation`.) -/
theorem unreferenced_root_generation_zero
    (people : List TreeNode) (families : List TreeFamily) (p : TreeNode)
    (hmem : p ∈ people) (hroot : p.parentFamilies = [])
    (href : UnrefBy families p.handle) :
    jsGet (assignGenerations people families) p.handle = some 0 := by
  obtain ⟨l1, l2, hsplit⟩ := List.append_of_mem hmem
  set hP := p.handle with hPdef
  set fuel := genFuel people families with hfuel
  obtain ⟨uGo, uFams, uKids⟩ := setGen_unref people families hP href fuel
  obtain ⟨kGo, kFams, kKids⟩ := setGen_keep0 people families hP fuel
  set step1 := fun (gens : Gens) (q : TreeNode) =>
    if q.parentFamilies = [] ∧ jsGet gens q.handle = none then
      setGenGo people families fuel gens q.handle 0
    else gens with hstep1
  set step2 := fun (gens : Gens) (q : TreeNode) =>
    if jsGet gens q.handle = none then
      setGenGo people families fuel gens q.handle 0
    else gens with hstep2
  have hstep1P : ∀ (g : Gens) (q : TreeNode),
      (jsGet g hP = none ∨ jsGet g hP = some 0) →
      (jsGet (step1 g q) hP = none ∨ jsGet (step1 g q) hP = some 0) := by
    intro g q hp
    rw [hstep1]
    by_cases hc : q.parentFamilies = [] ∧ jsGet g q.handle = none
    · simp only [if_pos hc]
      exact uGo g q.handle 0 (fun _ => rfl) hp
    · simp only [if_neg hc]; exact hp
  have hstep1Q : ∀ (g : Gens) (q : TreeNode),
      jsGet g hP = some 0 → jsGet (step1 g q) hP = some 0 := by
    intro g q hq
    rw [hstep1]
    by_cases hc : q.parentFamilies = [] ∧ jsGet g q.handle = none
    · simp only [if_pos hc]; exact kGo g q.handle 0 hq
    · simp only [if_neg hc]; exact hq
  have hstep2Q : ∀ (g : Gens) (q : TreeNode),
      jsGet g hP = some 0 → jsGet (step2 g q) hP = some 0 := by
    intro g q hq
    rw [hstep2]
    by_cases hc : jsGet g q.handle = none
    · simp only [if_pos hc]; exact kGo g q.handle 0 hq
    · simp only [if_neg hc]; exact hq
  have hA : jsGet (l1.foldl step1 []) hP = none ∨
      jsGet (l1.foldl step1 []) hP = some 0 :=
    foldl_invariant _ step1 l1 [] (Or.inl rfl) (fun s b _ hp => hstep1P s b hp)
  have hB : jsGet (step1 (l1.foldl step1 []) p) hP = some 0 := by
    set g := l1.foldl step1 [] with hg
    rcases hA with hnone | hzero
    · rw [hstep1]
      simp only [if_pos (And.intro hroot hnone)]
      obtain ⟨f', hf'⟩ : ∃ f', fuel = f' + 1 := by
        have := genFuel_pos people families
        exact ⟨fuel - 1, by omega⟩
      obtain ⟨kGo', kFams', kKids'⟩ := setGen_keep0 people families hP f'
      rw [hf']
      simp only [setGenGo]
      rw [if_neg (by rw [hnone]; simp)]
      have hset : jsGet (jsSet g hP 0) hP = some 0 := jsGet_jsSet_self g hP 0
      cases hfind : people.find? (fun q => q.handle = hP) with
      | none => simpa [hfind] using hset
      | some person =>
        simp only [hfind]
        exact kFams' person.families hP 0 _ hset
    · rw [hstep1]
      by_cases hc : p.parentFamilies = [] ∧ jsGet g p.handle = none
      · rw [hc.2] at hzero; cases hzero
      · simp only [if_neg hc]; exact hzero
  show jsGet (people.foldl step2 (people.foldl step1 [])) hP = some 0
  have e1 : people.foldl step1 [] = l2.foldl step1 (step1 (l1.foldl step1 []) p) := by
    conv_lhs => rw [hsplit]
    rw [List.foldl_append, List.foldl_cons]
  have hg1 : jsGet (people.foldl step1 []) hP = some 0 := by
    rw [e1]
    exact foldl_invariant (fun g => jsGet g hP = some 0) step1 l2 _ hB
      (fun s b _ hq => hstep1Q s b hq)
  exact foldl_invariant (fun g => jsGet g hP = some 0) step2 people _ hg1
    (fun s b _ hq => hstep2Q s b hq)

/-! ### Concrete inputs for the generation-assignment claims -/

namespace C5x

/-- Helper building a person record. -/
def mkP (h : String) (fams pfams : List String) : TreeNode :=
  { handle := h, displayName := h, gender := 1, generation := 0,
    birthYear := none, deathYear := none, isLiving := true,
    isPrivacyFiltered := false, isPatrilineal := true,
    families := fams, parentFamilies := pfams }

/-- Root of the bloodline. -/
def r0 : TreeNode := mkP "r0" ["F1"] []

/-- Child of the root, married to `s`. -/
def c : TreeNode := mkP "c" ["F2"] ["F1"]

/-- Married-in spouse: empty `parentFamilies`, reached by propagation. -/
def s : TreeNode := mkP "s" ["F2"] []

def F1 : TreeFamily :=
  { handle := "F1", fatherHandle := some "r0", motherHandle := none,
    children := ["c"] }

def F2 : TreeFamily :=
  { handle := "F2", fatherHandle := some "c", motherHandle := some "s",
    children := [] }

def people : List TreeNode := [r0, c, s]

def families : List TreeFamily := [F1, F2]

end C5x

/-- C5 counterexample: `s` has empty `parentFamilies` (a "root" in the
claim's sense) but `assignGenerations` maps it to generation 1, not 0:
the propagation reaches the married-in spouse through the marriage edge
first, and the root seeding loop skips already-assigned persons. -/
theorem married_in_root_nonzero_generation :
    C5x.s ∈ C5x.people ∧ C5x.s.parentFamilies = [] ∧
    jsGet (assignGenerations C5x.people C5x.families) C5x.s.handle = some 1 ∧
    jsGet (assignGenerations C5x.people C5x.families) C5x.s.handle ≠ some 0 := by
  refine ⟨by decide, rfl, by decide, by decide⟩

namespace C5w

/-- A single unmarried, unreferenced root person. -/
def pA : TreeNode := C5x.mkP "a" [] []

end C5w

/-- Witness for `unreferenced_root_generation_zero` at a one-person
input with no family units. -/
theorem unreferenced_root_generation_zero_witness :
    C5w.pA ∈ [C5w.pA] ∧ C5w.pA.parentFamilies = [] ∧
    UnrefBy [] C5w.pA.handle ∧
    jsGet (assignGenerations [C5w.pA] []) C5w.pA.handle = some 0 :=
  ⟨List.mem_cons_self _ _, rfl, fun f hf => absurd hf (List.not_mem_nil f),
    unreferenced_root_generation_zero [C5w.pA] [] C5w.pA
      (List.mem_cons_self _ _) rfl (fun f hf => absurd hf (List.not_mem_nil f))⟩

/-! ## Subtree structure (tree-layout.ts lines 80-98)

The source smuggles the rule-2 packing data onto the subtree object as
untyped `_childOffsets` / `_blockLeft` properties; here they are
explicit `Option` fields (`none` = property absent). -/

mutual

/-- One family unit's computed layout (`Subtree` in the source). -/
inductive Subtree : Type where
  | mk (family : TreeFamily)
       (father mother patrilineal spouse : Option TreeNode)
       (children : List ChildItem)
       (width anchorX : ℚ) (contour : Contour)
       (childOffsets : Option (List ℚ)) (blockLeft : Option ℚ) : Subtree

/-- One child slot (`ChildItem` in the source): either a nested subtree
or a leaf person, plus its geometry. -/
inductive ChildItem : Type where
  | mk (subtree : Option Subtree) (leaf : Option TreeNode)
       (width anchorX : ℚ) (contour : Contour) : ChildItem

end

def Subtree.family : Subtree → TreeFamily
  | .mk f _ _ _ _ _ _ _ _ _ _ => f

def Subtree.father : Subtree → Option TreeNode
  | .mk _ fa _ _ _ _ _ _ _ _ _ => fa

def Subtree.mother : Subtree → Option TreeNode
  | .mk _ _ mo _ _ _ _ _ _ _ _ => mo

def Subtree.patrilineal : Subtree → Option TreeNode
  | .mk _ _ _ pt _ _ _ _ _ _ _ => pt

def Subtree.spouse : Subtree → Option TreeNode
  | .mk _ _ _ _ sp _ _ _ _ _ _ => sp

def Subtree.children : Subtree → List ChildItem
  | .mk _ _ _ _ _ ch _ _ _ _ _ => ch

def Subtree.width : Subtree → ℚ
  | .mk _ _ _ _ _ _ w _ _ _ _ => w

def Subtree.anchorX : Subtree → ℚ
  | .mk _ _ _ _ _ _ _ a _ _ _ => a

def Subtree.contour : Subtree → Contour
  | .mk _ _ _ _ _ _ _ _ c _ _ => c

def Subtree.childOffsets : Subtree → Option (List ℚ)
  | .mk _ _ _ _ _ _ _ _ _ o _ => o

def Subtree.blockLeft : Subtree → Option ℚ
  | .mk _ _ _ _ _ _ _ _ _ _ b => b

def ChildItem.subtree : ChildItem → Option Subtree
  | .mk s _ _ _ _ => s

def ChildItem.leaf : ChildItem → Option TreeNode
  | .mk _ l _ _ _ => l

def ChildItem.width : ChildItem → ℚ
  | .mk _ _ w _ _ => w

def ChildItem.anchorX : ChildItem → ℚ
  | .mk _ _ _ a _ => a

def ChildItem.contour : ChildItem → Contour
  | .mk _ _ _ _ c => c

/-- Leaf child slot: a bare card (tree-layout.ts lines 173-177/180-184). -/
def leafItem (child : TreeNode) : ChildItem :=
  ChildItem.mk none (some child) CARD_W (CARD_W / 2)
    ⟨[-(CARD_W / 2)], [CARD_W / 2]⟩

/-- First `maxDepth` entries of a contour array (the source copies
`contour.left.length` entries out of each array; the arrays it builds
always have that same length). -/
def takeLen (l : List ℚ) (n : ℕ) : List ℚ :=
  (List.range n).map (fun d => l.getD d 0)

/-- Minimum of a list, seeded from its first element (the source seeds
with `Infinity`; the list is nonempty at every use site). -/
def listMin : List ℚ → ℚ
  | [] => 0
  | x :: xs => xs.foldl min x

/-- Maximum of a list, seeded from its first element (the source seeds
with `-Infinity`; the list is nonempty at every use site). -/
def listMax : List ℚ → ℚ
  | [] => 0
  | x :: xs => xs.foldl max x

/-- The `familyMap.values()` iteration order: first-insertion order,
last-write values. -/
def famValues (families : List TreeFamily) : List TreeFamily :=
  (jsMapOf TreeFamily.handle families).map (·.2)

/-- The `Array.from(familyMap.values()).find(...)` call of
`buildSubtree` (tree-layout.ts lines 160-163). -/
def findChildFamily (families : List TreeFamily) (visited : List String)
    (childHandle : String) : Option TreeFamily :=
  (famValues families).find? (fun f =>
    ¬ visited.contains f.handle ∧
    (f.fatherHandle = some childHandle ∨ f.motherHandle = some childHandle))

mutual

/-- `buildSubtree` from tree-layout.ts lines 139-311.  The `visited`
set of family handles is threaded explicitly (the source mutates it).
Fuel decreases on every call, making the recursion structural;
`buildFuel` below is ample for every input (the recursion depth is
bounded by the number of families plus the lengths of the children
lists walked). -/
def buildSubtree (people : List TreeNode) (families : List TreeFamily) :
    ℕ → TreeFamily → List String → Option Subtree × List String
  | 0, _, visited => (none, visited)
  | fuel + 1, family, visited =>
    if family.handle ∈ visited then (none, visited)
    else
      let visited1 := visited ++ [family.handle]
      let father := family.fatherHandle.bind (pget people)
      let mother := family.motherHandle.bind (pget people)
      let patrilineal :=
        if father.any (·.isPatrilineal) then father
        else if mother.any (·.isPatrilineal) then mother
        else father <|> mother
      let spouse := if patrilineal = father then mother else father
      let res := buildChildren people families fuel family.children visited1
      let children := res.1
      let visited2 := res.2
      let hasCouple := patrilineal.isSome && spouse.isSome
      let coupleWidth := if hasCouple then 2 * CARD_W + COUPLE_GAP else CARD_W
      let halfCard := CARD_W / 2
      let coupleRight := if hasCouple then halfCard + COUPLE_GAP + CARD_W else halfCard
      match children with
      | [] =>
        (some (Subtree.mk family father mother patrilineal spouse []
          coupleWidth halfCard ⟨[-halfCard], [coupleRight]⟩ none none), visited2)
      | [child] =>
        -- RULE 1: single child, parent card center above child card center
        let childAnchor := child.anchorX
        let leftExtent := max halfCard childAnchor
        let childRightExtent := child.width - childAnchor
        let rightExtent := max coupleRight childRightExtent
        let combinedContour : Contour :=
          ⟨min (-halfCard) (-leftExtent) :: child.contour.left,
           max coupleRight rightExtent ::
             takeLen child.contour.right child.contour.left.length⟩
        (some (Subtree.mk family father mother patrilineal spouse [child]
          (leftExtent + rightExtent) leftExtent combinedContour none none), visited2)
      | c0 :: c1 :: crest =>
        -- RULE 2: contour-based packing
        let packed := placeChildren c0.contour ((c1 :: crest).map (·.contour))
        let childOffsets := packed.1
        let mergedChildContour := packed.2
        let firstAnchor := childOffsets.getD 0 0
        let lastAnchor := childOffsets.getD (childOffsets.length - 1) 0
        let midpointOfAnchors := (firstAnchor + lastAnchor) / 2
        let lefts := (childOffsets.zip (c0 :: c1 :: crest)).map
          (fun p => p.1 - p.2.anchorX)
        let rights := (childOffsets.zip (c0 :: c1 :: crest)).map
          (fun p => p.1 + (p.2.width - p.2.anchorX))
        let blockLeft := listMin lefts
        let blockRight := listMax rights
        let childrenTotalWidth := blockRight - blockLeft
        let adjustedAnchorX := midpointOfAnchors - blockLeft
        let leftExtent := max halfCard adjustedAnchorX
        let childrenRight := childrenTotalWidth - adjustedAnchorX
        let rightExtent := max coupleRight childrenRight
        let combinedContour : Contour :=
          ⟨min (-halfCard) (-adjustedAnchorX) ::
             mergedChildContour.left.map (· - midpointOfAnchors),
           max coupleRight childrenRight ::
             (takeLen mergedChildContour.right mergedChildContour.left.length).map
               (· - midpointOfAnchors)⟩
        (some (Subtree.mk family father mother patrilineal spouse (c0 :: c1 :: crest)
          (leftExtent + rightExtent) leftExtent combinedContour
          (some childOffsets) (some blockLeft)), visited2)

/-- The `for (const childHandle of family.children)` loop of
`buildSubtree` (tree-layout.ts lines 155-186). -/
def buildChildren (people : List TreeNode) (families : List TreeFamily) :
    ℕ → List String → List String → List ChildItem × List String
  | 0, _, visited => ([], visited)
  | _ + 1, [], visited => ([], visited)
  | fuel + 1, ch :: rest, visited =>
    match pget people ch with
    | none => buildChildren people families fuel rest visited
    | some child =>
      match findChildFamily families visited ch with
      | some childFam =>
        let built := buildSubtree people families fuel childFam visited
        match built.1 with
        | some sub =>
          let item := ChildItem.mk (some sub) none sub.width sub.anchorX sub.contour
          let rest' := buildChildren people families fuel rest built.2
          (item :: rest'.1, rest'.2)
        | none =>
          let rest' := buildChildren people families fuel rest built.2
          (leafItem child :: rest'.1, rest'.2)
      | none =>
        let rest' := buildChildren people families fuel rest visited
        (leafItem child :: rest'.1, rest'.2)

end

/-- Fuel for `buildSubtree`: bounds the recursion depth, which is at
most the number of distinct families plus the total length of the
children lists walked. -/
def buildFuel (families : List TreeFamily) : ℕ :=
  families.length + families.foldl (fun a f => a + f.children.length) 0 + 2

/-- Mutable placement state of `assignPositions`: the output node list
and the placed-handles set (both mutated in the source). -/
structure LayState where
  nodes : List PositionedNode
  placed : List String
  deriving Repr, DecidableEq

/-- The guarded push used throughout `assignPositions` (first-write
wins): `if (x && !placed.has(x.handle)) { allNodes.push(...); placed.add(...) }`. -/
def pushIfNew (st : LayState) (n : PositionedNode) : LayState :=
  if n.node.handle ∈ st.placed then st
  else { nodes := st.nodes ++ [n], placed := st.placed ++ [n.node.handle] }

/-- The two parent placements at the head of `assignPositions`
(tree-layout.ts lines 326-335): the bloodline person centered at
`patriCenterX`, the spouse to its right. -/
def placeCouple (pt sp : Option TreeNode) (patriCenterX y : ℚ) (g : ℕ)
    (st : LayState) : LayState :=
  let st1 := match pt with
    | some p => pushIfNew st ⟨p, patriCenterX - CARD_W / 2, y, g⟩
    | none => st
  match sp with
  | some p => pushIfNew st1 ⟨p, patriCenterX + CARD_W / 2 + COUPLE_GAP, y, g⟩
  | none => st1

mutual

/-- `assignPositions` from tree-layout.ts lines 315-405: place the
bloodline parent at `startX + anchorX`, the spouse to its right, then
the children (rule 1, rule 2 with stored offsets, or the fallback
spacing when no offsets are stored). -/
def assignPositions : Subtree → ℚ → ℕ → LayState → LayState
  | Subtree.mk _family _father _mother patrilineal spouse children _w anchorX
      _contour childOffsets _blockLeft, startX, generation, st =>
    let y : ℚ := (generation : ℚ) * (CARD_H + V_SPACE)
    let patriCenterX := startX + anchorX
    let st2 := placeCouple patrilineal spouse patriCenterX y generation st
    match children with
    | [] => st2
    | [item] =>
      -- RULE 1: single child anchored at patriCenterX
      assignChildItem item (patriCenterX - item.anchorX) generation st2
    | c0 :: c1 :: crest =>
      match childOffsets with
      | some storedOffsets =>
        let firstAnchor := storedOffsets.getD 0 0
        let lastAnchor := storedOffsets.getD (storedOffsets.length - 1) 0
        let midpoint := (firstAnchor + lastAnchor) / 2
        assignChildrenOffsets (c0 :: c1 :: crest) storedOffsets patriCenterX
          midpoint generation st2
      | none =>
        -- fallback: old width-based spacing
        let childAnchors := ((c0 :: c1 :: crest).foldl
          (fun (acc : List ℚ × ℚ) item =>
            (acc.1 ++ [acc.2 + item.anchorX], acc.2 + item.width + H_SPACE))
          ([], 0)).1
        let firstAnchor := childAnchors.getD 0 0
        let lastAnchor := childAnchors.getD (childAnchors.length - 1) 0
        let midpoint := (firstAnchor + lastAnchor) / 2
        assignChildrenFallback (c0 :: c1 :: crest) (patriCenterX - midpoint)
          generation st2

/-- The rule-2 placement loop (tree-layout.ts lines 365-378): child `i`
is anchored at `patriCenterX - midpoint + storedOffsets[i]`. -/
def assignChildrenOffsets : List ChildItem → List ℚ → ℚ → ℚ → ℕ → LayState → LayState
  | [], _, _, _, _, st => st
  | item :: rest, offs, base, midpoint, generation, st =>
    let childAnchorX := base - midpoint + offs.headD 0
    let st' := assignChildItem item (childAnchorX - item.anchorX) generation st
    assignChildrenOffsets rest offs.tail base midpoint generation st'

/-- The fallback placement loop (tree-layout.ts lines 393-403). -/
def assignChildrenFallback : List ChildItem → ℚ → ℕ → LayState → LayState
  | [], _, _, st => st
  | item :: rest, cx, generation, st =>
    let st' := assignChildItem item cx generation st
    assignChildrenFallback rest (cx + item.width + H_SPACE) generation st'

/-- Place one child slot at left edge `cx`: recurse into a subtree or
push a leaf card one generation down. -/
def assignChildItem : ChildItem → ℚ → ℕ → LayState → LayState
  | ChildItem.mk subOpt leafOpt _w _a _c, cx, generation, st =>
    match subOpt with
    | some sub => assignPositions sub cx (generation + 1) st
    | none =>
      match leafOpt with
      | some leaf =>
        pushIfNew st ⟨leaf, cx, ((generation : ℚ) + 1) * (CARD_H + V_SPACE), generation + 1⟩
      | none => st

end

/-- Connection kind tag. -/
inductive ConnType : Type where
  | parentChild : ConnType
  | couple : ConnType
  deriving Repr, DecidableEq

/-- An orthogonal connector segment (`Connection` in the source). -/
structure Connection where
  fromX : ℚ
  fromY : ℚ
  toX : ℚ
  toY : ℚ
  ctype : ConnType
  deriving Repr, DecidableEq

/-- `PositionedCouple` from the source. -/
structure PositionedCouple where
  familyHandle : String
  fatherPos : Option PositionedNode
  motherPos : Option PositionedNode
  midX : ℚ
  y : ℚ
  deriving Repr, DecidableEq

/-- `LayoutResult` from the source.  `generations` is an integer; on an
empty input the source computes `Math.max() + 1 = -Infinity`, a
degenerate case we render as 0 (no claim concerns it). -/
structure LayoutResult where
  nodes : List PositionedNode
  couples : List PositionedCouple
  connections : List Connection
  width : ℚ
  height : ℚ
  generations : ℤ
  deriving Repr

/-- The handles that appear as a child of any family
(`childOfAnyFamily` in `computeLayout`). -/
def childOfAnyFamily (families : List TreeFamily) : List String :=
  families.foldl (fun s f => s ++ f.children) []

/-- The `rootFamilies` filter of `computeLayout` (tree-layout.ts lines
420-424): a family is a root when one of its resolved parents is not a
child of any family. -/
def rootFamilies (people : List TreeNode) (families : List TreeFamily) :
    List TreeFamily :=
  families.filter (fun f =>
    let fh := f.fatherHandle.bind (pget people)
    let mh := f.motherHandle.bind (pget people)
    (match fh with
     | some p => !((childOfAnyFamily families).contains p.handle)
     | none => false) ||
    (match mh with
     | some p => !((childOfAnyFamily families).contains p.handle)
     | none => false))

/-- The root-subtree loop of `computeLayout` (tree-layout.ts lines
431-436), threading nodes, placed set, visited set and the cursor. -/
def rootPass (people : List TreeNode) (families : List TreeFamily) :
    LayState × List String × ℚ :=
  (rootFamilies people families).foldl
    (fun (acc : LayState × List String × ℚ) fam =>
      let built := buildSubtree people families (buildFuel families) fam acc.2.1
      match built.1 with
      | none => (acc.1, built.2, acc.2.2)
      | some subtree =>
        (assignPositions subtree acc.2.2 0 acc.1, built.2,
          acc.2.2 + subtree.width + H_SPACE))
    (⟨[], []⟩, [], 0)

/-- The orphan loop of `computeLayout` (tree-layout.ts lines 439-451):
everyone not yet placed is appended at the cursor, on the row of its
assigned generation. -/
def orphanPass (people : List TreeNode) (gens : Gens)
    (init : LayState × ℚ) : LayState × ℚ :=
  people.foldl
    (fun (acc : LayState × ℚ) p =>
      if p.handle ∈ acc.1.placed then acc
      else
        let gen := (jsGet gens p.handle).getD 0
        ({ nodes := acc.1.nodes ++
             [⟨p, acc.2, (gen : ℚ) * (CARD_H + V_SPACE), gen⟩],
           placed := acc.1.placed ++ [p.handle] },
         acc.2 + CARD_W + H_SPACE))
    init

/-- The normalization step of `computeLayout` (tree-layout.ts lines
453-462): shift every node so the minimum x becomes 0. -/
def normalizeNodes (nodes : List PositionedNode) : List PositionedNode :=
  match nodes with
  | [] => nodes
  | _ =>
    let minX := listMin (nodes.map (·.x))
    if minX ≠ 0 then nodes.map (fun n => { n with x := n.x - minX }) else nodes

/-- Node lookup by handle over the final coordinates (`nodeMap`). -/
def nget (nodes : List PositionedNode) (h : String) : Option PositionedNode :=
  jsGet (jsMapOf (fun n => n.node.handle) nodes) h

/-- Connector synthesis for one family (tree-layout.ts lines 469-570):
the couple segment plus the strictly orthogonal parent-child routing. -/
def familyConnections (nodes : List PositionedNode) (fam : TreeFamily) :
    List Connection × List PositionedCouple :=
  let fatherNode := fam.fatherHandle.bind (nget nodes)
  let motherNode := fam.motherHandle.bind (nget nodes)
  if fatherNode = none ∧ motherNode = none then ([], [])
  else
    let patriNode :=
      (if fatherNode.any (·.node.isPatrilineal) then fatherNode else motherNode)
        <|> fatherNode
    let coupleOut : List Connection × List PositionedCouple :=
      match fatherNode, motherNode with
      | some fa, some mo =>
        let left := if fa.x < mo.x then fa else mo
        let right := if fa.x < mo.x then mo else fa
        ([⟨left.x + CARD_W, left.y + CARD_H / 2, right.x, right.y + CARD_H / 2,
            ConnType.couple⟩],
         [⟨fam.handle, some fa, some mo, (left.x + CARD_W + right.x) / 2, left.y⟩])
      | _, _ => ([], [])
    let pcOut : List Connection :=
      match patriNode with
      | none => []
      | some patri =>
        if fam.children = [] then []
        else
          let parentCX := patri.x + CARD_W / 2
          let parentBottomY := patri.y + CARD_H
          let placedChildren := fam.children.filterMap (nget nodes)
          match placedChildren with
          | [] => []
          | c0 :: crest =>
            let childTopY := c0.y
            let busY := parentBottomY + (childTopY - parentBottomY) * (1 / 2)
            match crest with
            | [] =>
              let childCX := c0.x + CARD_W / 2
              if |childCX - parentCX| < 1 then
                [⟨parentCX, parentBottomY, parentCX, childTopY, ConnType.parentChild⟩]
              else
                [⟨parentCX, parentBottomY, parentCX, busY, ConnType.parentChild⟩,
                 ⟨parentCX, busY, childCX, busY, ConnType.parentChild⟩,
                 ⟨childCX, busY, childCX, childTopY, ConnType.parentChild⟩]
            | _ :: _ =>
              let childCenters :=
                ((c0 :: crest).map (fun c => c.x + CARD_W / 2)).mergeSort (· ≤ ·)
              let busLeft := min parentCX (childCenters.getD 0 0)
              let busRight :=
                max parentCX (childCenters.getD (childCenters.length - 1) 0)
              ⟨parentCX, parentBottomY, parentCX, busY, ConnType.parentChild⟩ ::
              ⟨busLeft, busY, busRight, busY, ConnType.parentChild⟩ ::
              (c0 :: crest).map (fun c =>
                ⟨c.x + CARD_W / 2, busY, c.x + CARD_W / 2, childTopY,
                  ConnType.parentChild⟩)
    (coupleOut.1 ++ pcOut, coupleOut.2)

/-- `computeLayout` from tree-layout.ts lines 409-587. -/
def computeLayout (people : List TreeNode) (families : List TreeFamily) :
    LayoutResult :=
  let gens := assignGenerations people families
  let afterRoots := rootPass people families
  let afterOrphans := orphanPass people gens (afterRoots.1, afterRoots.2.2)
  let nodes := normalizeNodes afterOrphans.1.nodes
  let connAcc := families.foldl
    (fun (acc : List Connection × List PositionedCouple) fam =>
      let out := familyConnections nodes fam
      (acc.1 ++ out.1, acc.2 ++ out.2))
    ([], [])
  let maxX := nodes.foldl (fun a n => max a (n.x + CARD_W)) 0
  let maxY := nodes.foldl (fun a n => max a (n.y + CARD_H)) 0
  { nodes := nodes
    couples := connAcc.2
    connections := connAcc.1
    width := maxX + H_SPACE
    height := maxY + V_SPACE / 2
    generations :=
      match gens with
      | [] => 0
      | g0 :: grest => (grest.foldl (fun a e => max a (e.2 : ℤ)) (g0.2 : ℤ)) + 1 }

/-! ### The placement invariant (claims on `assignPositions`) -/

/-- Handles of the nodes placed so far. -/
def nodeHandles (st : LayState) : List String :=
  st.nodes.map (fun n => n.node.handle)

/-- The key state invariant of the placement pass: node handles are
pairwise distinct and coincide with the placed set. -/
def LayInv (st : LayState) : Prop :=
  (nodeHandles st).Nodup ∧ ∀ h, h ∈ nodeHandles st ↔ h ∈ st.placed

/-- One placement step only extends the state: nodes are appended,
placed handles are kept, and the invariant is preserved. -/
structure ExtOf (st st' : LayState) : Prop where
  nodes_prefix : ∃ t, st'.nodes = st.nodes ++ t
  placed_mono : ∀ h, h ∈ st.placed → h ∈ st'.placed
  inv : LayInv st → LayInv st'

lemma ExtOf.refl (st : LayState) : ExtOf st st :=
  ⟨⟨[], by simp⟩, fun _ h => h, fun h => h⟩

lemma ExtOf.trans {a b c : LayState} (h1 : ExtOf a b) (h2 : ExtOf b c) :
    ExtOf a c := by
  obtain ⟨⟨t1, ht1⟩, m1, i1⟩ := h1
  obtain ⟨⟨t2, ht2⟩, m2, i2⟩ := h2
  exact ⟨⟨t1 ++ t2, by rw [ht2, ht1, List.append_assoc]⟩,
    fun h hh => m2 h (m1 h hh), fun h => i2 (i1 h)⟩

lemma pushIfNew_ext (st : LayState) (n : PositionedNode) :
    ExtOf st (pushIfNew st n) := by
  unfold pushIfNew
  by_cases hmem : n.node.handle ∈ st.placed
  · rw [if_pos hmem]; exact ExtOf.refl st
  · rw [if_neg hmem]
    refine ⟨⟨[n], rfl⟩, ?_, ?_⟩
    · intro h hh
      exact List.mem_append_left _ hh
    · rintro ⟨hnd, hiff⟩
      constructor
      · unfold nodeHandles
        simp only [List.map_append, List.map_cons, List.map_nil]
        rw [List.nodup_append]
        refine ⟨hnd, List.nodup_singleton _, ?_⟩
        intro a ha hb
        simp only [List.mem_singleton] at hb
        subst hb
        exact hmem ((hiff _).mp ha)
      · intro h
        unfold nodeHandles
        simp only [List.map_append, List.map_cons, List.map_nil,
          List.mem_append, List.mem_singleton]
        constructor
        · rintro (hh | hh)
          · exact Or.inl ((hiff h).mp hh)
          · exact Or.inr hh
        · rintro (hh | hh)
          · exact Or.inl ((hiff h).mpr hh)
          · exact Or.inr hh

/-- If the pushed handle is fresh, the pushed node is in the output. -/
lemma pushIfNew_mem (st : LayState) (n : PositionedNode)
    (hmem : n.node.handle ∉ st.placed) : n ∈ (pushIfNew st n).nodes := by
  unfold pushIfNew
  rw [if_neg hmem]
  exact List.mem_append_right _ (List.mem_singleton.mpr rfl)

/-- After a push the handle is placed. -/
lemma pushIfNew_placed (st : LayState) (n : PositionedNode) :
    n.node.handle ∈ (pushIfNew st n).placed := by
  unfold pushIfNew
  by_cases hmem : n.node.handle ∈ st.placed
  · rw [if_pos hmem]; exact hmem
  · rw [if_neg hmem]
    exact List.mem_append_right _ (List.mem_singleton.mpr rfl)

lemma placeCouple_ext (pt sp : Option TreeNode) (patriCenterX y : ℚ) (g : ℕ)
    (st : LayState) : ExtOf st (placeCouple pt sp patriCenterX y g st) := by
  unfold placeCouple
  have h1 : ExtOf st (match pt with
      | some p => pushIfNew st ⟨p, patriCenterX - CARD_W / 2, y, g⟩
      | none => st) := by
    cases pt with
    | none => exact ExtOf.refl st
    | some p => exact pushIfNew_ext st _
  refine ExtOf.trans h1 ?_
  cases sp with
  | none => exact ExtOf.refl _
  | some p => exact pushIfNew_ext _ _

/-- All four placement functions only extend the state; proved by
induction on a size bound over the mutual recursion. -/
theorem assign_ext_all : ∀ n : ℕ,
    (∀ (s : Subtree) (startX : ℚ) (g : ℕ) (st : LayState), sizeOf s ≤ n →
      ExtOf st (assignPositions s startX g st)) ∧
    (∀ (items : List ChildItem) (offs : List ℚ) (base mid : ℚ) (g : ℕ)
      (st : LayState), sizeOf items ≤ n →
      ExtOf st (assignChildrenOffsets items offs base mid g st)) ∧
    (∀ (items : List ChildItem) (cx : ℚ) (g : ℕ) (st : LayState),
      sizeOf items ≤ n →
      ExtOf st (assignChildrenFallback items cx g st)) ∧
    (∀ (item : ChildItem) (cx : ℚ) (g : ℕ) (st : LayState), sizeOf item ≤ n →
      ExtOf st (assignChildItem item cx g st)) := by
  intro n
  induction n with
  | zero =>
    refine ⟨?_, ?_, ?_, ?_⟩
    · intro s _ _ _ hs
      obtain ⟨fam, fa, mo, pt, sp, children, w, aX, ct, offs, bl⟩ := s
      simp at hs
    · intro items offs base mid g st hs
      cases items with
      | nil => simpa [assignChildrenOffsets] using ExtOf.refl st
      | cons a l => simp at hs
    · intro items cx g st hs
      cases items with
      | nil => simpa [assignChildrenFallback] using ExtOf.refl st
      | cons a l => simp at hs
    · intro item _ _ _ hs
      obtain ⟨so, lo, w, a, c⟩ := item
      simp at hs
  | succ n ih =>
    obtain ⟨ihPos, ihOffs, ihFall, ihItem⟩ := ih
    refine ⟨?_, ?_, ?_, ?_⟩
    · intro s startX g st hs
      obtain ⟨fam, fa, mo, pt, sp, children, w, aX, ct, offs, bl⟩ := s
      cases children with
      | nil =>
        simp only [assignPositions]
        exact placeCouple_ext pt sp _ _ g st
      | cons c0 crest =>
        cases crest with
        | nil =>
          simp only [assignPositions]
          refine ExtOf.trans (placeCouple_ext pt sp _ _ g st)
            (ihItem c0 _ g _ ?_)
          simp at hs
          omega
        | cons c1 crest2 =>
          have hch : sizeOf (c0 :: c1 :: crest2) ≤ n := by
            simp at hs ⊢
            omega
          cases offs with
          | some storedOffsets =>
            simp only [assignPositions]
            exact ExtOf.trans (placeCouple_ext pt sp _ _ g st)
              (ihOffs _ _ _ _ g _ hch)
          | none =>
            simp only [assignPositions]
            exact ExtOf.trans (placeCouple_ext pt sp _ _ g st)
              (ihFall _ _ g _ hch)
    · intro items offs base mid g st hs
      cases items with
      | nil => simpa [assignChildrenOffsets] using ExtOf.refl st
      | cons item rest =>
        simp only [assignChildrenOffsets]
        have h1 : sizeOf item ≤ n := by simp at hs; omega
        have h2 : sizeOf rest ≤ n := by simp at hs; omega
        exact ExtOf.trans (ihItem item _ g st h1) (ihOffs rest offs.tail base mid g _ h2)
    · intro items cx g st hs
      cases items with
      | nil => simpa [assignChildrenFallback] using ExtOf.refl st
      | cons item rest =>
        simp only [assignChildrenFallback]
        have h1 : sizeOf item ≤ n := by simp at hs; omega
        have h2 : sizeOf rest ≤ n := by simp at hs; omega
        exact ExtOf.trans (ihItem item cx g st h1) (ihFall rest _ g _ h2)
    · intro item cx g st hs
      obtain ⟨subOpt, leafOpt, w, a, c⟩ := item
      cases subOpt with
      | some sub =>
        simp only [assignChildItem]
        refine ihPos sub cx (g + 1) st ?_
        simp at hs
        omega
      | none =>
        cases leafOpt with
        | some leaf =>
          simp only [assignChildItem]
          exact pushIfNew_ext st _
        | none =>
          simp only [assignChildItem]
          exact ExtOf.refl st

/-- `assignPositions` only extends the state. -/
theorem assignPositions_ext (s : Subtree) (startX : ℚ) (g : ℕ) (st : LayState) :
    ExtOf st (assignPositions s startX g st) :=
  (assign_ext_all (sizeOf s)).1 s startX g st (le_refl _)

/-- `assignChildItem` only extends the state. -/
theorem assignChildItem_ext (item : ChildItem) (cx : ℚ) (g : ℕ) (st : LayState) :
    ExtOf st (assignChildItem item cx g st) :=
  (assign_ext_all (sizeOf item)).2.2.2 item cx g st (le_refl _)

/-- `assignChildrenOffsets` only extends the state. -/
theorem assignChildrenOffsets_ext (items : List ChildItem) (offs : List ℚ)
    (base mid : ℚ) (g : ℕ) (st : LayState) :
    ExtOf st (assignChildrenOffsets items offs base mid g st) :=
  (assign_ext_all (sizeOf items)).2.1 items offs base mid g st (le_refl _)

/-- `assignChildrenFallback` only extends the state. -/
theorem assignChildrenFallback_ext (items : List ChildItem) (cx : ℚ)
    (g : ℕ) (st : LayState) :
    ExtOf st (assignChildrenFallback items cx g st) :=
  (assign_ext_all (sizeOf items)).2.2.1 items cx g st (le_refl _)

lemma LayInv_init : LayInv ⟨[], []⟩ := by
  constructor
  · exact List.nodup_nil
  · intro h
    simp [nodeHandles]

lemma rootPass_inv (people : List TreeNode) (families : List TreeFamily) :
    LayInv (rootPass people families).1 := by
  unfold rootPass
  refine foldl_invariant
    (fun acc : LayState × List String × ℚ => LayInv acc.1) _ _ _ LayInv_init ?_
  intro acc fam _ hinv
  cases hb : (buildSubtree people families (buildFuel families) fam acc.2.1).1 with
  | none => simpa [hb] using hinv
  | some subtree =>
    simp only [hb]
    exact (assignPositions_ext subtree acc.2.2 0 acc.1).inv hinv

lemma orphanPass_results (people : List TreeNode) (gens : Gens) :
    ∀ init : LayState × ℚ, LayInv init.1 →
      LayInv (orphanPass people gens init).1 ∧
      (∀ h, h ∈ init.1.placed → h ∈ (orphanPass people gens init).1.placed) ∧
      (∀ p ∈ people, p.handle ∈ (orphanPass people gens init).1.placed) := by
  induction people with
  | nil =>
    intro init hinv
    exact ⟨hinv, fun h hh => hh, fun p hp => absurd hp (List.not_mem_nil p)⟩
  | cons q rest ih =>
    intro init hinv
    have hstep : orphanPass (q :: rest) gens init =
        orphanPass rest gens
          (if q.handle ∈ init.1.placed then init
           else
             ({ nodes := init.1.nodes ++
                  [⟨q, init.2, ((jsGet gens q.handle).getD 0 : ℚ) * (CARD_H + V_SPACE),
                    (jsGet gens q.handle).getD 0⟩],
                placed := init.1.placed ++ [q.handle] },
              init.2 + CARD_W + H_SPACE)) := by
      unfold orphanPass
      rw [List.foldl_cons]
    by_cases hq : q.handle ∈ init.1.placed
    · rw [hstep, if_pos hq]
      obtain ⟨h1, h2, h3⟩ := ih init hinv
      exact ⟨h1, h2, fun p hp => by
        rcases List.mem_cons.mp hp with hp | hp
        · subst hp; exact h2 _ hq
        · exact h3 p hp⟩
    · set node : PositionedNode :=
        ⟨q, init.2, ((jsGet gens q.handle).getD 0 : ℚ) * (CARD_H + V_SPACE),
          (jsGet gens q.handle).getD 0⟩ with hnode
      have hinv' : LayInv ⟨init.1.nodes ++ [node], init.1.placed ++ [q.handle]⟩ := by
        have := (pushIfNew_ext init.1 node).inv hinv
        unfold pushIfNew at this
        rw [if_neg (by simpa [hnode] using hq)] at this
        simpa [hnode] using this
      rw [hstep, if_neg hq]
      obtain ⟨h1, h2, h3⟩ := ih
        (⟨init.1.nodes ++ [node], init.1.placed ++ [q.handle]⟩,
          init.2 + CARD_W + H_SPACE) hinv'
      refine ⟨h1, ?_, ?_⟩
      · intro h hh
        exact h2 h (List.mem_append_left _ hh)
      · intro p hp
        rcases List.mem_cons.mp hp with hp | hp
        · subst hp
          exact h2 _ (List.mem_append_right _ (List.mem_singleton.mpr rfl))
        · exact h3 p hp

lemma normalizeNodes_handles (nodes : List PositionedNode) :
    (normalizeNodes nodes).map (fun n => n.node.handle) =
      nodes.map (fun n => n.node.handle) := by
  cases nodes with
  | nil => rfl
  | cons n rest =>
    simp only [normalizeNodes]
    by_cases hm : listMin ((n :: rest).map (·.x)) ≠ 0
    · rw [if_pos hm]
      simp
    · rw [if_neg hm]

/-- The nodes of `computeLayout` are the normalized output of the root
pass followed by the orphan pass. -/
lemma computeLayout_nodes_def (people : List TreeNode) (families : List TreeFamily) :
    (computeLayout people families).nodes =
      normalizeNodes (orphanPass people (assignGenerations people families)
        ((rootPass people families).1, (rootPass people families).2.2)).1.nodes := rfl

/-- C1: in a full (non-filtered) layout, every input person's handle
appears exactly once in the output nodes: nobody is dropped and nobody
is positioned twice, even when reachable through several structural
paths. -/
theorem computeLayout_each_handle_once (people : List TreeNode)
    (families : List TreeFamily) (p : TreeNode) (hp : p ∈ people) :
    ((computeLayout people families).nodes.map (fun n => n.node.handle)).count
      p.handle = 1 := by
  obtain ⟨hinv, _hmono, hall⟩ := orphanPass_results people
    (assignGenerations people families)
    ((rootPass people families).1, (rootPass people families).2.2)
    (rootPass_inv people families)
  rw [computeLayout_nodes_def, normalizeNodes_handles]
  obtain ⟨hnd, hiff⟩ := hinv
  exact List.count_eq_one_of_mem hnd ((hiff p.handle).mpr (hall p hp))

namespace C1w

/-- A single person, for the C1 witness. -/
def solo : TreeNode := C5x.mkP "solo" [] []

end C1w

/-- Witness for `computeLayout_each_handle_once` at a one-person input. -/
theorem computeLayout_each_handle_once_witness :
    C1w.solo ∈ [C1w.solo] ∧
    ((computeLayout [C1w.solo] []).nodes.map (fun n => n.node.handle)).count
      C1w.solo.handle = 1 :=
  ⟨List.mem_cons_self _ _,
    computeLayout_each_handle_once [C1w.solo] [] C1w.solo (List.mem_cons_self _ _)⟩

/-! ### Anchor alignment (rules R1 and R2) -/

/-- Default child slot for out-of-range list access in statements. -/
def cidef : ChildItem := ChildItem.mk none none 0 0 cnil

/-- The person whose card sits on a child slot's anchor: the nested
subtree's bloodline parent, or the leaf person. -/
def itemAnchorPerson (item : ChildItem) : Option TreeNode :=
  match item.subtree with
  | some sub => sub.patrilineal
  | none => item.leaf

/-- The geometry `buildSubtree` stores on a child slot: the copied
anchor of the nested subtree, or the half-card anchor of a leaf. -/
def itemConsistent (item : ChildItem) : Prop :=
  match item.subtree with
  | some sub => item.anchorX = sub.anchorX
  | none => item.anchorX = CARD_W / 2

/-- Membership in a state extension persists. -/
lemma ExtOf.mem_nodes {a b : LayState} (h : ExtOf a b) {n : PositionedNode}
    (hn : n ∈ a.nodes) : n ∈ b.nodes := by
  obtain ⟨t, ht⟩ := h.nodes_prefix
  rw [ht]
  exact List.mem_append_left _ hn

/-- Everything `placeCouple` marks placed is either old or one of the
two parents. -/
lemma placeCouple_placed_sub (pt sp : Option TreeNode) (cx y : ℚ) (g : ℕ)
    (st : LayState) (h : String)
    (hh : h ∈ (placeCouple pt sp cx y g st).placed) :
    h ∈ st.placed ∨ (∃ p, pt = some p ∧ h = p.handle) ∨
      (∃ p, sp = some p ∧ h = p.handle) := by
  have push_sub : ∀ (s : LayState) (n : PositionedNode),
      h ∈ (pushIfNew s n).placed → h ∈ s.placed ∨ h = n.node.handle := by
    intro s n hmem
    unfold pushIfNew at hmem
    by_cases hc : n.node.handle ∈ s.placed
    · rw [if_pos hc] at hmem; exact Or.inl hmem
    · rw [if_neg hc] at hmem
      rcases List.mem_append.mp hmem with hm | hm
      · exact Or.inl hm
      · exact Or.inr (by simpa using hm)
  unfold placeCouple at hh
  cases sp with
  | none =>
    cases pt with
    | none => exact Or.inl hh
    | some p =>
      rcases push_sub st _ hh with hm | hm
      · exact Or.inl hm
      · exact Or.inr (Or.inl ⟨p, rfl, hm⟩)
  | some q =>
    have step1 : h ∈ (match pt with
        | some p => pushIfNew st ⟨p, cx - CARD_W / 2, y, g⟩
        | none => st).placed ∨ h = q.handle := by
      rcases push_sub _ _ hh with hm | hm
      · exact Or.inl hm
      · exact Or.inr hm
    rcases step1 with hm | hm
    · cases pt with
      | none => exact Or.inl hm
      | some p =>
        rcases push_sub st _ hm with hm2 | hm2
        · exact Or.inl hm2
        · exact Or.inr (Or.inl ⟨p, rfl, hm2⟩)
    · exact Or.inr (Or.inr ⟨q, rfl, hm⟩)

/-- The bloodline parent's own card: if it is unplaced on entry,
`assignPositions` puts it in the output, centered at
`startX + anchorX`, on the row of `generation`. -/
lemma assignPositions_patri_mem (c : Subtree) (startX : ℚ) (g : ℕ)
    (st : LayState) (q : TreeNode) (hq : c.patrilineal = some q)
    (hun : q.handle ∉ st.placed) :
    ∃ nq ∈ (assignPositions c startX g st).nodes,
      nq.node.handle = q.handle ∧
      nq.x = startX + c.anchorX - CARD_W / 2 ∧
      nq.y = (g : ℚ) * (CARD_H + V_SPACE) ∧ nq.generation = g := by
  obtain ⟨fam, fa, mo, pt, sp, children, w, aX, ct, offs, bl⟩ := c
  simp only [Subtree.patrilineal] at hq
  subst hq
  simp only [Subtree.anchorX]
  set node : PositionedNode :=
    ⟨q, startX + aX - CARD_W / 2, (g : ℚ) * (CARD_H + V_SPACE), g⟩ with hnode
  have hmem1 : node ∈ (placeCouple (some q) sp (startX + aX)
      ((g : ℚ) * (CARD_H + V_SPACE)) g st).nodes := by
    unfold placeCouple
    have h1 : node ∈ (pushIfNew st node).nodes := pushIfNew_mem st node hun
    cases sp with
    | none => exact h1
    | some p => exact (pushIfNew_ext _ _).mem_nodes h1
  have hfin : node ∈ (assignPositions
      (Subtree.mk fam fa mo (some q) sp children w aX ct offs bl)
      startX g st).nodes := by
    cases children with
    | nil => simpa [assignPositions] using hmem1
    | cons c0 crest =>
      cases crest with
      | nil =>
        simp only [assignPositions]
        exact (assignChildItem_ext c0 _ g _).mem_nodes hmem1
      | cons c1 crest2 =>
        cases offs with
        | some storedOffsets =>
          simp only [assignPositions]
          exact (assignChildrenOffsets_ext _ _ _ _ g _).mem_nodes hmem1
        | none =>
          simp only [assignPositions]
          exact (assignChildrenFallback_ext _ _ g _).mem_nodes hmem1
  exact ⟨node, hfin, rfl, rfl, rfl, rfl⟩

/-- A child slot whose anchor person is unplaced puts that person's
card in the output with its center at `cx + item.anchorX`. -/
lemma assignChildItem_places (item : ChildItem) (cx : ℚ) (g : ℕ)
    (st : LayState) (q : TreeNode) (hq : itemAnchorPerson item = some q)
    (hcons : itemConsistent item) (hun : q.handle ∉ st.placed) :
    ∃ nq ∈ (assignChildItem item cx g st).nodes,
      nq.node.handle = q.handle ∧
      nq.x + CARD_W / 2 = cx + item.anchorX ∧
      nq.y = ((g : ℚ) + 1) * (CARD_H + V_SPACE) ∧ nq.generation = g + 1 := by
  obtain ⟨subOpt, leafOpt, w, a, ct⟩ := item
  simp only [itemAnchorPerson, itemConsistent, ChildItem.subtree, ChildItem.leaf,
    ChildItem.anchorX] at hq hcons ⊢
  cases subOpt with
  | some sub =>
    simp only [assignChildItem]
    obtain ⟨nq, hmem, hh, hx, hy, hg⟩ :=
      assignPositions_patri_mem sub cx (g + 1) st q hq hun
    refine ⟨nq, hmem, hh, ?_, ?_, hg⟩
    · rw [hx, hcons]; ring
    · rw [hy]; push_cast; ring
  | none =>
    cases leafOpt with
    | none => cases hq
    | some leaf =>
      have hleaf : leaf = q := by simpa using hq
      subst hleaf
      simp only [assignChildItem]
      set node : PositionedNode :=
        ⟨leaf, cx, ((g : ℚ) + 1) * (CARD_H + V_SPACE), g + 1⟩ with hnode
      refine ⟨node, pushIfNew_mem st node hun, rfl, ?_, rfl, rfl⟩
      rw [hcons]

/-- C2 (rule R1): in a family unit with exactly one placed child
subtree, the single child's anchor card and the parent couple's anchor
card end up centered on the same absolute X (`startX + anchorX`): the
child sits vertically aligned under the bloodline parent with no
horizontal offset. -/
theorem rule1_single_child_anchor_aligned
    (fam : TreeFamily) (fa mo sp : Option TreeNode) (p : TreeNode)
    (item : ChildItem) (w aX : ℚ) (ct : Contour) (offs : Option (List ℚ))
    (bl : Option ℚ) (startX : ℚ) (g : ℕ) (st : LayState) (q : TreeNode)
    (hq : itemAnchorPerson item = some q) (hcons : itemConsistent item)
    (hpun : p.handle ∉ st.placed) (hqun : q.handle ∉ st.placed)
    (hqp : q.handle ≠ p.handle)
    (hqsp : ∀ s', sp = some s' → q.handle ≠ s'.handle) :
    ∃ np ∈ (assignPositions (Subtree.mk fam fa mo (some p) sp [item] w aX ct
        offs bl) startX g st).nodes,
    ∃ nq ∈ (assignPositions (Subtree.mk fam fa mo (some p) sp [item] w aX ct
        offs bl) startX g st).nodes,
      np.node.handle = p.handle ∧ nq.node.handle = q.handle ∧
      np.x + CARD_W / 2 = startX + aX ∧ nq.x + CARD_W / 2 = startX + aX := by
  obtain ⟨np, hnpmem, hnph, hnpx, _, _⟩ := assignPositions_patri_mem
    (Subtree.mk fam fa mo (some p) sp [item] w aX ct offs bl) startX g st p
    rfl hpun
  have hout : assignPositions (Subtree.mk fam fa mo (some p) sp [item] w aX ct
      offs bl) startX g st =
      assignChildItem item (startX + aX - item.anchorX) g
        (placeCouple (some p) sp (startX + aX)
          ((g : ℚ) * (CARD_H + V_SPACE)) g st) := by
    simp only [assignPositions]
  have hqun2 : q.handle ∉ (placeCouple (some p) sp (startX + aX)
      ((g : ℚ) * (CARD_H + V_SPACE)) g st).placed := by
    intro hmem
    rcases placeCouple_placed_sub _ _ _ _ _ _ _ hmem with hm | ⟨p', hp', hm⟩ | ⟨s', hs', hm⟩
    · exact hqun hm
    · rw [Option.some_inj] at hp'
      subst hp'
      exact hqp hm
    · exact hqsp s' hs' hm
  obtain ⟨nq, hnqmem, hnqh, hnqx, _, _⟩ := assignChildItem_places item
    (startX + aX - item.anchorX) g _ q hq hcons hqun2
  refine ⟨np, hnpmem, nq, ?_, hnph, hnqh, ?_, ?_⟩
  · rw [hout]; exact hnqmem
  · simp only [Subtree.anchorX] at hnpx
    rw [hnpx]; ring
  · rw [hnqx]; ring

namespace C2w

/-- Leaf family subtree for the child `q`. -/
def qPerson : TreeNode := C5x.mkP "q2" [] ["F1c2"]

def pPerson : TreeNode := C5x.mkP "p2" ["F1c2"] []

def famC : TreeFamily :=
  { handle := "F2c2", fatherHandle := some "q2", motherHandle := none,
    children := [] }

def famP : TreeFamily :=
  { handle := "F1c2", fatherHandle := some "p2", motherHandle := none,
    children := ["q2"] }

def sub : Subtree :=
  Subtree.mk famC none none (some qPerson) none [] CARD_W (CARD_W / 2)
    ⟨[-(CARD_W / 2)], [CARD_W / 2]⟩ none none

def item : ChildItem :=
  ChildItem.mk (some sub) none CARD_W (CARD_W / 2) ⟨[-(CARD_W / 2)], [CARD_W / 2]⟩

end C2w

/-- Witness for `rule1_single_child_anchor_aligned` at a concrete
two-person parent/child pair. -/
theorem rule1_single_child_anchor_aligned_witness :
    itemAnchorPerson C2w.item = some C2w.qPerson ∧ itemConsistent C2w.item ∧
    (∃ np ∈ (assignPositions (Subtree.mk C2w.famP none none (some C2w.pPerson)
        none [C2w.item] CARD_W (CARD_W / 2) ⟨[-(CARD_W / 2)], [CARD_W / 2]⟩
        none none) 0 0 ⟨[], []⟩).nodes,
     ∃ nq ∈ (assignPositions (Subtree.mk C2w.famP none none (some C2w.pPerson)
        none [C2w.item] CARD_W (CARD_W / 2) ⟨[-(CARD_W / 2)], [CARD_W / 2]⟩
        none none) 0 0 ⟨[], []⟩).nodes,
      np.node.handle = C2w.pPerson.handle ∧ nq.node.handle = C2w.qPerson.handle ∧
      np.x + CARD_W / 2 = 0 + CARD_W / 2 ∧ nq.x + CARD_W / 2 = 0 + CARD_W / 2) :=
  ⟨rfl, rfl,
    rule1_single_child_anchor_aligned C2w.famP none none none C2w.pPerson C2w.item
      CARD_W (CARD_W / 2) ⟨[-(CARD_W / 2)], [CARD_W / 2]⟩ none none 0 0
      ⟨[], []⟩ C2w.qPerson rfl rfl (by simp) (by simp) (by decide)
      (fun s' h => Option.noConfusion h)⟩

/-- Handle of an optional person. -/
def optHandle : Option TreeNode → List String
  | some x => [x.handle]
  | none => []

mutual

/-- All person handles appearing in a subtree (parents, leaves,
recursively). -/
def subtreePersonHandles : Subtree → List String
  | Subtree.mk _ _ _ pt sp children _ _ _ _ _ =>
    optHandle pt ++ optHandle sp ++ childrenPersonHandles children

def childItemPersonHandles : ChildItem → List String
  | ChildItem.mk so lo _ _ _ =>
    (match so with | some c => subtreePersonHandles c | none => []) ++
    optHandle lo

def childrenPersonHandles : List ChildItem → List String
  | [] => []
  | it :: rest => childItemPersonHandles it ++ childrenPersonHandles rest

end

/-- The placement pass only ever marks handles that occur in the
subtree: anything newly placed is a person of the subtree. -/
theorem assign_placed_bound : ∀ n : ℕ,
    (∀ (s : Subtree) (startX : ℚ) (g : ℕ) (st : LayState), sizeOf s ≤ n →
      ∀ h, h ∈ (assignPositions s startX g st).placed →
        h ∈ st.placed ∨ h ∈ subtreePersonHandles s) ∧
    (∀ (items : List ChildItem) (offs : List ℚ) (base mid : ℚ) (g : ℕ)
      (st : LayState), sizeOf items ≤ n →
      ∀ h, h ∈ (assignChildrenOffsets items offs base mid g st).placed →
        h ∈ st.placed ∨ h ∈ childrenPersonHandles items) ∧
    (∀ (items : List ChildItem) (cx : ℚ) (g : ℕ) (st : LayState),
      sizeOf items ≤ n →
      ∀ h, h ∈ (assignChildrenFallback items cx g st).placed →
        h ∈ st.placed ∨ h ∈ childrenPersonHandles items) ∧
    (∀ (item : ChildItem) (cx : ℚ) (g : ℕ) (st : LayState), sizeOf item ≤ n →
      ∀ h, h ∈ (assignChildItem item cx g st).placed →
        h ∈ st.placed ∨ h ∈ childItemPersonHandles item) := by
  intro n
  induction n with
  | zero =>
    refine ⟨?_, ?_, ?_, ?_⟩
    · intro s _ _ _ hs
      obtain ⟨fam, fa, mo, pt, sp, children, w, aX, ct, offs, bl⟩ := s
      simp at hs
    · intro items offs base mid g st hs h hh
      cases items with
      | nil => exact Or.inl (by simpa [assignChildrenOffsets] using hh)
      | cons a l => simp at hs
    · intro items cx g st hs h hh
      cases items with
      | nil => exact Or.inl (by simpa [assignChildrenFallback] using hh)
      | cons a l => simp at hs
    · intro item _ _ _ hs
      obtain ⟨so, lo, w, a, c⟩ := item
      simp at hs
  | succ n ih =>
    obtain ⟨ihPos, ihOffs, ihFall, ihItem⟩ := ih
    have hcouple : ∀ (pt sp : Option TreeNode) (cx y : ℚ) (g : ℕ)
        (st : LayState) (h : String),
        h ∈ (placeCouple pt sp cx y g st).placed →
        h ∈ st.placed ∨ h ∈ optHandle pt ++ optHandle sp := by
      intro pt sp cx y g st h hh
      rcases placeCouple_placed_sub pt sp cx y g st h hh with hm | ⟨p', hp', hm⟩ | ⟨s', hs', hm⟩
      · exact Or.inl hm
      · subst hp' hm
        exact Or.inr (List.mem_append_left _ (by simp [optHandle]))
      · subst hs' hm
        exact Or.inr (List.mem_append_right _ (by simp [optHandle]))
    refine ⟨?_, ?_, ?_, ?_⟩
    · intro s startX g st hs h hh
      obtain ⟨fam, fa, mo, pt, sp, children, w, aX, ct, offs, bl⟩ := s
      simp only [subtreePersonHandles]
      cases children with
      | nil =>
        simp only [assignPositions] at hh
        rcases hcouple pt sp _ _ g st h hh with hm | hm
        · exact Or.inl hm
        · exact Or.inr (by
            simp only [childrenPersonHandles]
            simpa using hm)
      | cons c0 crest =>
        cases crest with
        | nil =>
          simp only [assignPositions] at hh
          have h1 : sizeOf c0 ≤ n := by simp at hs; omega
          rcases ihItem c0 _ g _ h1 h hh with hm | hm
          · rcases hcouple pt sp _ _ g st h hm with hm2 | hm2
            · exact Or.inl hm2
            · exact Or.inr (by
                rcases List.mem_append.mp hm2 with hmx | hmx
                · exact List.mem_append_left _ (List.mem_append_left _ hmx)
                · exact List.mem_append_left _ (List.mem_append_right _ hmx))
          · exact Or.inr (by
              refine List.mem_append_right _ ?_
              simp only [childrenPersonHandles]
              exact List.mem_append_left _ hm)
        | cons c1 crest2 =>
          have hch : sizeOf (c0 :: c1 :: crest2) ≤ n := by
            simp at hs ⊢; omega
          have key : (h ∈ (placeCouple pt sp (startX + aX)
                ((g : ℚ) * (CARD_H + V_SPACE)) g st).placed ∨
              h ∈ childrenPersonHandles (c0 :: c1 :: crest2)) →
              h ∈ st.placed ∨
              h ∈ (optHandle pt ++ optHandle sp ++
                   childrenPersonHandles (c0 :: c1 :: crest2)) := by
            intro hcase
            rcases hcase with hm | hm
            · rcases hcouple pt sp _ _ g st h hm with hm2 | hm2
              · exact Or.inl hm2
              · exact Or.inr (by
                  rcases List.mem_append.mp hm2 with hmx | hmx
                  · exact List.mem_append_left _ (List.mem_append_left _ hmx)
                  · exact List.mem_append_left _ (List.mem_append_right _ hmx))
            · exact Or.inr (List.mem_append_right _ hm)
          cases offs with
          | some storedOffsets =>
            simp only [assignPositions] at hh
            exact key (ihOffs _ _ _ _ g _ hch h hh)
          | none =>
            simp only [assignPositions] at hh
            exact key (ihFall _ _ g _ hch h hh)
    · intro items offs base mid g st hs h hh
      cases items with
      | nil => exact Or.inl (by simpa [assignChildrenOffsets] using hh)
      | cons item rest =>
        simp only [assignChildrenOffsets] at hh
        have h1 : sizeOf item ≤ n := by simp at hs; omega
        have h2 : sizeOf rest ≤ n := by simp at hs; omega
        simp only [childrenPersonHandles]
        rcases ihOffs rest offs.tail base mid g _ h2 h hh with hm | hm
        · rcases ihItem item _ g st h1 h hm with hm2 | hm2
          · exact Or.inl hm2
          · exact Or.inr (List.mem_append_left _ hm2)
        · exact Or.inr (List.mem_append_right _ hm)
    · intro items cx g st hs h hh
      cases items with
      | nil => exact Or.inl (by simpa [assignChildrenFallback] using hh)
      | cons item rest =>
        simp only [assignChildrenFallback] at hh
        have h1 : sizeOf item ≤ n := by simp at hs; omega
        have h2 : sizeOf rest ≤ n := by simp at hs; omega
        simp only [childrenPersonHandles]
        rcases ihFall rest _ g _ h2 h hh with hm | hm
        · rcases ihItem item cx g st h1 h hm with hm2 | hm2
          · exact Or.inl hm2
          · exact Or.inr (List.mem_append_left _ hm2)
        · exact Or.inr (List.mem_append_right _ hm)
    · intro item cx g st hs h hh
      obtain ⟨subOpt, leafOpt, w, a, c⟩ := item
      cases subOpt with
      | some sub =>
        simp only [assignChildItem] at hh
        simp only [childItemPersonHandles]
        have h1 : sizeOf sub ≤ n := by simp at hs; omega
        rcases ihPos sub cx (g + 1) st h1 h hh with hm | hm
        · exact Or.inl hm
        · exact Or.inr (List.mem_append_left _ hm)
      | none =>
        cases leafOpt with
        | some leaf =>
          simp only [assignChildItem] at hh
          simp only [childItemPersonHandles]
          unfold pushIfNew at hh
          by_cases hc : leaf.handle ∈ st.placed
          · rw [if_pos hc] at hh; exact Or.inl hh
          · rw [if_neg hc] at hh
            rcases List.mem_append.mp hh with hm | hm
            · exact Or.inl hm
            · exact Or.inr (by
                refine List.mem_append_right _ ?_
                simp only [optHandle]
                simpa using hm)
        | none =>
          simp only [assignChildItem] at hh
          exact Or.inl hh

/-- `assignChildItem` marks only old or in-item handles placed. -/
theorem assignChildItem_placed_bound (item : ChildItem) (cx : ℚ) (g : ℕ)
    (st : LayState) (h : String)
    (hh : h ∈ (assignChildItem item cx g st).placed) :
    h ∈ st.placed ∨ h ∈ childItemPersonHandles item :=
  (assign_placed_bound (sizeOf item)).2.2.2 item cx g st (le_refl _) h hh

lemma headD_eq_getD (l : List ℚ) : l.headD 0 = l.getD 0 0 := by
  cases l <;> rfl

lemma tail_getD (l : List ℚ) (k : ℕ) : l.tail.getD k 0 = l.getD (k + 1) 0 := by
  cases l with
  | nil => simp
  | cons x xs => rfl

/-- The rule-2 loop places child `k`'s anchor card centered at
`base - midpoint + storedOffsets[k]`, provided its anchor person is
fresh and does not occur among the earlier siblings. -/
lemma assignChildrenOffsets_places :
    ∀ (items : List ChildItem) (offs : List ℚ) (base mid : ℚ) (g : ℕ)
      (st : LayState) (k : ℕ) (q : TreeNode),
      k < items.length →
      itemAnchorPerson (items.getD k cidef) = some q →
      itemConsistent (items.getD k cidef) →
      q.handle ∉ st.placed →
      (∀ j, j < k → q.handle ∉ childItemPersonHandles (items.getD j cidef)) →
      ∃ nq ∈ (assignChildrenOffsets items offs base mid g st).nodes,
        nq.node.handle = q.handle ∧
        nq.x + CARD_W / 2 = base - mid + offs.getD k 0 := by
  intro items
  induction items with
  | nil =>
    intro offs base mid g st k q hk
    simp at hk
  | cons item rest ih =>
    intro offs base mid g st k q hk hq hcons hun hprev
    simp only [assignChildrenOffsets]
    cases k with
    | zero =>
      rw [List.getD_cons_zero] at hq hcons
      obtain ⟨nq, hmem, hh, hx, _, _⟩ := assignChildItem_places item
        (base - mid + offs.headD 0 - item.anchorX) g st q hq hcons hun
      refine ⟨nq, ?_, hh, ?_⟩
      · exact (assignChildrenOffsets_ext rest offs.tail base mid g _).mem_nodes hmem
      · rw [hx, headD_eq_getD]
        ring
    | succ k' =>
      rw [List.getD_cons_succ] at hq hcons
      have hun' : q.handle ∉ (assignChildItem item
          (base - mid + offs.headD 0 - item.anchorX) g st).placed := by
        intro hmem
        rcases assignChildItem_placed_bound item _ g st q.handle hmem with hm | hm
        · exact hun hm
        · exact hprev 0 (Nat.succ_pos k') (by rwa [List.getD_cons_zero])
      obtain ⟨nq, hmem, hh, hx⟩ := ih offs.tail base mid g _ k' q
        (by simpa using hk) hq hcons hun'
        (fun j hj => by
          have := hprev (j + 1) (Nat.succ_lt_succ hj)
          rwa [List.getD_cons_succ] at this)
      refine ⟨nq, hmem, hh, ?_⟩
      rw [hx, tail_getD]

/-- C3 (rule R2): in a family unit with at least two placed children
laid out with stored contour offsets, the parent couple's absolute
anchor X equals the arithmetic mean of the first and last child's
absolute anchor X -- the midpoint of the first and last child anchors,
not of the total block width. -/
theorem rule2_parent_at_midpoint_of_first_last
    (fam : TreeFamily) (fa mo sp : Option TreeNode) (p : TreeNode)
    (c0 c1 : ChildItem) (crest : List ChildItem) (w aX : ℚ) (ct : Contour)
    (bl : Option ℚ) (offsets : List ℚ) (startX : ℚ) (g : ℕ) (st : LayState)
    (q0 qL : TreeNode)
    (hlen : offsets.length = (c0 :: c1 :: crest).length)
    (hq0 : itemAnchorPerson c0 = some q0) (hc0 : itemConsistent c0)
    (hqL : itemAnchorPerson ((c0 :: c1 :: crest).getD
      ((c0 :: c1 :: crest).length - 1) cidef) = some qL)
    (hcL : itemConsistent ((c0 :: c1 :: crest).getD
      ((c0 :: c1 :: crest).length - 1) cidef))
    (hpun : p.handle ∉ st.placed)
    (hq0un : q0.handle ∉ st.placed) (hq0p : q0.handle ≠ p.handle)
    (hq0sp : ∀ s', sp = some s' → q0.handle ≠ s'.handle)
    (hqLun : qL.handle ∉ st.placed) (hqLp : qL.handle ≠ p.handle)
    (hqLsp : ∀ s', sp = some s' → qL.handle ≠ s'.handle)
    (hqLprev : ∀ j, j < (c0 :: c1 :: crest).length - 1 →
      qL.handle ∉ childItemPersonHandles ((c0 :: c1 :: crest).getD j cidef)) :
    ∃ np ∈ (assignPositions (Subtree.mk fam fa mo (some p) sp (c0 :: c1 :: crest)
        w aX ct (some offsets) bl) startX g st).nodes,
    ∃ n0 ∈ (assignPositions (Subtree.mk fam fa mo (some p) sp (c0 :: c1 :: crest)
        w aX ct (some offsets) bl) startX g st).nodes,
    ∃ nL ∈ (assignPositions (Subtree.mk fam fa mo (some p) sp (c0 :: c1 :: crest)
        w aX ct (some offsets) bl) startX g st).nodes,
      np.node.handle = p.handle ∧ n0.node.handle = q0.handle ∧
      nL.node.handle = qL.handle ∧ np.x + CARD_W / 2 = startX + aX ∧
      ((n0.x + CARD_W / 2) + (nL.x + CARD_W / 2)) / 2 = np.x + CARD_W / 2 := by
  obtain ⟨np, hnpmem, hnph, hnpx, _, _⟩ := assignPositions_patri_mem
    (Subtree.mk fam fa mo (some p) sp (c0 :: c1 :: crest) w aX ct
      (some offsets) bl) startX g st p rfl hpun
  simp only [Subtree.anchorX] at hnpx
  have hout : assignPositions (Subtree.mk fam fa mo (some p) sp
      (c0 :: c1 :: crest) w aX ct (some offsets) bl) startX g st =
      assignChildrenOffsets (c0 :: c1 :: crest) offsets (startX + aX)
        ((offsets.getD 0 0 + offsets.getD (offsets.length - 1) 0) / 2) g
        (placeCouple (some p) sp (startX + aX)
          ((g : ℚ) * (CARD_H + V_SPACE)) g st) := by
    simp only [assignPositions]
  have hfresh : ∀ (q : TreeNode), q.handle ∉ st.placed → q.handle ≠ p.handle →
      (∀ s', sp = some s' → q.handle ≠ s'.handle) →
      q.handle ∉ (placeCouple (some p) sp (startX + aX)
        ((g : ℚ) * (CARD_H + V_SPACE)) g st).placed := by
    intro q hqun hqp hqsp hmem
    rcases placeCouple_placed_sub _ _ _ _ _ _ _ hmem with hm | ⟨p', hp', hm⟩ | ⟨s', hs', hm⟩
    · exact hqun hm
    · rw [Option.some_inj] at hp'
      subst hp'
      exact hqp hm
    · exact hqsp s' hs' hm
  obtain ⟨n0, h0mem, h0h, h0x⟩ := assignChildrenOffsets_places
    (c0 :: c1 :: crest) offsets (startX + aX)
    ((offsets.getD 0 0 + offsets.getD (offsets.length - 1) 0) / 2) g
    (placeCouple (some p) sp (startX + aX) ((g : ℚ) * (CARD_H + V_SPACE)) g st)
    0 q0 (by simp) (by rwa [List.getD_cons_zero]) (by rwa [List.getD_cons_zero])
    (hfresh q0 hq0un hq0p hq0sp) (fun j hj => absurd hj (Nat.not_lt_zero j))
  obtain ⟨nL, hLmem, hLh, hLx⟩ := assignChildrenOffsets_places
    (c0 :: c1 :: crest) offsets (startX + aX)
    ((offsets.getD 0 0 + offsets.getD (offsets.length - 1) 0) / 2) g
    (placeCouple (some p) sp (startX + aX) ((g : ℚ) * (CARD_H + V_SPACE)) g st)
    ((c0 :: c1 :: crest).length - 1) qL (by simp) hqL hcL
    (hfresh qL hqLun hqLp hqLsp) hqLprev
  rw [← hout] at h0mem hLmem
  refine ⟨np, hnpmem, n0, h0mem, nL, hLmem, hnph, h0h, hLh, ?_, ?_⟩
  · rw [hnpx]; ring
  · rw [h0x, hLx, hnpx, hlen]
    ring

lemma childItemPersonHandles_leaf (x : TreeNode) :
    childItemPersonHandles (leafItem x) = [x.handle] := by
  simp [childItemPersonHandles, leafItem, optHandle]

namespace C3w

def p3 : TreeNode := C5x.mkP "p3" ["F3p"] []

def q30 : TreeNode := C5x.mkP "q30" [] ["F3p"]

def q31 : TreeNode := C5x.mkP "q31" [] ["F3p"]

def famP : TreeFamily :=
  { handle := "F3p", fatherHandle := some "p3", motherHandle := none,
    children := ["q30", "q31"] }

end C3w

/-- Witness for `rule2_parent_at_midpoint_of_first_last`: two leaf
children at stored offsets 0 and 204. -/
theorem rule2_parent_at_midpoint_of_first_last_witness :
    itemAnchorPerson (leafItem C3w.q30) = some C3w.q30 ∧
    ([(0 : ℚ), 204].length = [leafItem C3w.q30, leafItem C3w.q31].length) ∧
    (∃ np ∈ (assignPositions (Subtree.mk C3w.famP none none (some C3w.p3) none
        [leafItem C3w.q30, leafItem C3w.q31] 408 102 cnil (some [0, 204]) (some (-90)))
        0 0 ⟨[], []⟩).nodes,
     ∃ n0 ∈ (assignPositions (Subtree.mk C3w.famP none none (some C3w.p3) none
        [leafItem C3w.q30, leafItem C3w.q31] 408 102 cnil (some [0, 204]) (some (-90)))
        0 0 ⟨[], []⟩).nodes,
     ∃ nL ∈ (assignPositions (Subtree.mk C3w.famP none none (some C3w.p3) none
        [leafItem C3w.q30, leafItem C3w.q31] 408 102 cnil (some [0, 204]) (some (-90)))
        0 0 ⟨[], []⟩).nodes,
      np.node.handle = C3w.p3.handle ∧ n0.node.handle = C3w.q30.handle ∧
      nL.node.handle = C3w.q31.handle ∧ np.x + CARD_W / 2 = 0 + 102 ∧
      ((n0.x + CARD_W / 2) + (nL.x + CARD_W / 2)) / 2 = np.x + CARD_W / 2) :=
  ⟨rfl, rfl,
    rule2_parent_at_midpoint_of_first_last C3w.famP none none none C3w.p3
      (leafItem C3w.q30) (leafItem C3w.q31) [] 408 102 cnil (some (-90))
      [0, 204] 0 0 ⟨[], []⟩ C3w.q30 C3w.q31 rfl rfl rfl rfl rfl
      (by simp) (by simp) (by decide) (fun s' h => Option.noConfusion h)
      (by simp) (by decide) (fun s' h => Option.noConfusion h)
      (fun j hj => by
        have hj0 : j = 0 := Nat.lt_one_iff.mp hj
        subst hj0
        rw [show ([leafItem C3w.q30, leafItem C3w.q31].getD 0 cidef) =
          leafItem C3w.q30 from rfl, childItemPersonHandles_leaf]
        decide)⟩

/-! ### The orphan loop (claim C6) -/

lemma orphanPass_nodes_prefix (people : List TreeNode) (gens : Gens) :
    ∀ init : LayState × ℚ,
      ∃ t, (orphanPass people gens init).1.nodes = init.1.nodes ++ t := by
  induction people with
  | nil => intro init; exact ⟨[], by simp [orphanPass]⟩
  | cons q rest ih =>
    intro init
    have hstep : orphanPass (q :: rest) gens init =
        orphanPass rest gens
          (if q.handle ∈ init.1.placed then init
           else
             (⟨init.1.nodes ++
                 [⟨q, init.2, ((jsGet gens q.handle).getD 0 : ℚ) * (CARD_H + V_SPACE),
                   (jsGet gens q.handle).getD 0⟩],
               init.1.placed ++ [q.handle]⟩,
              init.2 + CARD_W + H_SPACE)) := by
      unfold orphanPass
      rw [List.foldl_cons]
    by_cases hq : q.handle ∈ init.1.placed
    · rw [hstep, if_pos hq]
      exact ih init
    · rw [hstep, if_neg hq]
      obtain ⟨t, ht⟩ := ih (⟨init.1.nodes ++
          [⟨q, init.2, ((jsGet gens q.handle).getD 0 : ℚ) * (CARD_H + V_SPACE),
            (jsGet gens q.handle).getD 0⟩], init.1.placed ++ [q.handle]⟩,
          init.2 + CARD_W + H_SPACE)
      exact ⟨_ :: t, by rw [ht, List.append_assoc]; rfl⟩

/-- C6 (amended): after the root subtrees are placed, every person the
placement walk never reached is appended by the orphan loop: the output
contains a card for it, at or past the incoming cursor, on the row of
its assigned generation `gens.get(handle) ?? 0` -- which need not be
generation 0 (see `orphan_appended_nonzero_generation`).  Nothing
silently disappears. -/
theorem orphanPass_appends (people : List TreeNode) (gens : Gens) :
    ∀ (init : LayState × ℚ) (p : TreeNode), p ∈ people →
      p.handle ∉ init.1.placed →
      ∃ n ∈ (orphanPass people gens init).1.nodes,
        n.node.handle = p.handle ∧
        n.generation = (jsGet gens p.handle).getD 0 ∧
        n.y = ((jsGet gens p.handle).getD 0 : ℚ) * (CARD_H + V_SPACE) ∧
        init.2 ≤ n.x := by
  induction people with
  | nil => intro init p hp; cases hp
  | cons q rest ih =>
    intro init p hp hun
    have hstep : orphanPass (q :: rest) gens init =
        orphanPass rest gens
          (if q.handle ∈ init.1.placed then init
           else
             (⟨init.1.nodes ++
                 [⟨q, init.2, ((jsGet gens q.handle).getD 0 : ℚ) * (CARD_H + V_SPACE),
                   (jsGet gens q.handle).getD 0⟩],
               init.1.placed ++ [q.handle]⟩,
              init.2 + CARD_W + H_SPACE)) := by
      unfold orphanPass
      rw [List.foldl_cons]
    by_cases hq : q.handle ∈ init.1.placed
    · rw [hstep, if_pos hq]
      have hpr : p ∈ rest := by
        rcases List.mem_cons.mp hp with h | h
        · subst h; exact absurd hq hun
        · exact h
      exact ih init p hpr hun
    · rw [hstep, if_neg hq]
      set node : PositionedNode :=
        ⟨q, init.2, ((jsGet gens q.handle).getD 0 : ℚ) * (CARD_H + V_SPACE),
          (jsGet gens q.handle).getD 0⟩ with hnode
      set init' : LayState × ℚ :=
        (⟨init.1.nodes ++ [node], init.1.placed ++ [q.handle]⟩,
          init.2 + CARD_W + H_SPACE) with hinit'
      by_cases hph : p.handle = q.handle
      · obtain ⟨t, ht⟩ := orphanPass_nodes_prefix rest gens init'
        refine ⟨node, ?_, hph.symm, ?_, ?_, le_refl _⟩
        · rw [ht]
          exact List.mem_append_left _ (List.mem_append_right _
            (List.mem_singleton.mpr rfl))
        · rw [hph]
        · rw [hph]
      · have hun' : p.handle ∉ init'.1.placed := by
          intro hmem
          rcases List.mem_append.mp hmem with hm | hm
          · exact hun hm
          · exact hph (by simpa using hm)
        have hpr : p ∈ rest := by
          rcases List.mem_cons.mp hp with h | h
          · subst h; exact absurd rfl hph
          · exact h
        obtain ⟨n, hnmem, hh, hg, hy, hx⟩ := ih init' p hpr hun'
        refine ⟨n, hnmem, hh, hg, hy, le_trans ?_ hx⟩
        show init.2 ≤ init.2 + CARD_W + H_SPACE
        have : (0 : ℚ) < CARD_W + H_SPACE := by norm_num [CARD_W, H_SPACE]
        linarith

namespace C6w

def lone : TreeNode := C5x.mkP "lone" [] []

end C6w

/-- Witness for `orphanPass_appends` at a one-person input with empty
initial state. -/
theorem orphanPass_appends_witness :
    C6w.lone ∈ [C6w.lone] ∧ C6w.lone.handle ∉ (⟨[], []⟩ : LayState).placed ∧
    (∃ n ∈ (orphanPass [C6w.lone] [] ((⟨[], []⟩ : LayState), 0)).1.nodes,
      n.node.handle = C6w.lone.handle ∧
      n.generation = (jsGet ([] : Gens) C6w.lone.handle).getD 0 ∧
      n.y = ((jsGet ([] : Gens) C6w.lone.handle).getD 0 : ℚ) * (CARD_H + V_SPACE) ∧
      (0 : ℚ) ≤ n.x) :=
  ⟨List.mem_cons_self _ _, by simp,
    orphanPass_appends [C6w.lone] [] ((⟨[], []⟩ : LayState), 0) C6w.lone
      (List.mem_cons_self _ _) (by simp)⟩

namespace C6x

def r : TreeNode := C5x.mkP "r" ["F1"] []

def c : TreeNode := C5x.mkP "c" ["F3", "F2"] ["F1"]

def w : TreeNode := C5x.mkP "w" ["F3"] []

/-- The person the placement walk never reaches: child of a family with
an unresolvable father, spouse of `c` through the never-built `F2`. -/
def z : TreeNode := C5x.mkP "z" ["F2"] ["F4"]

def F1 : TreeFamily :=
  { handle := "F1", fatherHandle := some "r", motherHandle := none,
    children := ["c"] }

def F3 : TreeFamily :=
  { handle := "F3", fatherHandle := some "c", motherHandle := some "w",
    children := [] }

def F2 : TreeFamily :=
  { handle := "F2", fatherHandle := some "c", motherHandle := some "z",
    children := [] }

def F4 : TreeFamily :=
  { handle := "F4", fatherHandle := some "ghost", motherHandle := none,
    children := ["z"] }

def people : List TreeNode := [r, c, w, z]

def families : List TreeFamily := [F1, F3, F2, F4]

end C6x

/-- C6 counterexample: `z` is never reached by the placement walk, and
the orphan loop appends it at its assigned generation 1 (y row 1), not
at generation 0: the propagation gave `z` the spouse generation of `c`,
and the orphan loop uses `gens.get(p.handle) ?? 0`, not 0. -/
theorem orphan_appended_nonzero_generation :
    C6x.z ∈ C6x.people ∧
    C6x.z.handle ∉ (rootPass C6x.people C6x.families).1.placed ∧
    ((orphanPass C6x.people (assignGenerations C6x.people C6x.families)
        ((rootPass C6x.people C6x.families).1,
         (rootPass C6x.people C6x.families).2.2)).1.nodes.map
      (fun n => (n.node.handle, n.generation))).contains ("z", 1) = true ∧
    ((orphanPass C6x.people (assignGenerations C6x.people C6x.families)
        ((rootPass C6x.people C6x.families).1,
         (rootPass C6x.people C6x.families).2.2)).1.nodes.map
      (fun n => (n.node.handle, n.generation))).contains ("z", 0) = false := by
  refine ⟨by decide, by decide, by decide, by decide⟩

/-! ## Visibility / collapse engine (book/page.tsx)

`getDescendantHandles` (lines 1012-1034), `hiddenHandles`
(lines 1037-1068) and `computeBranchSummary` (lines 740-792).  All
walks here are over handles and counters only; the descendant walk has
no visited guard in the source, so its recursion is modelled with an
ample structural fuel (the source assumes acyclic ancestry and would
not terminate otherwise). -/

/-- JS `Set.add`: append if absent (insertion order kept). -/
def addSet (s : List String) (x : String) : List String :=
  if x ∈ s then s else s ++ [x]

/-- Fuel for the visibility walks. -/
def visFuel (people : List TreeNode) (families : List TreeFamily) : ℕ :=
  (people.length + families.length +
    families.foldl (fun a f => a + f.children.length) 0 + 5) ^ (people.length + 2)

mutual

/-- The `walk` of `getDescendantHandles` (book/page.tsx lines
1018-1031): no visited guard; spouses of each family are added, every
child is added and walked. -/
def gdhWalk (people : List TreeNode) (families : List TreeFamily) :
    ℕ → String → List String → List String
  | 0, _, res => res
  | fuel + 1, h, res =>
    match pget people h with
    | none => res
    | some person => gdhFams people families fuel person.families h res

def gdhFams (people : List TreeNode) (families : List TreeFamily) :
    ℕ → List String → String → List String → List String
  | 0, _, _, res => res
  | _ + 1, [], _, res => res
  | fuel + 1, fId :: rest, h, res =>
    let res' :=
      match fget families fId with
      | none => res
      | some fam =>
        let r1 := match fam.motherHandle with
          | some m => if m ≠ h then addSet res m else res
          | none => res
        let r2 := match fam.fatherHandle with
          | some f => if f ≠ h then addSet r1 f else r1
          | none => r1
        gdhKids people families fuel fam.children h r2
    gdhFams people families fuel rest h res'

def gdhKids (people : List TreeNode) (families : List TreeFamily) :
    ℕ → List String → String → List String → List String
  | 0, _, _, res => res
  | _ + 1, [], _, res => res
  | fuel + 1, ch :: rest, h, res =>
    gdhKids people families fuel rest h
      (gdhWalk people families fuel ch (addSet res ch))

end

/-- `getDescendantHandles` from book/page.tsx lines 1012-1034. -/
def getDescendantHandles (people : List TreeNode) (families : List TreeFamily)
    (handle : String) : List String :=
  gdhWalk people families (visFuel people families) handle []

/-- The union of the collapsed roots' descendant closures (the first
half of the `hiddenHandles` memo, book/page.tsx lines 1039-1043). -/
def hiddenInit (people : List TreeNode) (families : List TreeFamily)
    (roots : List String) : List String :=
  roots.foldl
    (fun acc h => (getDescendantHandles people families h).foldl addSet acc) []

/-- The cascade condition of `hiddenHandles` (book/page.tsx lines
1053-1060): every parent family resolves to a hidden-or-absent father
and a hidden-or-absent mother (a dangling family id counts as hidden). -/
def allParentsHidden (families : List TreeFamily) (hidden : List String)
    (p : TreeNode) : Bool :=
  p.parentFamilies.all (fun pfId =>
    match fget families pfId with
    | none => true
    | some pf =>
      (match pf.fatherHandle with
       | some f => hidden.contains f
       | none => true) &&
      (match pf.motherHandle with
       | some m => hidden.contains m
       | none => true))

/-- The body of the cascade loop for one person: already-hidden and
parentless people are skipped, otherwise the person is hidden exactly
when all parent families are hidden, and the change is flagged. -/
def cascadeStep (families : List TreeFamily)
    (acc : List String × Bool) (p : TreeNode) : List String × Bool :=
  if p.handle ∈ acc.1 then acc
  else if p.parentFamilies = [] then acc
  else if allParentsHidden families acc.1 p then (acc.1 ++ [p.handle], true)
  else acc

/-- One scan of the cascade loop over all people. -/
def cascadePass (people : List TreeNode) (families : List TreeFamily)
    (hidden : List String) : List String × Bool :=
  people.foldl (cascadeStep families) (hidden, false)

/-- The `while (changed)` fixed-point loop; a pass that adds nothing
ends the loop, and each changing pass adds at least one person handle,
so `people.length + 1` rounds always reach the fixed point. -/
def cascadeLoop (people : List TreeNode) (families : List TreeFamily) :
    ℕ → List String → List String
  | 0, hidden => hidden
  | fuel + 1, hidden =>
    if (cascadePass people families hidden).2 then
      cascadeLoop people families fuel (cascadePass people families hidden).1
    else (cascadePass people families hidden).1

/-- `hiddenHandles` from book/page.tsx lines 1037-1068. -/
def hiddenHandles (people : List TreeNode) (families : List TreeFamily)
    (roots : List String) : List String :=
  cascadeLoop people families (people.length + 1)
    (hiddenInit people families roots)

/-- Mutable state of `computeBranchSummary`'s walk (book/page.tsx lines
747-765): the visited set, the three counters, and the running
generation extrema (`none` stands for the untouched ±Infinity seed). -/
structure SummState where
  visited : List String
  living : ℕ
  deceased : ℕ
  patri : ℕ
  minGen : Option ℕ
  maxGen : Option ℕ
  deriving Repr, DecidableEq

mutual

/-- `walk(h, gen)` of `computeBranchSummary` (lines 751-765). -/
def sumWalk (people : List TreeNode) (families : List TreeFamily) :
    ℕ → String → ℕ → SummState → SummState
  | 0, _, _, st => st
  | fuel + 1, h, gen, st =>
    if st.visited.contains h then st
    else
      let st1 := { st with visited := addSet st.visited h }
      match pget people h with
      | none => st1
      | some person =>
        let st2 := { st1 with
          minGen := some (match st1.minGen with | none => gen | some m => min m gen)
          maxGen := some (match st1.maxGen with | none => gen | some m => max m gen)
          living := if person.isLiving then st1.living + 1 else st1.living
          deceased := if person.isLiving then st1.deceased else st1.deceased + 1
          patri := if person.isPatrilineal then st1.patri + 1 else st1.patri }
        sumFams people families fuel person.families gen st2

def sumFams (people : List TreeNode) (families : List TreeFamily) :
    ℕ → List String → ℕ → SummState → SummState
  | 0, _, _, st => st
  | _ + 1, [], _, st => st
  | fuel + 1, fId :: rest, gen, st =>
    let st' := match fget families fId with
      | none => st
      | some fam => sumKids people families fuel fam.children gen st
    sumFams people families fuel rest gen st'

def sumKids (people : List TreeNode) (families : List TreeFamily) :
    ℕ → List String → ℕ → SummState → SummState
  | 0, _, _, st => st
  | _ + 1, [], _, st => st
  | fuel + 1, ch :: rest, gen, st =>
    sumKids people families fuel rest gen
      (sumWalk people families fuel ch (gen + 1) st)

end

/-- Spouse counting in the top-level family loop of
`computeBranchSummary` (lines 774-781): an unvisited spouse distinct
from the collapsed root is marked visited and counted, but not walked. -/
def cbsSpouse (people : List TreeNode) (handle : String)
    (st : SummState) (opt : Option String) : SummState :=
  match opt with
  | none => st
  | some s =>
    if s ≠ handle ∧ ¬ st.visited.contains s then
      match pget people s with
      | none => st
      | some spouse =>
        { st with
          visited := addSet st.visited s
          living := if spouse.isLiving then st.living + 1 else st.living
          deceased := if spouse.isLiving then st.deceased else st.deceased + 1 }
    else st

/-- The rollup record returned by `computeBranchSummary`. -/
structure BranchSummary where
  parentHandle : String
  totalDescendants : ℕ
  generationRange : ℕ × ℕ
  livingCount : ℕ
  deceasedCount : ℕ
  patrilinealCount : ℕ
  deriving Repr, DecidableEq

/-- `computeBranchSummary` from book/page.tsx lines 740-792: walk from
the collapsed root's children at generation 1 (the root itself is not
walked), count spouses per family, and report visited-set size and the
generation extrema (0 when no person was walked). -/
def computeBranchSummary (handle : String) (people : List TreeNode)
    (families : List TreeFamily) : BranchSummary :=
  let st0 : SummState := ⟨[], 0, 0, 0, none, none⟩
  let stF :=
    match pget people handle with
    | none => st0
    | some person =>
      person.families.foldl (fun st fId =>
        match fget families fId with
        | none => st
        | some fam =>
          let s1 := cbsSpouse people handle st fam.motherHandle
          let s2 := cbsSpouse people handle s1 fam.fatherHandle
          fam.children.foldl
            (fun s ch => sumWalk people families (visFuel people families) ch 1 s)
            s2) st0
  { parentHandle := handle,
    totalDescendants := stF.visited.length,
    generationRange := (stF.minGen.getD 0, stF.maxGen.getD 0),
    livingCount := stF.living,
    deceasedCount := stF.deceased,
    patrilinealCount := stF.patri }

/-! ### The collapse example of the spec -/

namespace C8x

def A : TreeNode := C5x.mkP "A" ["F1"] []

def B : TreeNode := C5x.mkP "B" ["F2"] ["F1"]

def C : TreeNode := C5x.mkP "C" [] ["F1"]

def D : TreeNode := C5x.mkP "D" [] ["F2"]

def F1 : TreeFamily :=
  { handle := "F1", fatherHandle := some "A", motherHandle := none,
    children := ["B", "C"] }

def F2 : TreeFamily :=
  { handle := "F2", fatherHandle := some "B", motherHandle := none,
    children := ["D"] }

def people : List TreeNode := [A, B, C, D]

def families : List TreeFamily := [F1, F2]

end C8x

/-- C8: on the example [A(root), B, C children of A, D child of B],
collapsing B yields a branch summary whose generationRange is [1, 1],
not [2, 2] as claimed: the summary walk starts the root's children at
relative generation 1, and D is the only walked person. -/
theorem collapse_example_generation_range :
    (computeBranchSummary "B" C8x.people C8x.families).generationRange ≠ (2, 2) ∧
    (computeBranchSummary "B" C8x.people C8x.families).generationRange = (1, 1) := by
  decide

/-- C8 (amended): on the example [A(root), B, C children of A, D child
of B], collapsing B hides exactly {D} (A, B, C stay visible), and the
branch summary for B reports totalDescendants = 1 and
generationRange = [1, 1] (relative depth below the collapsed root). -/
theorem collapse_example_summary :
    hiddenHandles C8x.people C8x.families ["B"] = ["D"] ∧
    (computeBranchSummary "B" C8x.people C8x.families).totalDescendants = 1 ∧
    (computeBranchSummary "B" C8x.people C8x.families).generationRange = (1, 1) := by
  decide

/-! ### Soundness of the cascade: every hidden handle is either in the
descendant closure union or was added by a genuine all-parents-hidden
step for a person with a nonempty parent-family list. -/

lemma contains_true (s : List String) (x : String) : s.contains x = true ↔ x ∈ s := by
  simp [List.contains]

lemma allParentsHidden_mono (families : List TreeFamily) {S T : List String}
    (hST : ∀ x ∈ S, x ∈ T) (p : TreeNode) :
    allParentsHidden families S p = true → allParentsHidden families T p = true := by
  simp only [allParentsHidden, List.all_eq_true]
  intro hall pfId hmem
  have h2 := hall pfId hmem
  revert h2
  cases hf : fget families pfId with
  | none => intro _; rfl
  | some pf =>
    intro h2
    rw [Bool.and_eq_true] at h2 ⊢
    refine ⟨?_, ?_⟩
    · rcases h2 with ⟨hfa, _⟩
      revert hfa
      cases pf.fatherHandle with
      | none => intro _; rfl
      | some f =>
        intro hfa
        exact (contains_true T f).mpr (hST f ((contains_true S f).mp hfa))
    · rcases h2 with ⟨_, hmo⟩
      revert hmo
      cases pf.motherHandle with
      | none => intro _; rfl
      | some m =>
        intro hmo
        exact (contains_true T m).mpr (hST m ((contains_true S m).mp hmo))

lemma cascadeStep_subset (families : List TreeFamily)
    (acc : List String × Bool) (p : TreeNode) :
    ∀ x ∈ acc.1, x ∈ (cascadeStep families acc p).1 := by
  intro x hx
  simp only [cascadeStep]
  split
  · exact hx
  split
  · exact hx
  split
  · exact List.mem_append_left _ hx
  · exact hx

lemma cascadeStep_mem (families : List TreeFamily)
    (acc : List String × Bool) (p : TreeNode) :
    ∀ h ∈ (cascadeStep families acc p).1,
      h ∈ acc.1 ∨
      (h = p.handle ∧ p.parentFamilies ≠ [] ∧
        allParentsHidden families acc.1 p = true) := by
  intro h hh
  simp only [cascadeStep] at hh
  split at hh
  · exact Or.inl hh
  split at hh
  · exact Or.inl hh
  split at hh
  · rcases List.mem_append.mp hh with hl | hr
    · exact Or.inl hl
    · rename_i hpf hall
      exact Or.inr ⟨List.mem_singleton.mp hr, hpf, hall⟩
  · exact Or.inl hh

lemma cascadeFold_sound (families : List TreeFamily) (people : List TreeNode)
    (hidden : List String) :
    ∀ (l : List TreeNode), (∀ q ∈ l, q ∈ people) →
      ∀ (st : List String × Bool),
      (∀ h ∈ st.1, h ∈ hidden ∨ ∃ p ∈ people, p.handle = h ∧
        p.parentFamilies ≠ [] ∧ allParentsHidden families st.1 p = true) →
      ∀ h ∈ (l.foldl (cascadeStep families) st).1,
        h ∈ hidden ∨ ∃ p ∈ people, p.handle = h ∧ p.parentFamilies ≠ [] ∧
          allParentsHidden families (l.foldl (cascadeStep families) st).1 p = true := by
  intro l
  induction l with
  | nil =>
    intro _ st hQ h hh
    simpa using hQ h (by simpa using hh)
  | cons q t ih =>
    intro hsub st hQ
    simp only [List.foldl_cons]
    apply ih (fun x hx => hsub x (List.mem_cons_of_mem _ hx))
    intro h hh
    rcases cascadeStep_mem families st q h hh with hmem | ⟨heq, hqpf, hqall⟩
    · rcases hQ h hmem with h0 | ⟨p, hp, hph, hppf, hpall⟩
      · exact Or.inl h0
      · exact Or.inr ⟨p, hp, hph, hppf,
          allParentsHidden_mono families (cascadeStep_subset families st q) p hpall⟩
    · exact Or.inr ⟨q, hsub q (List.mem_cons_self q t), heq.symm, hqpf,
        allParentsHidden_mono families (cascadeStep_subset families st q) q hqall⟩

lemma cascadePass_sound (people : List TreeNode) (families : List TreeFamily)
    (hidden : List String) :
    ∀ h ∈ (cascadePass people families hidden).1,
      h ∈ hidden ∨ ∃ p ∈ people, p.handle = h ∧ p.parentFamilies ≠ [] ∧
        allParentsHidden families (cascadePass people families hidden).1 p = true := by
  simp only [cascadePass]
  exact cascadeFold_sound families people hidden people (fun q hq => hq)
    (hidden, false) (fun h hh => Or.inl hh)

lemma cascadePass_subset (people : List TreeNode) (families : List TreeFamily)
    (hidden : List String) :
    ∀ x ∈ hidden, x ∈ (cascadePass people families hidden).1 := by
  intro x hx
  simp only [cascadePass]
  exact foldl_invariant (fun st => x ∈ st.1) (cascadeStep families) people
    (hidden, false) hx (fun s b _ hq => cascadeStep_subset families s b x hq)

lemma cascadeLoop_subset (people : List TreeNode) (families : List TreeFamily) :
    ∀ (fuel : ℕ) (hidden : List String), ∀ x ∈ hidden,
      x ∈ cascadeLoop people families fuel hidden := by
  intro fuel
  induction fuel with
  | zero =>
    intro hidden x hx
    simpa [cascadeLoop] using hx
  | succ n ih =>
    intro hidden x hx
    simp only [cascadeLoop]
    split
    · exact ih _ x (cascadePass_subset people families hidden x hx)
    · exact cascadePass_subset people families hidden x hx

lemma cascadeLoop_sound (people : List TreeNode) (families : List TreeFamily) :
    ∀ (fuel : ℕ) (hidden : List String) (h : String),
      h ∈ cascadeLoop people families fuel hidden →
      h ∈ hidden ∨ ∃ p ∈ people, p.handle = h ∧ p.parentFamilies ≠ [] ∧
        allParentsHidden families (cascadeLoop people families fuel hidden) p = true := by
  intro fuel
  induction fuel with
  | zero =>
    intro hidden h hh
    exact Or.inl (by simpa [cascadeLoop] using hh)
  | succ n ih =>
    intro hidden h hh
    simp only [cascadeLoop] at hh ⊢
    by_cases hc : (cascadePass people families hidden).2
    · rw [if_pos hc] at hh ⊢
      rcases ih _ h hh with h1 | ⟨p, hp, hph, hppf, hall⟩
      · rcases cascadePass_sound people families hidden h h1 with
          h0 | ⟨p, hp, hph, hppf, hall⟩
        · exact Or.inl h0
        · exact Or.inr ⟨p, hp, hph, hppf, allParentsHidden_mono families
            (fun x hx => cascadeLoop_subset people families n _ x hx) p hall⟩
      · exact Or.inr ⟨p, hp, hph, hppf, hall⟩
    · rw [if_neg hc] at hh ⊢
      exact cascadePass_sound people families hidden h hh

namespace C7x

def A : TreeNode := C5x.mkP "A" ["F1"] []

def B : TreeNode := C5x.mkP "B" [] ["F1"]

def F1 : TreeFamily :=
  { handle := "F1", fatherHandle := some "A", motherHandle := none,
    children := ["B"] }

def people : List TreeNode := [A, B]

def families : List TreeFamily := [F1]

end C7x

/-- C7: with both A and its child B collapsed, the collapsed root B
itself is contained in the hidden-handle set (B lies in A's descendant
closure, and nothing in hiddenHandles exempts collapsed roots), refuting
that a collapsed root is never hidden. -/
theorem collapsed_root_in_hidden :
    "B" ∈ ["A", "B"] ∧ "B" ∈ hiddenHandles C7x.people C7x.families ["A", "B"] := by
  decide

/-- C7 (amended): a collapsed root ends up hidden only for one of two
reasons: it lies in the union of the collapsed roots' descendant
closures, or it is a person with a nonempty parent-family list all of
whose parent families are hidden-or-absent in the final hidden set (the
cascade rule); a collapsed root matching neither stays visible. -/
theorem collapsed_root_hidden_only_if (people : List TreeNode)
    (families : List TreeFamily) (roots : List String) (h : String)
    (hr : h ∈ roots)
    (hh : h ∈ hiddenHandles people families roots) :
    h ∈ hiddenInit people families roots ∨
    ∃ p ∈ people, p.handle = h ∧ p.parentFamilies ≠ [] ∧
      allParentsHidden families (hiddenHandles people families roots) p = true := by
  simp only [hiddenHandles] at hh ⊢
  exact cascadeLoop_sound people families (people.length + 1)
    (hiddenInit people families roots) h hh

/-- Instantiation of the amended C7 characterization on the collapsed
pair A, B: B is hidden because it lies in A's descendant closure. -/
theorem collapsed_root_hidden_only_if_witness :
    "B" ∈ ["A", "B"] ∧
    "B" ∈ hiddenHandles C7x.people C7x.families ["A", "B"] ∧
    ("B" ∈ hiddenInit C7x.people C7x.families ["A", "B"] ∨
     ∃ p ∈ C7x.people, p.handle = "B" ∧ p.parentFamilies ≠ [] ∧
       allParentsHidden C7x.families
         (hiddenHandles C7x.people C7x.families ["A", "B"]) p = true) :=
  ⟨by decide, by decide,
    collapsed_root_hidden_only_if C7x.people C7x.families ["A", "B"] "B"
      (by decide) (by decide)⟩

namespace C10w

def A : TreeNode := C5x.mkP "A" ["F1"] []

def S : TreeNode := C5x.mkP "S" ["F1"] []

def K : TreeNode := C5x.mkP "K" [] ["F1"]

def F1 : TreeFamily :=
  { handle := "F1", fatherHandle := some "A", motherHandle := some "S",
    children := ["K"] }

def people : List TreeNode := [A, S, K]

def families : List TreeFamily := [F1]

end C10w

/-- C10: a person whose parentFamilies list is empty (and whose handle
is not reused by some person with parent families) is hidden exactly
when it lies in the union of the collapsed roots' descendant closures;
the cascade never adds such a person, since it skips people with no
recorded parent family. -/
theorem empty_parent_families_hidden_iff (people : List TreeNode)
    (families : List TreeFamily) (roots : List String) (p : TreeNode)
    (hp : p ∈ people) (hpf : p.parentFamilies = [])
    (huniq : ∀ q ∈ people, q.handle = p.handle → q.parentFamilies = []) :
    p.handle ∈ hiddenHandles people families roots ↔
      p.handle ∈ hiddenInit people families roots := by
  constructor
  · intro hh
    simp only [hiddenHandles] at hh
    rcases cascadeLoop_sound people families (people.length + 1)
        (hiddenInit people families roots) p.handle hh with
      h0 | ⟨q, hq, hqh, hqpf, _⟩
    · exact h0
    · exact absurd (huniq q hq hqh) hqpf
  · intro h0
    simp only [hiddenHandles]
    exact cascadeLoop_subset people families (people.length + 1) _ p.handle h0

/-- Instantiation of C10 on a family where collapsing the father A
absorbs the parentless spouse S into the closure: S is hidden, and
indeed S is already in the closure union, as the equivalence forces. -/
theorem empty_parent_families_hidden_iff_witness :
    C10w.S ∈ C10w.people ∧ C10w.S.parentFamilies = [] ∧
    (C10w.S.handle ∈ hiddenHandles C10w.people C10w.families ["A"] ↔
     C10w.S.handle ∈ hiddenInit C10w.people C10w.families ["A"]) :=
  ⟨by decide, by decide,
    empty_parent_families_hidden_iff C10w.people C10w.families ["A"] C10w.S
      (by decide) (by decide) (by decide)⟩

/-! ## `filterAncestors` and `filterDescendants` (tree-layout.ts 624-680)

Both walks carry the mutable `result` set explicitly and are modelled
with structural fuel; `aFuel`/`dFuel` below are computed bounds on the
recursion depth, derived in the two-fuel stability lemmas further down,
so that the functions compute the walks the source's visited guard
makes terminating. -/

/-- All children handles mentioned by family records. -/
def famChildren (families : List TreeFamily) : List String :=
  families.foldr (fun f acc => f.children ++ acc) []

/-- All father/mother handles mentioned by family records. -/
def famParents (families : List TreeFamily) : List String :=
  families.foldr (fun f acc =>
    (match f.fatherHandle with | some x => [x] | none => []) ++
    (match f.motherHandle with | some x => [x] | none => []) ++ acc) []

/-- Step-cost bound for the ancestor walk. -/
def aK (people : List TreeNode) : ℕ :=
  people.foldr (fun p a => p.parentFamilies.length + a) 0 + 2

/-- Fuel for the ancestor walk. -/
def aFuel (people : List TreeNode) (families : List TreeFamily) : ℕ :=
  ((famParents families).length + 1) * (aK people * aK people) + aK people + 2

/-- Step-cost bound for the descendant walk. -/
def dK (people : List TreeNode) (families : List TreeFamily) : ℕ :=
  people.foldr (fun p a => p.families.length + a) 0 +
    families.foldr (fun f a => f.children.length + a) 0 + 2

/-- Fuel for the descendant walk. -/
def dFuel (people : List TreeNode) (families : List TreeFamily) : ℕ :=
  ((famChildren families).length + (famParents families).length + 1) *
    (dK people families * dK people families) + dK people families + 2

mutual

/-- `walk` of `filterAncestors` (tree-layout.ts lines 629-641). -/
def aWalk (people : List TreeNode) (families : List TreeFamily) :
    ℕ → String → List String → List String
  | 0, _, res => res
  | fuel + 1, h, res =>
    if res.contains h then res
    else
      let res1 := addSet res h
      match pget people h with
      | none => res1
      | some person => aFams people families fuel person.parentFamilies res1

def aFams (people : List TreeNode) (families : List TreeFamily) :
    ℕ → List String → List String → List String
  | 0, _, res => res
  | _ + 1, [], res => res
  | fuel + 1, pfId :: rest, res =>
    let res' := match fget families pfId with
      | none => res
      | some fam =>
        let r1 := match fam.fatherHandle with
          | some f => aWalk people families fuel f res
          | none => res
        match fam.motherHandle with
        | some m => aWalk people families fuel m r1
        | none => r1
    aFams people families fuel rest res'

end

/-- The family filter of `filterAncestors` (line 646-648): keep a
family when its father or its mother was reached (a missing parent
handle is falsy). -/
def ancPred (result : List String) (f : TreeFamily) : Bool :=
  (match f.fatherHandle with
   | some x => result.contains x
   | none => false) ||
  (match f.motherHandle with
   | some x => result.contains x
   | none => false)

/-- `filterAncestors` from tree-layout.ts lines 624-650: walk the
parent closure, then keep people whose handle was reached and families
with a reached father or mother. -/
def filterAncestors (handle : String) (people : List TreeNode)
    (families : List TreeFamily) : List TreeNode × List TreeFamily :=
  let result := aWalk people families (aFuel people families) handle []
  (people.filter (fun p => result.contains p.handle),
   families.filter (ancPred result))

mutual

/-- `walk` of `filterDescendants` (tree-layout.ts lines 658-672); the
state is the pair (`result`, `includedFamilies`). -/
def dWalk (people : List TreeNode) (families : List TreeFamily) :
    ℕ → String → List String × List String → List String × List String
  | 0, _, st => st
  | fuel + 1, h, st =>
    if st.1.contains h then st
    else
      let st1 := (addSet st.1 h, st.2)
      match pget people h with
      | none => st1
      | some person => dFams people families fuel person.families st1

def dFams (people : List TreeNode) (families : List TreeFamily) :
    ℕ → List String → List String × List String → List String × List String
  | 0, _, st => st
  | _ + 1, [], st => st
  | fuel + 1, fId :: rest, st =>
    let st' := match fget families fId with
      | none => st
      | some fam =>
        let r0 := (st.1, addSet st.2 fam.handle)
        let r1 := match fam.fatherHandle with
          | some f => (addSet r0.1 f, r0.2)
          | none => r0
        let r2 := match fam.motherHandle with
          | some m => (addSet r1.1 m, r1.2)
          | none => r1
        dKids people families fuel fam.children r2
    dFams people families fuel rest st'

def dKids (people : List TreeNode) (families : List TreeFamily) :
    ℕ → List String → List String × List String → List String × List String
  | 0, _, st => st
  | _ + 1, [], st => st
  | fuel + 1, ch :: rest, st =>
    dKids people families fuel rest (dWalk people families fuel ch st)

end

/-- `filterDescendants` from tree-layout.ts lines 652-680: walk the
descendant closure (spouses added but not walked), keep people whose
handle was reached and exactly the families the walk found. -/
def filterDescendants (handle : String) (people : List TreeNode)
    (families : List TreeFamily) : List TreeNode × List TreeFamily :=
  let st := dWalk people families (dFuel people families) handle ([], [])
  (people.filter (fun p => st.1.contains p.handle),
   families.filter (fun f => st.2.contains f.handle))

/-! ### Lookup in a filtered collection -/

lemma mem_addSet_self (s : List String) (x : String) : x ∈ addSet s x := by
  unfold addSet
  split
  · assumption
  · simp

lemma mem_addSet_of_mem (s : List String) (x y : String) (hy : y ∈ s) :
    y ∈ addSet s x := by
  unfold addSet
  split
  · exact hy
  · exact List.mem_append_left _ hy

lemma mem_addSet (s : List String) (x y : String) (hy : y ∈ addSet s x) :
    y ∈ s ∨ y = x := by
  unfold addSet at hy
  split at hy
  · exact Or.inl hy
  · rcases List.mem_append.mp hy with h | h
    · exact Or.inl h
    · exact Or.inr (List.mem_singleton.mp h)

/-- `new Map(l.map(a => [key a, a])).get(k)` returns the last record of
`l` whose key is `k`. -/
lemma jsGet_mapOf_getLast {α : Type _} (key : α → String) (l : List α) (k : String) :
    jsGet (jsMapOf key l) k = (l.filter (fun a => key a == k)).getLast? := by
  induction l using List.reverseRecOn with
  | nil => simp [jsMapOf, jsGet]
  | append_singleton xs x ih =>
    have hm : jsMapOf key (xs ++ [x]) = jsSet (jsMapOf key xs) (key x) x := by
      simp [jsMapOf, List.foldl_append]
    rw [hm]
    by_cases hk : key x = k
    · subst hk
      rw [jsGet_jsSet_self]
      rw [List.filter_append]
      simp
    · rw [jsGet_jsSet_ne _ _ _ _ (fun hkk => hk hkk.symm), ih]
      rw [List.filter_append]
      have : List.filter (fun a => key a == k) [x] = [] := by
        simp [hk]
      rw [this, List.append_nil]

/-- Filtering by a predicate on the key commutes with lookup: if the
key passes, the same record is found; if not, nothing is. -/
lemma jsGet_mapOf_filter_key {α : Type _} (key : α → String) (q : String → Bool)
    (l : List α) (k : String) :
    jsGet (jsMapOf key (l.filter (fun a => q (key a)))) k =
      if q k then jsGet (jsMapOf key l) k else none := by
  rw [jsGet_mapOf_getLast, jsGet_mapOf_getLast]
  rw [List.filter_filter]
  by_cases hq : q k
  · rw [if_pos hq]
    congr 1
    apply List.filter_congr
    intro a _
    by_cases hk : key a = k
    · simp [hk, hq]
    · simp [hk]
  · rw [if_neg hq]
    have hnil : (l.filter fun a => key a == k && q (key a)) = [] := by
      rw [List.filter_eq_nil]
      intro a _
      by_cases hk : key a = k
      · simp [hk, hq]
      · simp [hk]
    rw [hnil]
    rfl

lemma pget_filter (people : List TreeNode) (q : String → Bool) (x : String) :
    pget (people.filter (fun p => q p.handle)) x =
      if q x then pget people x else none :=
  jsGet_mapOf_filter_key TreeNode.handle q people x

lemma fget_filter (families : List TreeFamily) (q : String → Bool) (k : String) :
    fget (families.filter (fun f => q f.handle)) k =
      if q k then fget families k else none :=
  jsGet_mapOf_filter_key TreeFamily.handle q families k

/-- With distinct keys, the key-matching sublist of a successful lookup
is exactly the found record. -/
lemma filter_key_singleton {α : Type _} (key : α → String) (l : List α)
    (k : String) (v : α) (hnd : (l.map key).Nodup)
    (hv : jsGet (jsMapOf key l) k = some v) :
    l.filter (fun a => key a == k) = [v] := by
  rw [jsGet_mapOf_getLast] at hv
  have hsub : (l.filter (fun a => key a == k)).Sublist l := List.filter_sublist _
  have hmapnd : ((l.filter (fun a => key a == k)).map key).Nodup :=
    List.Nodup.sublist (hsub.map key) hnd
  have hall : ∀ b ∈ (l.filter (fun a => key a == k)).map key, b = k := by
    intro b hb
    obtain ⟨a, ha, rfl⟩ := List.mem_map.mp hb
    have := List.of_mem_filter ha
    simpa using this
  have hrep := List.eq_replicate_of_mem hall
  rw [hrep] at hmapnd
  have hlen : ((l.filter (fun a => key a == k)).map key).length ≤ 1 :=
    List.nodup_replicate.mp hmapnd
  rw [List.length_map] at hlen
  cases hfl : l.filter (fun a => key a == k) with
  | nil => rw [hfl] at hv; simp at hv
  | cons a t =>
    cases t with
    | nil =>
      rw [hfl] at hv
      simp only [List.getLast?_singleton] at hv
      injection hv with hv
      rw [hv]
    | cons b t2 =>
      rw [hfl] at hlen
      simp at hlen

/-- With distinct family handles, looking up a key in a filtered family
list returns the original record exactly when it passes the filter. -/
lemma fget_filter_nodup (families : List TreeFamily) (pred : TreeFamily → Bool)
    (k : String) (fam : TreeFamily)
    (hnd : (families.map TreeFamily.handle).Nodup)
    (hg : fget families k = some fam) :
    fget (families.filter pred) k = if pred fam then some fam else none := by
  unfold fget
  rw [jsGet_mapOf_getLast]
  have hsing := filter_key_singleton TreeFamily.handle families k fam hnd hg
  have hcomm : (families.filter pred).filter (fun a => TreeFamily.handle a == k) =
      (families.filter (fun a => TreeFamily.handle a == k)).filter pred := by
    rw [List.filter_filter, List.filter_filter]
    apply List.filter_congr
    intro a _
    exact Bool.and_comm _ _
  rw [hcomm, hsing]
  by_cases hp : pred fam
  · rw [if_pos hp]
    simp [hp]
  · rw [if_neg hp]
    simp [hp]

/-- A failed lookup stays failed in any filtered sublist. -/
lemma jsGet_mapOf_filter_none {α : Type _} (key : α → String) (pred : α → Bool)
    (l : List α) (k : String)
    (hg : jsGet (jsMapOf key l) k = none) :
    jsGet (jsMapOf key (l.filter pred)) k = none := by
  rw [jsGet_mapOf_getLast] at hg ⊢
  rw [List.filter_filter]
  have hnil : l.filter (fun a => key a == k) = [] := by
    cases hfl : l.filter (fun a => key a == k) with
    | nil => rfl
    | cons a t =>
      rw [hfl] at hg
      have := List.getLast?_isSome (l := a :: t)
      simp at hg
  rw [List.filter_eq_nil_iff] at hnil
  have hnil2 : (l.filter fun a => key a == k && pred a) = [] := by
    rw [List.filter_eq_nil_iff]
    intro a ha hc
    rw [Bool.and_eq_true] at hc
    exact hnil a ha hc.1
  rw [hnil2]
  rfl

/-! ### Potential of a visited set -/

lemma filter_length_mono (l : List String) (p q : String → Bool)
    (him : ∀ a ∈ l, q a = true → p a = true) :
    (l.filter q).length ≤ (l.filter p).length := by
  induction l with
  | nil => simp
  | cons a t ih =>
    have ht := ih (fun b hb => him b (List.mem_cons_of_mem _ hb))
    by_cases hq : q a = true
    · rw [List.filter_cons_of_pos hq, List.filter_cons_of_pos (him a (List.mem_cons_self a t) hq)]
      simpa using ht
    · rw [List.filter_cons_of_neg (by simpa using hq)]
      by_cases hp : p a = true
      · rw [List.filter_cons_of_pos hp]
        exact Nat.le_succ_of_le ht
      · rw [List.filter_cons_of_neg (by simpa using hp)]
        exact ht

lemma filter_length_strict (l : List String) (p q : String → Bool)
    (him : ∀ a ∈ l, q a = true → p a = true)
    (x : String) (hx : x ∈ l) (hpx : p x = true) (hqx : q x = false) :
    (l.filter q).length < (l.filter p).length := by
  induction l with
  | nil => cases hx
  | cons a t ih =>
    have hmono := filter_length_mono t p q (fun b hb => him b (List.mem_cons_of_mem _ hb))
    rcases List.mem_cons.mp hx with rfl | hxt
    · rw [List.filter_cons_of_pos hpx, List.filter_cons_of_neg (by simp [hqx])]
      simpa using Nat.lt_succ_of_le hmono
    · by_cases hq : q a = true
      · rw [List.filter_cons_of_pos hq, List.filter_cons_of_pos (him a (List.mem_cons_self a t) hq)]
        simpa using ih (fun b hb => him b (List.mem_cons_of_mem _ hb)) hxt
      · rw [List.filter_cons_of_neg (by simpa using hq)]
        have hlt := ih (fun b hb => him b (List.mem_cons_of_mem _ hb)) hxt
        by_cases hp : p a = true
        · rw [List.filter_cons_of_pos hp]
          exact Nat.lt_succ_of_lt hlt
        · rw [List.filter_cons_of_neg (by simpa using hp)]
          exact hlt

/-- The number of universe handles not yet in the visited set. -/
def unvisited (U res : List String) : ℕ :=
  (U.filter (fun x => !res.contains x)).length

lemma unvisited_anti (U res res' : List String) (hsub : res ⊆ res') :
    unvisited U res' ≤ unvisited U res := by
  apply filter_length_mono
  intro a _ ha
  rw [Bool.not_eq_true'] at ha ⊢
  rcases hc : res.contains a with _ | _
  · rfl
  · exfalso
    have h2 : res'.contains a = true :=
      (contains_true res' a).mpr (hsub ((contains_true res a).mp hc))
    rw [h2] at ha
    cases ha

lemma unvisited_strict (U res : List String) (x : String)
    (hx : x ∈ U) (hnx : x ∉ res) :
    unvisited U (addSet res x) < unvisited U res := by
  apply filter_length_strict (x := x)
  · intro a _ ha
    rw [Bool.not_eq_true'] at ha ⊢
    rcases hc : res.contains a with _ | _
    · rfl
    · exfalso
      have h2 : (addSet res x).contains a = true :=
        (contains_true _ a).mpr (mem_addSet_of_mem res x a ((contains_true res a).mp hc))
      rw [h2] at ha
      cases ha
  · exact hx
  · simp [hnx]
  · simp [contains_true, mem_addSet_self]

/-! ### Monotonicity of the two filter walks -/

lemma dWalk_mono (people : List TreeNode) (families : List TreeFamily) :
    ∀ fuel : ℕ,
      (∀ h st, st.1 ⊆ (dWalk people families fuel h st).1 ∧
        st.2 ⊆ (dWalk people families fuel h st).2) ∧
      (∀ l st, st.1 ⊆ (dFams people families fuel l st).1 ∧
        st.2 ⊆ (dFams people families fuel l st).2) ∧
      (∀ l st, st.1 ⊆ (dKids people families fuel l st).1 ∧
        st.2 ⊆ (dKids people families fuel l st).2) := by
  intro fuel
  induction fuel with
  | zero =>
    refine ⟨fun h st => ?_, fun l st => ?_, fun l st => ?_⟩ <;>
      exact ⟨fun x hx => hx, fun x hx => hx⟩
  | succ n ih =>
    obtain ⟨ihW, ihF, ihK⟩ := ih
    refine ⟨fun h st => ?_, fun l st => ?_, fun l st => ?_⟩
    · simp only [dWalk]
      split
      · exact ⟨fun x hx => hx, fun x hx => hx⟩
      · cases hp : pget people h with
        | none =>
          exact ⟨fun x hx => mem_addSet_of_mem _ _ _ hx, fun x hx => hx⟩
        | some person =>
          have hsub := ihF person.families (addSet st.1 h, st.2)
          exact ⟨fun x hx => hsub.1 (mem_addSet_of_mem _ _ _ hx), hsub.2⟩
    · cases l with
      | nil => exact ⟨fun x hx => hx, fun x hx => hx⟩
      | cons fId rest =>
        simp only [dFams]
        cases hf : fget families fId with
        | none => exact ihF rest st
        | some fam =>
          dsimp only
          cases hF : fam.fatherHandle with
          | none =>
            cases hM : fam.motherHandle with
            | none =>
              dsimp only
              have h2 := ihK fam.children (st.1, addSet st.2 fam.handle)
              have h3 := ihF rest (dKids people families n fam.children
                (st.1, addSet st.2 fam.handle))
              exact ⟨fun x hx => h3.1 (h2.1 hx),
                fun x hx => h3.2 (h2.2 (mem_addSet_of_mem _ _ _ hx))⟩
            | some m =>
              dsimp only
              have h2 := ihK fam.children (addSet st.1 m, addSet st.2 fam.handle)
              have h3 := ihF rest (dKids people families n fam.children
                (addSet st.1 m, addSet st.2 fam.handle))
              exact ⟨fun x hx => h3.1 (h2.1 (mem_addSet_of_mem _ _ _ hx)),
                fun x hx => h3.2 (h2.2 (mem_addSet_of_mem _ _ _ hx))⟩
          | some f =>
            cases hM : fam.motherHandle with
            | none =>
              dsimp only
              have h2 := ihK fam.children (addSet st.1 f, addSet st.2 fam.handle)
              have h3 := ihF rest (dKids people families n fam.children
                (addSet st.1 f, addSet st.2 fam.handle))
              exact ⟨fun x hx => h3.1 (h2.1 (mem_addSet_of_mem _ _ _ hx)),
                fun x hx => h3.2 (h2.2 (mem_addSet_of_mem _ _ _ hx))⟩
            | some m =>
              dsimp only
              have h2 := ihK fam.children
                (addSet (addSet st.1 f) m, addSet st.2 fam.handle)
              have h3 := ihF rest (dKids people families n fam.children
                (addSet (addSet st.1 f) m, addSet st.2 fam.handle))
              exact ⟨fun x hx => h3.1 (h2.1 (mem_addSet_of_mem _ _ _
                  (mem_addSet_of_mem _ _ _ hx))),
                fun x hx => h3.2 (h2.2 (mem_addSet_of_mem _ _ _ hx))⟩
    · cases l with
      | nil => exact ⟨fun x hx => hx, fun x hx => hx⟩
      | cons ch rest =>
        simp only [dKids]
        have h1 := ihW ch st
        have h2 := ihK rest (dWalk people families n ch st)
        exact ⟨fun x hx => h2.1 (h1.1 hx), fun x hx => h2.2 (h1.2 hx)⟩

lemma aWalk_mono (people : List TreeNode) (families : List TreeFamily) :
    ∀ fuel : ℕ,
      (∀ h res, res ⊆ aWalk people families fuel h res) ∧
      (∀ l res, res ⊆ aFams people families fuel l res) := by
  intro fuel
  induction fuel with
  | zero => exact ⟨fun h res x hx => hx, fun l res x hx => hx⟩
  | succ n ih =>
    obtain ⟨ihW, ihF⟩ := ih
    refine ⟨fun h res => ?_, fun l res => ?_⟩
    · simp only [aWalk]
      split
      · exact fun x hx => hx
      · cases hp : pget people h with
        | none => exact fun x hx => mem_addSet_of_mem _ _ _ hx
        | some person =>
          exact fun x hx =>
            ihF person.parentFamilies (addSet res h) (mem_addSet_of_mem _ _ _ hx)
    · cases l with
      | nil => exact fun x hx => hx
      | cons pfId rest =>
        simp only [aFams]
        cases hf : fget families pfId with
        | none => exact ihF rest res
        | some fam =>
          dsimp only
          cases hF : fam.fatherHandle with
          | none =>
            cases hM : fam.motherHandle with
            | none => exact ihF rest res
            | some m =>
              dsimp only
              exact fun x hx => ihF rest _ (ihW m res hx)
          | some f =>
            cases hM : fam.motherHandle with
            | none =>
              dsimp only
              exact fun x hx => ihF rest _ (ihW f res hx)
            | some m =>
              dsimp only
              exact fun x hx => ihF rest _ (ihW m _ (ihW f res hx))

/-! ### The walks stay inside the handle universe -/

lemma dWalk_inU (people : List TreeNode) (families : List TreeFamily)
    (U : List String)
    (hfam : ∀ k fam, fget families k = some fam →
      (∀ c ∈ fam.children, c ∈ U) ∧
      (∀ y, fam.fatherHandle = some y → y ∈ U) ∧
      (∀ y, fam.motherHandle = some y → y ∈ U)) :
    ∀ fuel : ℕ,
      (∀ h st, h ∈ U → (∀ x ∈ st.1, x ∈ U) →
        ∀ x ∈ (dWalk people families fuel h st).1, x ∈ U) ∧
      (∀ l st, (∀ x ∈ st.1, x ∈ U) →
        ∀ x ∈ (dFams people families fuel l st).1, x ∈ U) ∧
      (∀ l st, (∀ c ∈ l, c ∈ U) → (∀ x ∈ st.1, x ∈ U) →
        ∀ x ∈ (dKids people families fuel l st).1, x ∈ U) := by
  intro fuel
  induction fuel with
  | zero =>
    exact ⟨fun h st _ hst => hst, fun l st hst => hst, fun l st _ hst => hst⟩
  | succ n ih =>
    obtain ⟨ihW, ihF, ihK⟩ := ih
    refine ⟨fun h st hh hst => ?_, fun l st hst => ?_, fun l st hl hst => ?_⟩
    · simp only [dWalk]
      split
      · exact hst
      · have hst1 : ∀ x ∈ addSet st.1 h, x ∈ U := by
          intro x hx
          rcases mem_addSet _ _ _ hx with hx | rfl
          · exact hst x hx
          · exact hh
        cases hp : pget people h with
        | none => exact hst1
        | some person => exact ihF person.families (addSet st.1 h, st.2) hst1
    · cases l with
      | nil => exact hst
      | cons fId rest =>
        simp only [dFams]
        cases hf : fget families fId with
        | none => exact ihF rest st hst
        | some fam =>
          dsimp only
          obtain ⟨hch, hfa, hmo⟩ := hfam fId fam hf
          cases hF : fam.fatherHandle with
          | none =>
            cases hM : fam.motherHandle with
            | none =>
              dsimp only
              exact ihF rest _ (ihK fam.children (st.1, addSet st.2 fam.handle) hch hst)
            | some m =>
              dsimp only
              refine ihF rest _ (ihK fam.children
                (addSet st.1 m, addSet st.2 fam.handle) hch ?_)
              intro x hx
              rcases mem_addSet _ _ _ hx with hx | rfl
              · exact hst x hx
              · exact hmo x hM
          | some f =>
            cases hM : fam.motherHandle with
            | none =>
              dsimp only
              refine ihF rest _ (ihK fam.children
                (addSet st.1 f, addSet st.2 fam.handle) hch ?_)
              intro x hx
              rcases mem_addSet _ _ _ hx with hx | rfl
              · exact hst x hx
              · exact hfa x hF
            | some m =>
              dsimp only
              refine ihF rest _ (ihK fam.children
                (addSet (addSet st.1 f) m, addSet st.2 fam.handle) hch ?_)
              intro x hx
              rcases mem_addSet _ _ _ hx with hx | rfl
              · rcases mem_addSet _ _ _ hx with hx | rfl
                · exact hst x hx
                · exact hfa x hF
              · exact hmo x hM
    · cases l with
      | nil => exact hst
      | cons ch rest =>
        simp only [dKids]
        exact ihK rest _ (fun c hc => hl c (List.mem_cons_of_mem _ hc))
          (ihW ch st (hl ch (List.mem_cons_self ch rest)) hst)

lemma aWalk_inU (people : List TreeNode) (families : List TreeFamily)
    (U : List String)
    (hfam : ∀ k fam, fget families k = some fam →
      (∀ y, fam.fatherHandle = some y → y ∈ U) ∧
      (∀ y, fam.motherHandle = some y → y ∈ U)) :
    ∀ fuel : ℕ,
      (∀ h res, h ∈ U → (∀ x ∈ res, x ∈ U) →
        ∀ x ∈ aWalk people families fuel h res, x ∈ U) ∧
      (∀ l res, (∀ x ∈ res, x ∈ U) →
        ∀ x ∈ aFams people families fuel l res, x ∈ U) := by
  intro fuel
  induction fuel with
  | zero => exact ⟨fun h res _ hst => hst, fun l res hst => hst⟩
  | succ n ih =>
    obtain ⟨ihW, ihF⟩ := ih
    refine ⟨fun h res hh hst => ?_, fun l res hst => ?_⟩
    · simp only [aWalk]
      split
      · exact hst
      · have hst1 : ∀ x ∈ addSet res h, x ∈ U := by
          intro x hx
          rcases mem_addSet _ _ _ hx with hx | rfl
          · exact hst x hx
          · exact hh
        cases hp : pget people h with
        | none => exact hst1
        | some person => exact ihF person.parentFamilies (addSet res h) hst1
    · cases l with
      | nil => exact hst
      | cons pfId rest =>
        simp only [aFams]
        cases hf : fget families pfId with
        | none => exact ihF rest res hst
        | some fam =>
          dsimp only
          obtain ⟨hfa, hmo⟩ := hfam pfId fam hf
          cases hF : fam.fatherHandle with
          | none =>
            cases hM : fam.motherHandle with
            | none => exact ihF rest res hst
            | some m =>
              dsimp only
              exact ihF rest _ (ihW m res (hmo m hM) hst)
          | some f =>
            cases hM : fam.motherHandle with
            | none =>
              dsimp only
              exact ihF rest _ (ihW f res (hfa f hF) hst)
            | some m =>
              dsimp only
              exact ihF rest _ (ihW m _ (hmo m hM) (ihW f res (hfa f hF) hst))

/-! ### Two-fuel stability: above the potential-derived budget, the
walks no longer depend on the exact fuel value -/

lemma aFams_twofuel_aux (people : List TreeNode) (families : List TreeFamily)
    (U : List String) (K : ℕ) (hK : 2 ≤ K)
    (hfam : ∀ k fam, fget families k = some fam →
      (∀ y, fam.fatherHandle = some y → y ∈ U) ∧
      (∀ y, fam.motherHandle = some y → y ∈ U))
    (N : ℕ)
    (HW : ∀ res h f₁ f₂, unvisited U res ≤ N → (∀ x ∈ res, x ∈ U) → h ∈ U →
      unvisited U res * (K * K) + 1 ≤ f₁ → unvisited U res * (K * K) + 1 ≤ f₂ →
      aWalk people families f₁ h res = aWalk people families f₂ h res) :
    ∀ (l : List String) (res : List String) (f₁ f₂ : ℕ),
      unvisited U res ≤ N → (∀ x ∈ res, x ∈ U) →
      unvisited U res * (K * K) + l.length + 2 ≤ f₁ →
      unvisited U res * (K * K) + l.length + 2 ≤ f₂ →
      aFams people families f₁ l res = aFams people families f₂ l res := by
  intro l
  induction l with
  | nil =>
    intro res f₁ f₂ _ _ hf₁ hf₂
    obtain ⟨g₁, rfl⟩ : ∃ g, f₁ = g + 1 := ⟨f₁ - 1, by omega⟩
    obtain ⟨g₂, rfl⟩ : ∃ g, f₂ = g + 1 := ⟨f₂ - 1, by omega⟩
    rfl
  | cons pfId rest ih =>
    intro res f₁ f₂ hN hres hf₁ hf₂
    obtain ⟨g₁, rfl⟩ : ∃ g, f₁ = g + 1 := ⟨f₁ - 1, by omega⟩
    obtain ⟨g₂, rfl⟩ : ∃ g, f₂ = g + 1 := ⟨f₂ - 1, by omega⟩
    simp only [aFams]
    simp only [List.length_cons] at hf₁ hf₂
    cases hf : fget families pfId with
    | none =>
      exact ih res g₁ g₂ hN hres (by omega) (by omega)
    | some fam =>
      dsimp only
      obtain ⟨hfa, hmo⟩ := hfam pfId fam hf
      cases hF : fam.fatherHandle with
      | none =>
        cases hM : fam.motherHandle with
        | none =>
          exact ih res g₁ g₂ hN hres (by omega) (by omega)
        | some m =>
          dsimp only
          have hw : aWalk people families g₁ m res = aWalk people families g₂ m res :=
            HW res m g₁ g₂ hN hres (hmo m hM) (by omega) (by omega)
          rw [hw]
          have hsub := aWalk_mono people families g₂
          have hanti : unvisited U (aWalk people families g₂ m res) ≤ unvisited U res :=
            unvisited_anti U res _ (hsub.1 m res)
          have hinU : ∀ x ∈ aWalk people families g₂ m res, x ∈ U :=
            (aWalk_inU people families U hfam g₂).1 m res (hmo m hM) hres
          have hmul : unvisited U (aWalk people families g₂ m res) * (K * K) ≤
              unvisited U res * (K * K) := Nat.mul_le_mul_right _ hanti
          exact ih _ g₁ g₂ (le_trans hanti hN) hinU (by omega) (by omega)
      | some f =>
        have hw1 : aWalk people families g₁ f res = aWalk people families g₂ f res :=
          HW res f g₁ g₂ hN hres (hfa f hF) (by omega) (by omega)
        have hsub := aWalk_mono people families g₂
        have hanti1 : unvisited U (aWalk people families g₂ f res) ≤ unvisited U res :=
          unvisited_anti U res _ (hsub.1 f res)
        have hinU1 : ∀ x ∈ aWalk people families g₂ f res, x ∈ U :=
          (aWalk_inU people families U hfam g₂).1 f res (hfa f hF) hres
        have hmul1 : unvisited U (aWalk people families g₂ f res) * (K * K) ≤
            unvisited U res * (K * K) := Nat.mul_le_mul_right _ hanti1
        cases hM : fam.motherHandle with
        | none =>
          dsimp only
          rw [hw1]
          exact ih _ g₁ g₂ (le_trans hanti1 hN) hinU1 (by omega) (by omega)
        | some m =>
          dsimp only
          rw [hw1]
          have hw2 : aWalk people families g₁ m (aWalk people families g₂ f res) =
              aWalk people families g₂ m (aWalk people families g₂ f res) :=
            HW _ m g₁ g₂ (le_trans hanti1 hN) hinU1 (hmo m hM) (by omega) (by omega)
          rw [hw2]
          have hanti2 : unvisited U (aWalk people families g₂ m
              (aWalk people families g₂ f res)) ≤
              unvisited U (aWalk people families g₂ f res) :=
            unvisited_anti U _ _ (hsub.1 m _)
          have hinU2 : ∀ x ∈ aWalk people families g₂ m
              (aWalk people families g₂ f res), x ∈ U :=
            (aWalk_inU people families U hfam g₂).1 m _ (hmo m hM) hinU1
          have hmul2 : unvisited U (aWalk people families g₂ m
              (aWalk people families g₂ f res)) * (K * K) ≤
              unvisited U res * (K * K) :=
            Nat.mul_le_mul_right _ (le_trans hanti2 hanti1)
          exact ih _ g₁ g₂ (le_trans (le_trans hanti2 hanti1) hN) hinU2
            (by omega) (by omega)

lemma aWalk_twofuel (people : List TreeNode) (families : List TreeFamily)
    (U : List String) (K : ℕ) (hK : 2 ≤ K)
    (hper : ∀ x p, pget people x = some p → p.parentFamilies.length + 2 ≤ K)
    (hfam : ∀ k fam, fget families k = some fam →
      (∀ y, fam.fatherHandle = some y → y ∈ U) ∧
      (∀ y, fam.motherHandle = some y → y ∈ U)) :
    ∀ (N : ℕ) (res : List String) (h : String) (f₁ f₂ : ℕ),
      unvisited U res ≤ N → (∀ x ∈ res, x ∈ U) → h ∈ U →
      unvisited U res * (K * K) + 1 ≤ f₁ → unvisited U res * (K * K) + 1 ≤ f₂ →
      aWalk people families f₁ h res = aWalk people families f₂ h res := by
  intro N
  induction N with
  | zero =>
    intro res h f₁ f₂ hN hres hh hf₁ hf₂
    obtain ⟨g₁, rfl⟩ : ∃ g, f₁ = g + 1 := ⟨f₁ - 1, by omega⟩
    obtain ⟨g₂, rfl⟩ : ∃ g, f₂ = g + 1 := ⟨f₂ - 1, by omega⟩
    simp only [aWalk]
    split
    · rfl
    · rename_i hguard
      have hfresh : h ∉ res := fun hm => hguard ((contains_true res h).mpr hm)
      have hdrop := unvisited_strict U res h hh hfresh
      exfalso
      omega
  | succ n ih =>
    intro res h f₁ f₂ hN hres hh hf₁ hf₂
    obtain ⟨g₁, rfl⟩ : ∃ g, f₁ = g + 1 := ⟨f₁ - 1, by omega⟩
    obtain ⟨g₂, rfl⟩ : ∃ g, f₂ = g + 1 := ⟨f₂ - 1, by omega⟩
    simp only [aWalk]
    split
    · rfl
    · rename_i hguard
      have hfresh : h ∉ res := fun hm => hguard ((contains_true res h).mpr hm)
      have hdrop := unvisited_strict U res h hh hfresh
      cases hp : pget people h with
      | none => rfl
      | some person =>
        dsimp only
        have hres1 : ∀ x ∈ addSet res h, x ∈ U := by
          intro x hx
          rcases mem_addSet _ _ _ hx with hx | rfl
          · exact hres x hx
          · exact hh
        have hKp := hper h person hp
        have hmul : (unvisited U (addSet res h) + 1) * (K * K) ≤
            unvisited U res * (K * K) := Nat.mul_le_mul_right _ (by omega)
        have hKK : K * (person.parentFamilies.length + 2) ≤ K * K :=
          Nat.mul_le_mul_left _ hKp
        have hexp1 : (unvisited U (addSet res h) + 1) * (K * K) =
            unvisited U (addSet res h) * (K * K) + K * K := by ring
        have hexp2 : K * (person.parentFamilies.length + 2) =
            K * person.parentFamilies.length + 2 * K := by ring
        have hKbig : person.parentFamilies.length + 2 ≤ K * K := by
          have h2 : K ≤ K * K := Nat.le_mul_of_pos_left K (by omega)
          omega
        exact aFams_twofuel_aux people families U K hK hfam n
          (fun r hh' fa fb hN' => ih r hh' fa fb hN')
          person.parentFamilies (addSet res h) g₁ g₂ (by omega) hres1
          (by omega) (by omega)

lemma dKids_twofuel_aux (people : List TreeNode) (families : List TreeFamily)
    (U : List String) (K : ℕ) (hK : 2 ≤ K)
    (hfam : ∀ k fam, fget families k = some fam →
      (∀ c ∈ fam.children, c ∈ U) ∧
      (∀ y, fam.fatherHandle = some y → y ∈ U) ∧
      (∀ y, fam.motherHandle = some y → y ∈ U))
    (N : ℕ)
    (HW : ∀ st h f₁ f₂, unvisited U st.1 ≤ N → (∀ x ∈ st.1, x ∈ U) → h ∈ U →
      unvisited U st.1 * (K * K) + 1 ≤ f₁ → unvisited U st.1 * (K * K) + 1 ≤ f₂ →
      dWalk people families f₁ h st = dWalk people families f₂ h st) :
    ∀ (l : List String) (st : List String × List String) (f₁ f₂ : ℕ),
      unvisited U st.1 ≤ N → (∀ x ∈ st.1, x ∈ U) → (∀ c ∈ l, c ∈ U) →
      unvisited U st.1 * (K * K) + K + l.length ≤ f₁ →
      unvisited U st.1 * (K * K) + K + l.length ≤ f₂ →
      dKids people families f₁ l st = dKids people families f₂ l st := by
  intro l
  induction l with
  | nil =>
    intro st f₁ f₂ _ _ _ hf₁ hf₂
    obtain ⟨g₁, rfl⟩ : ∃ g, f₁ = g + 1 := ⟨f₁ - 1, by omega⟩
    obtain ⟨g₂, rfl⟩ : ∃ g, f₂ = g + 1 := ⟨f₂ - 1, by omega⟩
    rfl
  | cons ch rest ih =>
    intro st f₁ f₂ hN hres hl hf₁ hf₂
    obtain ⟨g₁, rfl⟩ : ∃ g, f₁ = g + 1 := ⟨f₁ - 1, by omega⟩
    obtain ⟨g₂, rfl⟩ : ∃ g, f₂ = g + 1 := ⟨f₂ - 1, by omega⟩
    simp only [dKids]
    simp only [List.length_cons] at hf₁ hf₂
    have hchU : ch ∈ U := hl ch (List.mem_cons_self ch rest)
    have hw : dWalk people families g₁ ch st = dWalk people families g₂ ch st :=
      HW st ch g₁ g₂ hN hres hchU (by omega) (by omega)
    rw [hw]
    have hsub := (dWalk_mono people families g₂).1 ch st
    have hanti : unvisited U (dWalk people families g₂ ch st).1 ≤ unvisited U st.1 :=
      unvisited_anti U st.1 _ hsub.1
    have hinU : ∀ x ∈ (dWalk people families g₂ ch st).1, x ∈ U :=
      (dWalk_inU people families U hfam g₂).1 ch st hchU hres
    have hmul : unvisited U (dWalk people families g₂ ch st).1 * (K * K) ≤
        unvisited U st.1 * (K * K) := Nat.mul_le_mul_right _ hanti
    exact ih _ g₁ g₂ (le_trans hanti hN) hinU
      (fun c hc => hl c (List.mem_cons_of_mem _ hc)) (by omega) (by omega)

lemma dFams_twofuel_aux (people : List TreeNode) (families : List TreeFamily)
    (U : List String) (K : ℕ) (hK : 2 ≤ K)
    (hfam : ∀ k fam, fget families k = some fam →
      (∀ c ∈ fam.children, c ∈ U) ∧ fam.children.length + 2 ≤ K ∧
      (∀ y, fam.fatherHandle = some y → y ∈ U) ∧
      (∀ y, fam.motherHandle = some y → y ∈ U))
    (N : ℕ)
    (HK : ∀ (l : List String) (st : List String × List String) (f₁ f₂ : ℕ),
      unvisited U st.1 ≤ N → (∀ x ∈ st.1, x ∈ U) → (∀ c ∈ l, c ∈ U) →
      unvisited U st.1 * (K * K) + K + l.length ≤ f₁ →
      unvisited U st.1 * (K * K) + K + l.length ≤ f₂ →
      dKids people families f₁ l st = dKids people families f₂ l st) :
    ∀ (l : List String) (st : List String × List String) (f₁ f₂ : ℕ),
      unvisited U st.1 ≤ N → (∀ x ∈ st.1, x ∈ U) →
      unvisited U st.1 * (K * K) + K * (l.length + 1) + 1 ≤ f₁ →
      unvisited U st.1 * (K * K) + K * (l.length + 1) + 1 ≤ f₂ →
      dFams people families f₁ l st = dFams people families f₂ l st := by
  have hfam' : ∀ k fam, fget families k = some fam →
      (∀ c ∈ fam.children, c ∈ U) ∧
      (∀ y, fam.fatherHandle = some y → y ∈ U) ∧
      (∀ y, fam.motherHandle = some y → y ∈ U) := by
    intro k fam hf
    obtain ⟨h1, _, h3, h4⟩ := hfam k fam hf
    exact ⟨h1, h3, h4⟩
  intro l
  induction l with
  | nil =>
    intro st f₁ f₂ _ _ hf₁ hf₂
    obtain ⟨g₁, rfl⟩ : ∃ g, f₁ = g + 1 := ⟨f₁ - 1, by omega⟩
    obtain ⟨g₂, rfl⟩ : ∃ g, f₂ = g + 1 := ⟨f₂ - 1, by omega⟩
    rfl
  | cons fId rest ih =>
    intro st f₁ f₂ hN hres hf₁ hf₂
    obtain ⟨g₁, rfl⟩ : ∃ g, f₁ = g + 1 := ⟨f₁ - 1, by omega⟩
    obtain ⟨g₂, rfl⟩ : ∃ g, f₂ = g + 1 := ⟨f₂ - 1, by omega⟩
    simp only [dFams]
    simp only [List.length_cons] at hf₁ hf₂
    have hexp : K * (rest.length + 1 + 1) = K * (rest.length + 1) + K := by ring
    cases hf : fget families fId with
    | none =>
      exact ih st g₁ g₂ hN hres (by omega) (by omega)
    | some fam =>
      dsimp only
      obtain ⟨hch, hlen, hfa, hmo⟩ := hfam fId fam hf
      have hKK1 : K ≤ K * K := Nat.le_mul_of_pos_left K (by omega)
      have hstep : ∀ (r2 : List String × List String),
          (∀ x ∈ st.1, x ∈ r2.1) → (∀ x ∈ r2.1, x ∈ U) →
          dKids people families g₁ fam.children r2 =
            dKids people families g₂ fam.children r2 ∧
          dFams people families g₁ rest (dKids people families g₂ fam.children r2) =
            dFams people families g₂ rest (dKids people families g₂ fam.children r2) := by
        intro r2 hsub2 hinU2
        have hanti2 : unvisited U r2.1 ≤ unvisited U st.1 :=
          unvisited_anti U st.1 r2.1 hsub2
        have hmul2 : unvisited U r2.1 * (K * K) ≤ unvisited U st.1 * (K * K) :=
          Nat.mul_le_mul_right _ hanti2
        have hKr : K ≤ K * (rest.length + 1) := Nat.le_mul_of_pos_right K (by omega)
        refine ⟨HK fam.children r2 g₁ g₂ (le_trans hanti2 hN) hinU2 hch
          (by omega) (by omega), ?_⟩
        have hsub3 := (dWalk_mono people families g₂).2.2 fam.children r2
        have hanti3 : unvisited U (dKids people families g₂ fam.children r2).1 ≤
            unvisited U r2.1 := unvisited_anti U r2.1 _ hsub3.1
        have hinU3 : ∀ x ∈ (dKids people families g₂ fam.children r2).1, x ∈ U :=
          (dWalk_inU people families U hfam' g₂).2.2 fam.children r2 hch hinU2
        have hmul3 : unvisited U (dKids people families g₂ fam.children r2).1 * (K * K) ≤
            unvisited U st.1 * (K * K) :=
          Nat.mul_le_mul_right _ (le_trans hanti3 hanti2)
        exact ih _ g₁ g₂ (le_trans (le_trans hanti3 hanti2) hN) hinU3
          (by omega) (by omega)
      cases hF : fam.fatherHandle with
      | none =>
        cases hM : fam.motherHandle with
        | none =>
          dsimp only
          obtain ⟨hk, hfl⟩ := hstep (st.1, addSet st.2 fam.handle)
            (fun x hx => hx) hres
          rw [hk]
          exact hfl
        | some m =>
          dsimp only
          obtain ⟨hk, hfl⟩ := hstep (addSet st.1 m, addSet st.2 fam.handle)
            (fun x hx => mem_addSet_of_mem _ _ _ hx)
            (by
              intro x hx
              rcases mem_addSet _ _ _ hx with hx | rfl
              · exact hres x hx
              · exact hmo x hM)
          rw [hk]
          exact hfl
      | some f =>
        cases hM : fam.motherHandle with
        | none =>
          dsimp only
          obtain ⟨hk, hfl⟩ := hstep (addSet st.1 f, addSet st.2 fam.handle)
            (fun x hx => mem_addSet_of_mem _ _ _ hx)
            (by
              intro x hx
              rcases mem_addSet _ _ _ hx with hx | rfl
              · exact hres x hx
              · exact hfa x hF)
          rw [hk]
          exact hfl
        | some m =>
          dsimp only
          obtain ⟨hk, hfl⟩ := hstep (addSet (addSet st.1 f) m, addSet st.2 fam.handle)
            (fun x hx => mem_addSet_of_mem _ _ _ (mem_addSet_of_mem _ _ _ hx))
            (by
              intro x hx
              rcases mem_addSet _ _ _ hx with hx | rfl
              · rcases mem_addSet _ _ _ hx with hx | rfl
                · exact hres x hx
                · exact hfa x hF
              · exact hmo x hM)
          rw [hk]
          exact hfl

lemma dWalk_twofuel (people : List TreeNode) (families : List TreeFamily)
    (U : List String) (K : ℕ) (hK : 2 ≤ K)
    (hper : ∀ x p, pget people x = some p → p.families.length + 2 ≤ K)
    (hfam : ∀ k fam, fget families k = some fam →
      (∀ c ∈ fam.children, c ∈ U) ∧ fam.children.length + 2 ≤ K ∧
      (∀ y, fam.fatherHandle = some y → y ∈ U) ∧
      (∀ y, fam.motherHandle = some y → y ∈ U)) :
    ∀ (N : ℕ) (st : List String × List String) (h : String) (f₁ f₂ : ℕ),
      unvisited U st.1 ≤ N → (∀ x ∈ st.1, x ∈ U) → h ∈ U →
      unvisited U st.1 * (K * K) + 1 ≤ f₁ → unvisited U st.1 * (K * K) + 1 ≤ f₂ →
      dWalk people families f₁ h st = dWalk people families f₂ h st := by
  intro N
  induction N with
  | zero =>
    intro st h f₁ f₂ hN hres hh hf₁ hf₂
    obtain ⟨g₁, rfl⟩ : ∃ g, f₁ = g + 1 := ⟨f₁ - 1, by omega⟩
    obtain ⟨g₂, rfl⟩ : ∃ g, f₂ = g + 1 := ⟨f₂ - 1, by omega⟩
    simp only [dWalk]
    split
    · rfl
    · rename_i hguard
      have hfresh : h ∉ st.1 := fun hm => hguard ((contains_true st.1 h).mpr hm)
      have hdrop := unvisited_strict U st.1 h hh hfresh
      exfalso
      omega
  | succ n ih =>
    intro st h f₁ f₂ hN hres hh hf₁ hf₂
    obtain ⟨g₁, rfl⟩ : ∃ g, f₁ = g + 1 := ⟨f₁ - 1, by omega⟩
    obtain ⟨g₂, rfl⟩ : ∃ g, f₂ = g + 1 := ⟨f₂ - 1, by omega⟩
    simp only [dWalk]
    split
    · rfl
    · rename_i hguard
      have hfresh : h ∉ st.1 := fun hm => hguard ((contains_true st.1 h).mpr hm)
      have hdrop := unvisited_strict U st.1 h hh hfresh
      cases hp : pget people h with
      | none => rfl
      | some person =>
        dsimp only
        have hres1 : ∀ x ∈ addSet st.1 h, x ∈ U := by
          intro x hx
          rcases mem_addSet _ _ _ hx with hx | rfl
          · exact hres x hx
          · exact hh
        have hKp := hper h person hp
        have hmul : (unvisited U (addSet st.1 h) + 1) * (K * K) ≤
            unvisited U st.1 * (K * K) := Nat.mul_le_mul_right _ (by omega)
        have hexp1 : (unvisited U (addSet st.1 h) + 1) * (K * K) =
            unvisited U (addSet st.1 h) * (K * K) + K * K := by ring
        have hKK : K * (person.families.length + 2) ≤ K * K :=
          Nat.mul_le_mul_left _ hKp
        have hexp2 : K * (person.families.length + 2) =
            K * (person.families.length + 1) + K := by ring
        have heq : unvisited U ((addSet st.1 h, st.2)).1 =
            unvisited U (addSet st.1 h) := rfl
        have heq2 : unvisited U ((addSet st.1 h, st.2)).1 * (K * K) =
            unvisited U (addSet st.1 h) * (K * K) := rfl
        exact dFams_twofuel_aux people families U K hK hfam n
          (dKids_twofuel_aux people families U K hK
            (fun k fam hf => by
              obtain ⟨h1, _, h3, h4⟩ := hfam k fam hf
              exact ⟨h1, h3, h4⟩) n
            (fun st' h' fa fb hN' => ih st' h' fa fb hN'))
          person.families (addSet st.1 h, st.2) g₁ g₂ (by omega) hres1
          (by omega) (by omega)

/-! ### The computed fuels are above the budget -/

lemma foldr_len_bound {α : Type _} (g : α → ℕ) :
    ∀ (l : List α), ∀ x ∈ l, g x ≤ l.foldr (fun a acc => g a + acc) 0 := by
  intro l
  induction l with
  | nil => intro x hx; cases hx
  | cons a t ih =>
    intro x hx
    rcases List.mem_cons.mp hx with rfl | hxt
    · simp only [List.foldr_cons]
      omega
    · have := ih x hxt
      simp only [List.foldr_cons]
      omega

lemma mem_famParents_father (families : List TreeFamily) (fam : TreeFamily)
    (hm : fam ∈ families) (y : String) (hy : fam.fatherHandle = some y) :
    y ∈ famParents families := by
  induction families with
  | nil => cases hm
  | cons f t ih =>
    simp only [famParents, List.foldr_cons]
    rcases List.mem_cons.mp hm with rfl | hmt
    · rw [hy]
      simp
    · exact List.mem_append_right _ (ih hmt)

lemma mem_famParents_mother (families : List TreeFamily) (fam : TreeFamily)
    (hm : fam ∈ families) (y : String) (hy : fam.motherHandle = some y) :
    y ∈ famParents families := by
  induction families with
  | nil => cases hm
  | cons f t ih =>
    simp only [famParents, List.foldr_cons]
    rcases List.mem_cons.mp hm with rfl | hmt
    · rw [hy]
      simp
    · exact List.mem_append_right _ (ih hmt)

lemma mem_famChildren (families : List TreeFamily) (fam : TreeFamily)
    (hm : fam ∈ families) (c : String) (hc : c ∈ fam.children) :
    c ∈ famChildren families := by
  induction families with
  | nil => cases hm
  | cons f t ih =>
    simp only [famChildren, List.foldr_cons, List.mem_append]
    rcases List.mem_cons.mp hm with rfl | hmt
    · exact Or.inl hc
    · exact Or.inr (ih hmt)

lemma unvisited_nil (U : List String) : unvisited U [] = U.length := by
  simp [unvisited]

/-- Any fuel at least `aFuel` computes the same ancestor walk. -/
lemma aWalk_fuel_stable (handle : String) (people : List TreeNode)
    (families : List TreeFamily) (f : ℕ) (hf : aFuel people families ≤ f) :
    aWalk people families f handle [] =
      aWalk people families (aFuel people families) handle [] := by
  refine aWalk_twofuel people families (handle :: famParents families) (aK people)
    ?_ ?_ ?_ (unvisited (handle :: famParents families) []) [] handle f
    (aFuel people families) le_rfl (fun x hx => absurd hx (List.not_mem_nil x))
    (List.mem_cons_self _ _) ?_ ?_
  · unfold aK
    omega
  · intro x p hp
    have hm := (pget_mem people x p hp).1
    have h2 : p.parentFamilies.length ≤
        people.foldr (fun p a => p.parentFamilies.length + a) 0 :=
      foldr_len_bound (fun q => q.parentFamilies.length) people p hm
    unfold aK
    omega
  · intro k fam hf'
    have hm := (fget_mem families k fam hf').1
    exact ⟨fun y hy => List.mem_cons_of_mem _ (mem_famParents_father families fam hm y hy),
      fun y hy => List.mem_cons_of_mem _ (mem_famParents_mother families fam hm y hy)⟩
  · rw [unvisited_nil, List.length_cons]
    unfold aFuel at hf
    omega
  · rw [unvisited_nil, List.length_cons]
    unfold aFuel
    omega

/-- Any fuel at least `dFuel` computes the same descendant walk. -/
lemma dWalk_fuel_stable (handle : String) (people : List TreeNode)
    (families : List TreeFamily) (f : ℕ) (hf : dFuel people families ≤ f) :
    dWalk people families f handle ([], []) =
      dWalk people families (dFuel people families) handle ([], []) := by
  refine dWalk_twofuel people families
    (handle :: (famChildren families ++ famParents families)) (dK people families)
    ?_ ?_ ?_ (unvisited (handle :: (famChildren families ++ famParents families)) [])
    ([], []) handle f (dFuel people families) le_rfl
    (fun x hx => absurd hx (List.not_mem_nil x))
    (List.mem_cons_self _ _) ?_ ?_
  · unfold dK
    omega
  · intro x p hp
    have hm := (pget_mem people x p hp).1
    have h2 : p.families.length ≤
        people.foldr (fun p a => p.families.length + a) 0 :=
      foldr_len_bound (fun q => q.families.length) people p hm
    unfold dK
    omega
  · intro k fam hf'
    have hm := (fget_mem families k fam hf').1
    refine ⟨fun c hc => List.mem_cons_of_mem _
        (List.mem_append_left _ (mem_famChildren families fam hm c hc)), ?_,
      fun y hy => List.mem_cons_of_mem _
        (List.mem_append_right _ (mem_famParents_father families fam hm y hy)),
      fun y hy => List.mem_cons_of_mem _
        (List.mem_append_right _ (mem_famParents_mother families fam hm y hy))⟩
    have h2 : fam.children.length ≤
        families.foldr (fun f a => f.children.length + a) 0 :=
      foldr_len_bound (fun g => g.children.length) families fam hm
    unfold dK
    omega
  · rw [unvisited_nil, List.length_cons, List.length_append]
    unfold dFuel at hf
    omega
  · rw [unvisited_nil, List.length_cons, List.length_append]
    unfold dFuel
    omega

/-! ### Walking the filtered data retraces the original walk -/

lemma fget_filter_none (families : List TreeFamily) (pred : TreeFamily → Bool)
    (k : String) (h : fget families k = none) :
    fget (families.filter pred) k = none :=
  jsGet_mapOf_filter_none TreeFamily.handle pred families k h

lemma aWalk_mem_self (people : List TreeNode) (families : List TreeFamily)
    (n : ℕ) (h : String) (res : List String) (hg : ¬ res.contains h = true) :
    h ∈ aWalk people families (n + 1) h res := by
  simp only [aWalk]
  rw [if_neg hg]
  cases hp : pget people h with
  | none => exact mem_addSet_self res h
  | some p =>
    exact (aWalk_mono people families n).2 p.parentFamilies (addSet res h)
      (mem_addSet_self res h)

lemma dWalk_mem_self (people : List TreeNode) (families : List TreeFamily)
    (n : ℕ) (h : String) (st : List String × List String)
    (hg : ¬ st.1.contains h = true) :
    h ∈ (dWalk people families (n + 1) h st).1 := by
  simp only [dWalk]
  rw [if_neg hg]
  cases hp : pget people h with
  | none => exact mem_addSet_self st.1 h
  | some p =>
    exact ((dWalk_mono people families n).2.1 p.families (addSet st.1 h, st.2)).1
      (mem_addSet_self st.1 h)

lemma dWalk_sim (people : List TreeNode) (families : List TreeFamily)
    (L I : List String) :
    ∀ fuel : ℕ,
      (∀ h st, (∀ x ∈ (dWalk people families fuel h st).1, x ∈ L) →
        (∀ x ∈ (dWalk people families fuel h st).2, x ∈ I) →
        dWalk (people.filter (fun p => L.contains p.handle))
          (families.filter (fun f => I.contains f.handle)) fuel h st =
          dWalk people families fuel h st) ∧
      (∀ l st, (∀ x ∈ (dFams people families fuel l st).1, x ∈ L) →
        (∀ x ∈ (dFams people families fuel l st).2, x ∈ I) →
        dFams (people.filter (fun p => L.contains p.handle))
          (families.filter (fun f => I.contains f.handle)) fuel l st =
          dFams people families fuel l st) ∧
      (∀ l st, (∀ x ∈ (dKids people families fuel l st).1, x ∈ L) →
        (∀ x ∈ (dKids people families fuel l st).2, x ∈ I) →
        dKids (people.filter (fun p => L.contains p.handle))
          (families.filter (fun f => I.contains f.handle)) fuel l st =
          dKids people families fuel l st) := by
  intro fuel
  induction fuel with
  | zero => exact ⟨fun h st _ _ => rfl, fun l st _ _ => rfl, fun l st _ _ => rfl⟩
  | succ n ih =>
    obtain ⟨ihW, ihF, ihK⟩ := ih
    refine ⟨fun h st h1 h2 => ?_, fun l st h1 h2 => ?_, fun l st h1 h2 => ?_⟩
    · by_cases hg : st.1.contains h
      · simp only [dWalk]
        rw [if_pos hg, if_pos hg]
      · have hhL : h ∈ L := h1 h (dWalk_mem_self people families n h st hg)
        simp only [dWalk] at h1 h2 ⊢
        rw [if_neg hg] at h1 h2
        rw [if_neg hg, if_neg hg]
        cases hp : pget people h with
        | none =>
          have hfp : pget (people.filter (fun p => L.contains p.handle)) h = none := by
            rw [pget_filter, hp]
            split <;> rfl
          rw [hfp]
        | some p =>
          have hfp : pget (people.filter (fun p => L.contains p.handle)) h = some p := by
            rw [pget_filter, if_pos ((contains_true L h).mpr hhL)]
            exact hp
          rw [hp] at h1 h2
          rw [hfp]
          dsimp only at h1 h2 ⊢
          exact ihF p.families (addSet st.1 h, st.2) h1 h2
    · cases l with
      | nil => rfl
      | cons fId rest =>
        simp only [dFams] at h1 h2 ⊢
        cases hfq : fget families fId with
        | none =>
          have hffn : fget (families.filter (fun f => I.contains f.handle)) fId = none :=
            fget_filter_none families _ fId hfq
          rw [hfq] at h1 h2
          rw [hffn]
          dsimp only at h1 h2 ⊢
          exact ihF rest st h1 h2
        | some fam =>
          rw [hfq] at h1 h2
          dsimp only at h1 h2
          have hIh : fam.handle ∈ I := by
            apply h2
            refine ((dWalk_mono people families n).2.1 rest _).2 ?_
            refine ((dWalk_mono people families n).2.2 fam.children _).2 ?_
            cases fam.fatherHandle <;> cases fam.motherHandle <;>
              exact mem_addSet_self st.2 fam.handle
          have hkey : fam.handle = fId := (fget_mem families fId fam hfq).2
          have hffs : fget (families.filter (fun f => I.contains f.handle)) fId =
              some fam := by
            rw [fget_filter, if_pos]
            · exact hfq
            · rw [← hkey]
              exact (contains_true I fam.handle).mpr hIh
          rw [hffs]
          dsimp only
          cases hF : fam.fatherHandle with
          | none =>
            rw [hF] at h1 h2
            cases hM : fam.motherHandle with
            | none =>
              rw [hM] at h1 h2
              dsimp only at h1 h2 ⊢
              have hkids := ihK fam.children (st.1, addSet st.2 fam.handle)
                (fun x hx => h1 x (((dWalk_mono people families n).2.1 rest _).1 hx))
                (fun x hx => h2 x (((dWalk_mono people families n).2.1 rest _).2 hx))
              rw [hkids]
              exact ihF rest _ h1 h2
            | some m =>
              rw [hM] at h1 h2
              dsimp only at h1 h2 ⊢
              have hkids := ihK fam.children (addSet st.1 m, addSet st.2 fam.handle)
                (fun x hx => h1 x (((dWalk_mono people families n).2.1 rest _).1 hx))
                (fun x hx => h2 x (((dWalk_mono people families n).2.1 rest _).2 hx))
              rw [hkids]
              exact ihF rest _ h1 h2
          | some f =>
            rw [hF] at h1 h2
            cases hM : fam.motherHandle with
            | none =>
              rw [hM] at h1 h2
              dsimp only at h1 h2 ⊢
              have hkids := ihK fam.children (addSet st.1 f, addSet st.2 fam.handle)
                (fun x hx => h1 x (((dWalk_mono people families n).2.1 rest _).1 hx))
                (fun x hx => h2 x (((dWalk_mono people families n).2.1 rest _).2 hx))
              rw [hkids]
              exact ihF rest _ h1 h2
            | some m =>
              rw [hM] at h1 h2
              dsimp only at h1 h2 ⊢
              have hkids := ihK fam.children (addSet (addSet st.1 f) m, addSet st.2 fam.handle)
                (fun x hx => h1 x (((dWalk_mono people families n).2.1 rest _).1 hx))
                (fun x hx => h2 x (((dWalk_mono people families n).2.1 rest _).2 hx))
              rw [hkids]
              exact ihF rest _ h1 h2
    · cases l with
      | nil => rfl
      | cons ch rest =>
        simp only [dKids] at h1 h2 ⊢
        have hw : dWalk (people.filter (fun p => L.contains p.handle))
            (families.filter (fun f => I.contains f.handle)) n ch st =
            dWalk people families n ch st := by
          apply ihW
          · intro x hx
            exact h1 x (((dWalk_mono people families n).2.2 rest _).1 hx)
          · intro x hx
            exact h2 x (((dWalk_mono people families n).2.2 rest _).2 hx)
        rw [hw]
        exact ihK rest _ h1 h2

/-- With one step of fuel, the family loop of the ancestor walk cannot
change the result set: every inner walk is out of fuel. -/
lemma aFams_one (people : List TreeNode) (families : List TreeFamily)
    (pfId : String) (rest : List String) (res : List String) :
    aFams people families 1 (pfId :: rest) res = res := by
  simp only [aFams]
  cases hf : fget families pfId with
  | none => rfl
  | some fam =>
    dsimp only
    cases fam.fatherHandle <;> cases fam.motherHandle <;> rfl

lemma aWalk_sim (people : List TreeNode) (families : List TreeFamily)
    (L : List String) (hnd : (families.map TreeFamily.handle).Nodup) :
    ∀ fuel : ℕ,
      (∀ h res, (∀ x ∈ aWalk people families fuel h res, x ∈ L) →
        aWalk (people.filter (fun p => L.contains p.handle))
          (families.filter (ancPred L)) fuel h res =
          aWalk people families fuel h res) ∧
      (∀ l res, (∀ x ∈ aFams people families fuel l res, x ∈ L) →
        aFams (people.filter (fun p => L.contains p.handle))
          (families.filter (ancPred L)) fuel l res =
          aFams people families fuel l res) := by
  intro fuel
  induction fuel with
  | zero => exact ⟨fun h res _ => rfl, fun l res _ => rfl⟩
  | succ n ih =>
    obtain ⟨ihW, ihF⟩ := ih
    refine ⟨fun h res h1 => ?_, fun l res h1 => ?_⟩
    · by_cases hg : res.contains h
      · simp only [aWalk]
        rw [if_pos hg, if_pos hg]
      · have hhL : h ∈ L := h1 h (aWalk_mem_self people families n h res hg)
        simp only [aWalk] at h1 ⊢
        rw [if_neg hg] at h1
        rw [if_neg hg, if_neg hg]
        cases hp : pget people h with
        | none =>
          have hfp : pget (people.filter (fun p => L.contains p.handle)) h = none := by
            rw [pget_filter, hp]
            split <;> rfl
          rw [hfp]
        | some p =>
          have hfp : pget (people.filter (fun p => L.contains p.handle)) h = some p := by
            rw [pget_filter, if_pos ((contains_true L h).mpr hhL)]
            exact hp
          rw [hp] at h1
          rw [hfp]
          dsimp only at h1 ⊢
          exact ihF p.parentFamilies (addSet res h) h1
    · cases l with
      | nil => rfl
      | cons pfId rest =>
        cases n with
        | zero => rw [aFams_one, aFams_one]
        | succ m =>
          simp only [aFams] at h1 ⊢
          cases hfq : fget families pfId with
          | none =>
            have hffn := fget_filter_none families (ancPred L) pfId hfq
            rw [hfq] at h1
            rw [hffn]
            dsimp only at h1 ⊢
            exact ihF rest res h1
          | some fam =>
            rw [hfq] at h1
            dsimp only at h1 ⊢
            cases hF : fam.fatherHandle with
            | none =>
              cases hM : fam.motherHandle with
              | none =>
                rw [hF, hM] at h1
                dsimp only at h1
                have hpred : ancPred L fam = false := by
                  simp [ancPred, hF, hM]
                have hffn : fget (families.filter (ancPred L)) pfId = none := by
                  rw [fget_filter_nodup families (ancPred L) pfId fam hnd hfq,
                    if_neg (by simp [hpred])]
                rw [hffn]
                dsimp only
                exact ihF rest res h1
              | some mo =>
                rw [hF, hM] at h1
                dsimp only at h1
                have hmoL : mo ∈ L := by
                  by_cases hmres : res.contains mo
                  · exact h1 mo ((aWalk_mono people families (m + 1)).2 rest _
                      ((aWalk_mono people families (m + 1)).1 mo res
                        ((contains_true res mo).mp hmres)))
                  · exact h1 mo ((aWalk_mono people families (m + 1)).2 rest _
                      (aWalk_mem_self people families m mo res hmres))
                have hpred : ancPred L fam = true := by
                  simp [ancPred, hF, hM, hmoL]
                have hffs : fget (families.filter (ancPred L)) pfId = some fam := by
                  rw [fget_filter_nodup families (ancPred L) pfId fam hnd hfq,
                    if_pos hpred]
                rw [hffs]
                dsimp only
                rw [hF, hM]
                dsimp only
                have hw := ihW mo res
                  (fun x hx => h1 x ((aWalk_mono people families (m + 1)).2 rest _ hx))
                rw [hw]
                exact ihF rest _ h1
            | some fa =>
              rw [hF] at h1
              have hfaL : fa ∈ L := by
                cases hM0 : fam.motherHandle with
                | none =>
                  rw [hM0] at h1
                  dsimp only at h1
                  by_cases hfres : res.contains fa
                  · exact h1 fa ((aWalk_mono people families (m + 1)).2 rest _
                      ((aWalk_mono people families (m + 1)).1 fa res
                        ((contains_true res fa).mp hfres)))
                  · exact h1 fa ((aWalk_mono people families (m + 1)).2 rest _
                      (aWalk_mem_self people families m fa res hfres))
                | some mo =>
                  rw [hM0] at h1
                  dsimp only at h1
                  have hchain : ∀ x ∈ aWalk people families (m + 1) fa res, x ∈ L :=
                    fun x hx => h1 x ((aWalk_mono people families (m + 1)).2 rest _
                      ((aWalk_mono people families (m + 1)).1 mo _ hx))
                  by_cases hfres : res.contains fa
                  · exact hchain fa ((aWalk_mono people families (m + 1)).1 fa res
                      ((contains_true res fa).mp hfres))
                  · exact hchain fa (aWalk_mem_self people families m fa res hfres)
              have hpred : ancPred L fam = true := by
                simp [ancPred, hF, hfaL]
              have hffs : fget (families.filter (ancPred L)) pfId = some fam := by
                rw [fget_filter_nodup families (ancPred L) pfId fam hnd hfq,
                  if_pos hpred]
              rw [hffs]
              dsimp only
              cases hM : fam.motherHandle with
              | none =>
                dsimp only
                have h2 : ∀ x ∈ aFams people families (m + 1) rest
                    (aWalk people families (m + 1) fa res), x ∈ L := by
                  intro x hx
                  apply h1
                  rw [hM]
                  exact hx
                have hw := ihW fa res
                  (fun x hx => h2 x ((aWalk_mono people families (m + 1)).2 rest _ hx))
                rw [hF]
                show aFams (people.filter (fun p => L.contains p.handle))
                    (families.filter (ancPred L)) (m + 1) rest
                    (aWalk (people.filter (fun p => L.contains p.handle))
                      (families.filter (ancPred L)) (m + 1) fa res) =
                  aFams people families (m + 1) rest
                    (aWalk people families (m + 1) fa res)
                rw [hw]
                exact ihF rest _ h2
              | some mo =>
                dsimp only
                have h2 : ∀ x ∈ aFams people families (m + 1) rest
                    (aWalk people families (m + 1) mo
                      (aWalk people families (m + 1) fa res)), x ∈ L := by
                  intro x hx
                  apply h1
                  rw [hM]
                  exact hx
                have hw1 := ihW fa res
                  (fun x hx => h2 x ((aWalk_mono people families (m + 1)).2 rest _
                    ((aWalk_mono people families (m + 1)).1 mo _ hx)))
                rw [hF]
                show aFams (people.filter (fun p => L.contains p.handle))
                    (families.filter (ancPred L)) (m + 1) rest
                    (aWalk (people.filter (fun p => L.contains p.handle))
                      (families.filter (ancPred L)) (m + 1) mo
                      (aWalk (people.filter (fun p => L.contains p.handle))
                        (families.filter (ancPred L)) (m + 1) fa res)) =
                  aFams people families (m + 1) rest
                    (aWalk people families (m + 1) mo
                      (aWalk people families (m + 1) fa res))
                rw [hw1]
                have hw2 := ihW mo (aWalk people families (m + 1) fa res)
                  (fun x hx => h2 x ((aWalk_mono people families (m + 1)).2 rest _ hx))
                rw [hw2]
                exact ihF rest _ h2

/-! ### The fuel formulas only shrink on filtered data -/

lemma famParents_filter_len (families : List TreeFamily) (r : TreeFamily → Bool) :
    (famParents (families.filter r)).length ≤ (famParents families).length := by
  induction families with
  | nil => simp
  | cons f t ih =>
    rw [List.filter_cons]
    simp only [famParents] at ih
    by_cases hr : r f = true
    · rw [if_pos hr]
      simp only [famParents, List.foldr_cons, List.length_append]
      omega
    · rw [if_neg (by simpa using hr)]
      simp only [famParents, List.foldr_cons, List.length_append]
      omega

lemma famChildren_filter_len (families : List TreeFamily) (r : TreeFamily → Bool) :
    (famChildren (families.filter r)).length ≤ (famChildren families).length := by
  induction families with
  | nil => simp
  | cons f t ih =>
    rw [List.filter_cons]
    simp only [famChildren] at ih
    by_cases hr : r f = true
    · rw [if_pos hr]
      simp only [famChildren, List.foldr_cons, List.length_append]
      omega
    · rw [if_neg (by simpa using hr)]
      simp only [famChildren, List.foldr_cons, List.length_append]
      omega

lemma foldr_sum_filter_le {α : Type _} (g : α → ℕ) (q : α → Bool) :
    ∀ l : List α,
      (l.filter q).foldr (fun a acc => g a + acc) 0 ≤
        l.foldr (fun a acc => g a + acc) 0 := by
  intro l
  induction l with
  | nil => simp
  | cons a t ih =>
    rw [List.filter_cons]
    by_cases hq : q a = true
    · rw [if_pos hq]
      simp only [List.foldr_cons]
      omega
    · rw [if_neg (by simpa using hq)]
      simp only [List.foldr_cons]
      omega

lemma aK_filter_le (people : List TreeNode) (q : TreeNode → Bool) :
    aK (people.filter q) ≤ aK people := by
  unfold aK
  have := foldr_sum_filter_le (fun p => p.parentFamilies.length) q people
  have h2 : (people.filter q).foldr (fun p a => p.parentFamilies.length + a) 0 ≤
      people.foldr (fun p a => p.parentFamilies.length + a) 0 := this
  omega

lemma dK_filter_le (people : List TreeNode) (families : List TreeFamily)
    (q : TreeNode → Bool) (r : TreeFamily → Bool) :
    dK (people.filter q) (families.filter r) ≤ dK people families := by
  unfold dK
  have h1 : (people.filter q).foldr (fun p a => p.families.length + a) 0 ≤
      people.foldr (fun p a => p.families.length + a) 0 :=
    foldr_sum_filter_le (fun p => p.families.length) q people
  have h2 : (families.filter r).foldr (fun f a => f.children.length + a) 0 ≤
      families.foldr (fun f a => f.children.length + a) 0 :=
    foldr_sum_filter_le (fun f => f.children.length) r families
  omega

lemma aFuel_filter_le (people : List TreeNode) (families : List TreeFamily)
    (q : TreeNode → Bool) (r : TreeFamily → Bool) :
    aFuel (people.filter q) (families.filter r) ≤ aFuel people families := by
  unfold aFuel
  have h1 := famParents_filter_len families r
  have h2 := aK_filter_le people q
  have h3 : ((famParents (families.filter r)).length + 1) *
      (aK (people.filter q) * aK (people.filter q)) ≤
      ((famParents families).length + 1) * (aK people * aK people) :=
    Nat.mul_le_mul (by omega) (Nat.mul_le_mul h2 h2)
  omega

lemma dFuel_filter_le (people : List TreeNode) (families : List TreeFamily)
    (q : TreeNode → Bool) (r : TreeFamily → Bool) :
    dFuel (people.filter q) (families.filter r) ≤ dFuel people families := by
  unfold dFuel
  have h1 := famParents_filter_len families r
  have h2 := famChildren_filter_len families r
  have h3 := dK_filter_le people families q r
  have h4 : ((famChildren (families.filter r)).length +
      (famParents (families.filter r)).length + 1) *
      (dK (people.filter q) (families.filter r) *
        dK (people.filter q) (families.filter r)) ≤
      ((famChildren families).length + (famParents families).length + 1) *
      (dK people families * dK people families) :=
    Nat.mul_le_mul (by omega) (Nat.mul_le_mul h3 h3)
  omega

lemma filter_idem {α : Type _} (l : List α) (p : α → Bool) :
    (l.filter p).filter p = l.filter p := by
  rw [List.filter_filter]
  apply List.filter_congr
  intro a _
  exact Bool.and_self _

/-- Applying `filterAncestors` to its own output changes nothing: the
second walk retraces the first one inside the filtered data. -/
lemma filterAncestors_idem (handle : String) (people : List TreeNode)
    (families : List TreeFamily)
    (hnd : (families.map TreeFamily.handle).Nodup) :
    filterAncestors handle (filterAncestors handle people families).1
      (filterAncestors handle people families).2 =
      filterAncestors handle people families := by
  have hstab := aWalk_fuel_stable handle
    (people.filter (fun p =>
      (aWalk people families (aFuel people families) handle []).contains p.handle))
    (families.filter (ancPred
      (aWalk people families (aFuel people families) handle [])))
    (aFuel people families)
    (aFuel_filter_le people families _ _)
  have hsim := (aWalk_sim people families
    (aWalk people families (aFuel people families) handle []) hnd
    (aFuel people families)).1 handle [] (fun x hx => hx)
  have hR2 := hstab.symm.trans hsim
  simp only [filterAncestors]
  rw [hR2]
  rw [filter_idem, filter_idem]

/-- Applying `filterDescendants` to its own output changes nothing. -/
lemma filterDescendants_idem (handle : String) (people : List TreeNode)
    (families : List TreeFamily) :
    filterDescendants handle (filterDescendants handle people families).1
      (filterDescendants handle people families).2 =
      filterDescendants handle people families := by
  have hstab := dWalk_fuel_stable handle
    (people.filter (fun p =>
      (dWalk people families (dFuel people families) handle ([], [])).1.contains p.handle))
    (families.filter (fun f =>
      (dWalk people families (dFuel people families) handle ([], [])).2.contains f.handle))
    (dFuel people families)
    (dFuel_filter_le people families _ _)
  have hsim := (dWalk_sim people families
    (dWalk people families (dFuel people families) handle ([], [])).1
    (dWalk people families (dFuel people families) handle ([], [])).2
    (dFuel people families)).1 handle ([], []) (fun x hx => hx) (fun x hx => hx)
  have hR2 := hstab.symm.trans hsim
  simp only [filterDescendants]
  rw [hR2]
  rw [filter_idem, filter_idem]

/-- C9: `filterAncestors` and `filterDescendants` are idempotent: with
distinct family handles (as the data model guarantees), applying either
filter a second time to its own output with the same handle returns
exactly the same filteredPeople and filteredFamilies. -/
theorem filter_functions_idempotent (handle : String) (people : List TreeNode)
    (families : List TreeFamily)
    (hnd : (families.map TreeFamily.handle).Nodup) :
    filterAncestors handle (filterAncestors handle people families).1
      (filterAncestors handle people families).2 =
      filterAncestors handle people families ∧
    filterDescendants handle (filterDescendants handle people families).1
      (filterDescendants handle people families).2 =
      filterDescendants handle people families :=
  ⟨filterAncestors_idem handle people families hnd,
    filterDescendants_idem handle people families⟩

namespace C9w

def gp : TreeNode := C5x.mkP "gp" ["F1"] []

def kid : TreeNode := C5x.mkP "kid" [] ["F1"]

def F1 : TreeFamily :=
  { handle := "F1", fatherHandle := some "gp", motherHandle := none,
    children := ["kid"] }

def people : List TreeNode := [gp, kid]

def families : List TreeFamily := [F1]

end C9w

/-- Instantiation of the filter idempotence on a two-person chain. -/
theorem filter_functions_idempotent_witness :
    (C9w.families.map TreeFamily.handle).Nodup ∧
    (filterAncestors "kid" (filterAncestors "kid" C9w.people C9w.families).1
        (filterAncestors "kid" C9w.people C9w.families).2 =
      filterAncestors "kid" C9w.people C9w.families ∧
     filterDescendants "kid" (filterDescendants "kid" C9w.people C9w.families).1
        (filterDescendants "kid" C9w.people C9w.families).2 =
      filterDescendants "kid" C9w.people C9w.families) :=
  ⟨by decide, filter_functions_idempotent "kid" C9w.people C9w.families (by decide)⟩
